import Mathlib

/-!
# Verification of the prototool dynamic protobuf core

The repository exposes its CLI glue in `internal/exec/exec.go`; the dynamic
protobuf engine (descriptor registry, wire codec, JSON codec) described by the
specification is not part of the shipped sources, so those components are
modelled here from the specification's own words.  `ExitError`, which is part
of the shipped sources, is embedded directly from `internal/exec/exec.go`.

All definitions are executable: encoding is structural recursion over a
mutually-inductive value family, decoding threads an explicit fuel bounded by
the input length.
-/

namespace Prototool

deriving instance DecidableEq for Except

/-! ## Error taxonomy (spec §7) -/

/-- Modelled from the spec: the error taxonomy of §7 — `SchemaError`
(descriptor set incomplete, unknown JSON field), `NotFoundError`,
`WireMismatchError` / `MalformedVarintError` / `TruncatedInputError`
(malformed binary input), `OneofConflictError` (naming the group and both
fields).  The RPC-transport errors are out of scope for these claims. -/
inductive Err where
  | SchemaError (name : String)
  | NotFoundError (name : String)
  | WireMismatchError (fieldNumber : Nat)
  | MalformedVarintError
  | TruncatedInputError
  | OneofConflictError (group : String) (field1 : String) (field2 : String)
deriving DecidableEq, Repr

/-! ## Varint encoding (spec §4.2: wire format primitives) -/

/-- Base-128 little-endian varint emission; the fuel argument bounds the byte
count (fuel 9 covers every value below `128^10`, i.e. all 64-bit values). -/
def varintEncodeAux : Nat → Nat → List Nat
  | 0, n => [n % 128]
  | fuel + 1, n => if n < 128 then [n] else (n % 128 + 128) :: varintEncodeAux fuel (n / 128)

/-- Modelled from the spec: minimal varint encoding of a value, at most 10
bytes for 64-bit values. -/
def varintEncode (n : Nat) : List Nat := varintEncodeAux 9 n

/-- Varint reader capped at `allowed` remaining bytes: running out of the cap
is a `MalformedVarintError` (spec: "cap at 10 bytes"), running out of input is
a `TruncatedInputError`. -/
def readVarintAux : Nat → List Nat → Except Err (Nat × List Nat)
  | 0, _ => .error .MalformedVarintError
  | _ + 1, [] => .error .TruncatedInputError
  | allowed + 1, b :: rest =>
      if b % 256 < 128 then .ok (b % 256, rest)
      else
        match readVarintAux allowed rest with
        | .ok (v, rest') => .ok (b % 256 % 128 + 128 * v, rest')
        | .error e => .error e

/-- Modelled from the spec: read one varint from the front of the input,
failing with `MalformedVarintError` on overlong varints (cap at 10 bytes). -/
def readVarint : List Nat → Except Err (Nat × List Nat) := readVarintAux 10

theorem varintEncodeAux_bytes_lt (fuel n : Nat) :
    ∀ b ∈ varintEncodeAux fuel n, b < 256 := by
  induction fuel generalizing n with
  | zero =>
    intro b hb
    simp only [varintEncodeAux, List.mem_singleton] at hb
    omega
  | succ k ih =>
    intro b hb
    simp only [varintEncodeAux] at hb
    split at hb
    · simp only [List.mem_singleton] at hb; omega
    · rcases List.mem_cons.mp hb with h | h
      · omega
      · exact ih _ b h

theorem varintEncodeAux_length_pos (fuel n : Nat) :
    0 < (varintEncodeAux fuel n).length := by
  cases fuel with
  | zero => simp [varintEncodeAux]
  | succ k =>
    simp only [varintEncodeAux]
    split <;> simp

theorem varintEncodeAux_length_le (fuel n : Nat) :
    (varintEncodeAux fuel n).length ≤ fuel + 1 := by
  induction fuel generalizing n with
  | zero => simp [varintEncodeAux]
  | succ k ih =>
    simp only [varintEncodeAux]
    split
    · simp
    · simpa using Nat.succ_le_succ (ih (n / 128))

/-- Reading back a varint emitted with enough fuel recovers the value and
leaves the rest of the input untouched. -/
theorem readVarintAux_varintEncodeAux (fuel : Nat) :
    ∀ (n : Nat) (allowed : Nat) (rest : List Nat),
      n < 128 ^ (fuel + 1) → fuel + 1 ≤ allowed →
      readVarintAux allowed (varintEncodeAux fuel n ++ rest) = .ok (n, rest) := by
  induction fuel with
  | zero =>
    intro n allowed rest hn hall
    obtain ⟨a, rfl⟩ : ∃ a, allowed = a + 1 := ⟨allowed - 1, by omega⟩
    have hn' : n < 128 := by simpa using hn
    simp only [varintEncodeAux, List.cons_append, List.nil_append, readVarintAux]
    rw [Nat.mod_eq_of_lt (by omega), Nat.mod_eq_of_lt (by omega)]
    simp [hn']
  | succ k ih =>
    intro n allowed rest hn hall
    obtain ⟨a, rfl⟩ : ∃ a, allowed = a + 1 := ⟨allowed - 1, by omega⟩
    simp only [varintEncodeAux]
    by_cases h : n < 128
    · simp only [h, if_true, List.cons_append, List.nil_append, readVarintAux]
      rw [Nat.mod_eq_of_lt (by omega), Nat.mod_eq_of_lt (by omega)]
      simp [h]
    · simp only [h, if_false, List.cons_append, readVarintAux]
      have hb : ¬ (n % 128 + 128) % 256 < 128 := by omega
      rw [if_neg hb]
      have hdiv : n / 128 < 128 ^ (k + 1) := by
        rw [pow_succ] at hn
        exact Nat.div_lt_of_lt_mul (by omega)
      rw [ih (n / 128) a rest hdiv (by omega)]
      show Except.ok ((n % 128 + 128) % 256 % 128 + 128 * (n / 128), rest) = Except.ok (n, rest)
      have h1 : (n % 128 + 128) % 256 % 128 + 128 * (n / 128) = n := by
        have := Nat.mod_add_div n 128
        omega
      rw [h1]

/-- Top-level varint round-trip for 64-bit values. -/
theorem readVarint_varintEncode (n : Nat) (rest : List Nat) (hn : n < 2 ^ 64) :
    readVarint (varintEncode n ++ rest) = .ok (n, rest) := by
  have h : n < 128 ^ 10 := lt_of_lt_of_le hn (by norm_num)
  exact readVarintAux_varintEncodeAux 9 n 10 rest h (by omega)

/-- A successful varint read consumes at least one byte. -/
theorem readVarintAux_consumes (allowed : Nat) :
    ∀ (bs rest : List Nat) (v : Nat),
      readVarintAux allowed bs = .ok (v, rest) → rest.length < bs.length := by
  induction allowed with
  | zero => intro bs rest v h; simp [readVarintAux] at h
  | succ k ih =>
    intro bs rest v h
    cases bs with
    | nil => simp [readVarintAux] at h
    | cons b bs' =>
      simp only [readVarintAux] at h
      split at h
      · simp only [Except.ok.injEq, Prod.mk.injEq] at h
        simp [← h.2]
      · cases hrec : readVarintAux k bs' with
        | ok p =>
          obtain ⟨v', rest'⟩ := p
          rw [hrec] at h
          simp only [Except.ok.injEq, Prod.mk.injEq] at h
          obtain ⟨h1, h2⟩ := h
          have hr := ih bs' rest' v' hrec
          rw [h2] at hr
          simp only [List.length_cons]
          omega
        | error e => rw [hrec] at h; simp at h

theorem readVarint_consumes (bs rest : List Nat) (v : Nat)
    (h : readVarint bs = .ok (v, rest)) : rest.length < bs.length :=
  readVarintAux_consumes 10 bs rest v h

/-! ## Fixed-width and length-delimited primitives -/

/-- Little-endian fixed-width emission of `n` over `k` bytes. -/
def fixedEncode : Nat → Nat → List Nat
  | 0, _ => []
  | k + 1, n => n % 256 :: fixedEncode k (n / 256)

/-- Little-endian interpretation of a byte list. -/
def fixedDecodeList : List Nat → Nat
  | [] => 0
  | b :: rest => b % 256 + 256 * fixedDecodeList rest

/-- Take exactly `k` bytes from the input; a length that exceeds the remaining
input is a `TruncatedInputError` (spec §4.2). -/
def readBytes (k : Nat) (bs : List Nat) : Except Err (List Nat × List Nat) :=
  if k ≤ bs.length then .ok (bs.take k, bs.drop k) else .error .TruncatedInputError

theorem fixedEncode_length (k n : Nat) : (fixedEncode k n).length = k := by
  induction k generalizing n with
  | zero => simp [fixedEncode]
  | succ j ih => simp [fixedEncode, ih]

theorem fixedDecodeList_fixedEncode (k n : Nat) (hn : n < 256 ^ k) :
    fixedDecodeList (fixedEncode k n) = n := by
  induction k generalizing n with
  | zero => simp at hn; simp [fixedEncode, fixedDecodeList, hn]
  | succ j ih =>
    simp only [fixedEncode, fixedDecodeList]
    have hdiv : n / 256 < 256 ^ j := by
      rw [pow_succ] at hn
      exact Nat.div_lt_of_lt_mul (by omega)
    rw [ih (n / 256) hdiv]
    have := Nat.mod_add_div n 256
    omega

theorem readBytes_exact (xs rest : List Nat) :
    readBytes xs.length (xs ++ rest) = .ok (xs, rest) := by
  simp [readBytes, List.take_left, List.drop_left]

/-! ## Two's-complement interpretation helpers -/

/-- The unsigned 64-bit image of a signed value (two's complement). -/
def toU64 (i : Int) : Nat := (i % (2 ^ 64 : Int)).toNat

/-- Sign-extend an unsigned 64-bit value back to a signed integer. -/
def fromU64 (n : Nat) : Int :=
  if n % 2 ^ 64 < 2 ^ 63 then ((n % 2 ^ 64 : Nat) : Int)
  else ((n % 2 ^ 64 : Nat) : Int) - 2 ^ 64

theorem fromU64_toU64 (i : Int) (h1 : -(2 ^ 63) ≤ i) (h2 : i < 2 ^ 63) :
    fromU64 (toU64 i) = i := by
  simp only [toU64, fromU64]
  omega

theorem toU64_lt (i : Int) : toU64 i < 2 ^ 64 := by
  simp only [toU64]
  omega

/-! ## Descriptor data model (spec §3) -/

/-- Modelled from the spec: scalar wire-type categories of a FieldDescriptor —
varint-encodable scalars, fixed-width scalars, and the length-delimited
scalars string and bytes.  The spec names no floating-point types; none are
modelled. -/
inductive ScalarType where
  | sInt32
  | sInt64
  | sUint32
  | sUint64
  | sBool
  | sFixed32
  | sFixed64
  | sString
  | sBytes
deriving DecidableEq, Repr

/-- Modelled from the spec: a field's type is a scalar, or a reference by
fully-qualified name to an enum or embedded-message definition. -/
inductive FieldType where
  | scalar (s : ScalarType)
  | enumTy (typeName : String)
  | messageTy (typeName : String)
deriving DecidableEq, Repr

/-- Modelled from the spec: repetition of a field — singular, repeated, map. -/
inductive Repetition where
  | singular
  | repeated
  | mapKind
deriving DecidableEq, Repr

/-- Modelled from the spec: FieldDescriptor — field number (positive, unique
within the owning message), name, type, repetition.  For map fields the type
is the synthetic map-entry message. -/
structure FieldDescriptor where
  number : Nat
  name : String
  typ : FieldType
  label : Repetition
deriving DecidableEq, Repr

/-- Modelled from the spec: a oneof group names a subset of fields of which at
most one may be set. -/
structure OneofGroup where
  name : String
  memberNames : List String
deriving DecidableEq, Repr

/-- Modelled from the spec: MessageDescriptor — fully-qualified name, ordered
fields, oneof groups, synthetic map-entry flag (exactly fields `key` = 1 and
`value` = 2). -/
structure MessageDescriptor where
  name : String
  fields : List FieldDescriptor
  oneofs : List OneofGroup
  isMapEntry : Bool
deriving DecidableEq, Repr

/-- Modelled from the spec: one named value of an enum. -/
structure EnumValue where
  name : String
  number : Int
deriving DecidableEq, Repr

/-- Modelled from the spec: EnumDescriptor — fully-qualified name plus a
mapping from integer value to symbolic name; values need not be unique and
the first-declared name wins on reverse lookup. -/
structure EnumDescriptor where
  name : String
  values : List EnumValue
deriving DecidableEq, Repr

/-- Modelled from the spec: MethodDescriptor — name, request type name,
response type name, and the two streaming flags. -/
structure MethodDescriptor where
  name : String
  inputType : String
  outputType : String
  clientStreaming : Bool
  serverStreaming : Bool
deriving DecidableEq, Repr

/-- Modelled from the spec: ServiceDescriptor — fully-qualified name and
ordered methods. -/
structure ServiceDescriptor where
  name : String
  methods : List MethodDescriptor
deriving DecidableEq, Repr

/-- Modelled from the spec: FileDescriptor — package name, declared messages,
enums and services, plus dependencies. -/
structure FileDescriptor where
  packageName : String
  messages : List MessageDescriptor
  enums : List EnumDescriptor
  services : List ServiceDescriptor
  dependencies : List String
deriving DecidableEq, Repr

/-- Modelled from the spec: a DescriptorSet is an ordered collection of
FileDescriptor entries. -/
abbrev DescriptorSet := List FileDescriptor

/-! ## DescriptorRegistry (spec §4.1) -/

/-- Modelled from the spec: the registry indexes every message, enum and
service of a descriptor set for exact-match resolution by fully-qualified
name. -/
structure Registry where
  messages : List MessageDescriptor
  enums : List EnumDescriptor
  services : List ServiceDescriptor
deriving DecidableEq, Repr

/-- Exact-match message lookup used internally by the codecs. -/
def findMessage (reg : Registry) (n : String) : Option MessageDescriptor :=
  reg.messages.find? (fun d => d.name == n)

/-- Exact-match enum lookup used internally by the codecs. -/
def findEnum (reg : Registry) (n : String) : Option EnumDescriptor :=
  reg.enums.find? (fun d => d.name == n)

/-- Exact-match service lookup. -/
def findService (reg : Registry) (n : String) : Option ServiceDescriptor :=
  reg.services.find? (fun d => d.name == n)

/-- Modelled from the spec: `resolveMessage` returns the descriptor or fails
with `NotFoundError`. -/
def resolveMessage (reg : Registry) (n : String) : Except Err MessageDescriptor :=
  match findMessage reg n with
  | some d => .ok d
  | none => .error (.NotFoundError n)

/-- Modelled from the spec: `resolveEnum` returns the descriptor or fails
with `NotFoundError`. -/
def resolveEnum (reg : Registry) (n : String) : Except Err EnumDescriptor :=
  match findEnum reg n with
  | some d => .ok d
  | none => .error (.NotFoundError n)

/-- Modelled from the spec: `resolveService` returns the descriptor or fails
with `NotFoundError`. -/
def resolveService (reg : Registry) (n : String) : Except Err ServiceDescriptor :=
  match findService reg n with
  | some d => .ok d
  | none => .error (.NotFoundError n)

/-- Flatten a descriptor set into the registry index. -/
def buildRegistry (ds : DescriptorSet) : Registry where
  messages := ds.flatMap (·.messages)
  enums := ds.flatMap (·.enums)
  services := ds.flatMap (·.services)

/-- The missing name referenced by a field's type, if any: an
embedded-message or enum field type name that does not resolve. -/
def fieldMissingRef (reg : Registry) (fd : FieldDescriptor) : Option String :=
  match fd.typ with
  | .scalar _ => none
  | .enumTy t => if (findEnum reg t).isSome then none else some t
  | .messageTy t => if (findMessage reg t).isSome then none else some t

/-- The first missing type reference inside a message, if any. -/
def messageMissingRef (reg : Registry) (md : MessageDescriptor) : Option String :=
  md.fields.findSome? (fieldMissingRef reg)

/-- The first missing request/response type name of a method, if any. -/
def methodMissingRef (reg : Registry) (md : MethodDescriptor) : Option String :=
  if ¬(findMessage reg md.inputType).isSome then some md.inputType
  else if ¬(findMessage reg md.outputType).isSome then some md.outputType
  else none

/-- The first missing reference inside a service, if any. -/
def serviceMissingRef (reg : Registry) (sd : ServiceDescriptor) : Option String :=
  sd.methods.findSome? (methodMissingRef reg)

/-- The first missing reference anywhere in the registry, if any. -/
def registryMissingRef (reg : Registry) : Option String :=
  match reg.messages.findSome? (messageMissingRef reg) with
  | some t => some t
  | none => reg.services.findSome? (serviceMissingRef reg)

/-- Modelled from the spec: `load(descriptorSet)` validates referential
completeness (every embedded-message or enum field type name and every
service's request/response type name must resolve) and fails with a
`SchemaError` listing the missing name otherwise. -/
def load (ds : DescriptorSet) : Except Err Registry :=
  let reg := buildRegistry ds
  match registryMissingRef reg with
  | some t => .error (.SchemaError t)
  | none => .ok reg

/-! ## DynamicMessage value model (spec §3, §9) -/

/-- Modelled from the spec: an opaque unknown-field byte span preserved by
decode, keyed by field number, holding the raw encoded bytes (tag included)
for verbatim re-emission. -/
structure UnknownSpan where
  fieldNumber : Nat
  raw : List Nat
deriving DecidableEq, Repr

mutual
/-- Modelled from the spec: the explicit tagged-variant value model (§9) — a
field value is a scalar (integer, boolean, or byte sequence: string values
are carried as their byte sequences), a nested message (field map plus its
preserved unknown spans), an ordered list for repeated fields, or an ordered
list of key/value pairs for map fields. -/
inductive Value where
  | vInt (i : Int)
  | vBool (b : Bool)
  | vBytes (bs : List Nat)
  | vMsg (fs : FieldMap) (unknown : List UnknownSpan)
  | vList (vs : ValueList)
  | vMap (es : EntryList)
deriving DecidableEq

/-- An ordered list of values (elements of a repeated field). -/
inductive ValueList where
  | nil
  | cons (v : Value) (tail : ValueList)
deriving DecidableEq

/-- The mapping from field number to typed value owned by a message,
represented canonically in ascending field-number order. -/
inductive FieldMap where
  | nil
  | cons (number : Nat) (v : Value) (tail : FieldMap)
deriving DecidableEq

/-- The ordered key/value pairs of a map field. -/
inductive EntryList where
  | nil
  | cons (key : Value) (val : Value) (tail : EntryList)
deriving DecidableEq
end

/-- Modelled from the spec: a DynamicMessage owns a mapping from field number
to typed value plus the preserved unknown-field spans. -/
structure DynamicMessage where
  fields : FieldMap
  unknown : List UnknownSpan
deriving DecidableEq

/-! ### Field-map helpers -/

/-- Look up the value stored for a field number. -/
def getField : FieldMap → Nat → Option Value
  | .nil, _ => none
  | .cons m v t, n => if m = n then some v else getField t n

/-- Store a value for a field number, keeping the map in ascending
field-number order (replacing any existing binding). -/
def setField : FieldMap → Nat → Value → FieldMap
  | .nil, n, v => .cons n v .nil
  | .cons m w t, n, v =>
      if n = m then .cons n v t
      else if n < m then .cons n v (.cons m w t)
      else .cons m w (setField t n v)

/-- The field numbers of a field map, in storage order. -/
def fieldNumbers : FieldMap → List Nat
  | .nil => []
  | .cons n _ t => n :: fieldNumbers t

/-- Every stored field number is strictly above `n`, in ascending order. -/
def fmSortedAbove (n : Nat) : FieldMap → Bool
  | .nil => true
  | .cons m _ t => decide (n < m) && fmSortedAbove m t

/-- The representation invariant: stored strictly ascending by field number. -/
def fmSorted : FieldMap → Bool
  | .nil => true
  | .cons m _ t => fmSortedAbove m t

/-- Append two value lists. -/
def vlAppend : ValueList → ValueList → ValueList
  | .nil, ys => ys
  | .cons x t, ys => .cons x (vlAppend t ys)

/-- Emptiness test for a value list. -/
def vlIsNil : ValueList → Bool
  | .nil => true
  | .cons _ _ => false

/-- Emptiness test for an entry list. -/
def elIsNil : EntryList → Bool
  | .nil => true
  | .cons _ _ _ => false

/-- The keys of an entry list, in order. -/
def entryKeys : EntryList → List Value
  | .nil => []
  | .cons k _ t => k :: entryKeys t

/-- Remove every entry with the given key. -/
def entryRemove (k : Value) : EntryList → EntryList
  | .nil => .nil
  | .cons k' v' t => if k' = k then entryRemove k t else .cons k' v' (entryRemove k t)

/-- Append one entry at the end. -/
def entryAppend : EntryList → Value → Value → EntryList
  | .nil, k, v => .cons k v .nil
  | .cons k' v' t, k, v => .cons k' v' (entryAppend t k v)

/-- Modelled from the spec: last-occurrence-wins insertion for duplicate map
keys — any previous entry for the key is dropped and the new pair is placed
at the end. -/
def entryInsert (es : EntryList) (k v : Value) : EntryList :=
  entryAppend (entryRemove k es) k v

/-- Append decoded elements to a repeated field, merging packed and unpacked
occurrences into one ordered list in the order encountered. -/
def appendList (fs : FieldMap) (n : Nat) (vs : ValueList) : FieldMap :=
  match getField fs n with
  | some (.vList old) => setField fs n (.vList (vlAppend old vs))
  | _ => setField fs n (.vList vs)

/-- Insert one decoded map entry (last-occurrence-wins). -/
def mapInsert (fs : FieldMap) (n : Nat) (k v : Value) : FieldMap :=
  match getField fs n with
  | some (.vMap old) => setField fs n (.vMap (entryInsert old k v))
  | _ => setField fs n (.vMap (.cons k v .nil))

/-! ## Wire-format classification (spec §4.2) -/

/-- Physical wire type of a scalar category: varint scalars are wire type 0,
fixed-width scalars wire type 5 (32-bit) or 1 (64-bit), string/bytes wire
type 2. -/
def wireTypeOfScalar : ScalarType → Nat
  | .sInt32 => 0
  | .sInt64 => 0
  | .sUint32 => 0
  | .sUint64 => 0
  | .sBool => 0
  | .sFixed32 => 5
  | .sFixed64 => 1
  | .sString => 2
  | .sBytes => 2

/-- Physical wire type declared by a field type: enums are varints, embedded
messages are length-delimited. -/
def wireTypeOf : FieldType → Nat
  | .scalar s => wireTypeOfScalar s
  | .enumTy _ => 0
  | .messageTy _ => 2

/-- Modelled from the spec: repeated scalar numeric fields are packed;
repeated message, string and bytes fields are unpacked. -/
def packable : FieldType → Bool
  | .scalar s => wireTypeOfScalar s != 2
  | .enumTy _ => true
  | .messageTy _ => false

/-- The tag bytes for a field number and wire type. -/
def tagBytes (n wt : Nat) : List Nat := varintEncode (8 * n + wt)

/-- Length-prefix a payload. -/
def lenPayload (bs : List Nat) : List Nat := varintEncode bs.length ++ bs

/-- The wire payload (without tag) of one numeric scalar or enum value. -/
def numericPayload : FieldType → Value → List Nat
  | .scalar .sInt32, .vInt i => varintEncode (toU64 i)
  | .scalar .sInt64, .vInt i => varintEncode (toU64 i)
  | .scalar .sUint32, .vInt i => varintEncode (toU64 i)
  | .scalar .sUint64, .vInt i => varintEncode (toU64 i)
  | .scalar .sBool, .vBool b => varintEncode (if b then 1 else 0)
  | .scalar .sFixed32, .vInt i => fixedEncode 4 (toU64 i)
  | .scalar .sFixed64, .vInt i => fixedEncode 8 (toU64 i)
  | .enumTy _, .vInt i => varintEncode (toU64 i)
  | _, _ => []

/-- Concatenated element encodings of a packed repeated scalar field. -/
def packedPayload (ft : FieldType) : ValueList → List Nat
  | .nil => []
  | .cons v t => numericPayload ft v ++ packedPayload ft t

/-- Key/value shape of a synthetic map-entry message: field `key` = 1 must be
a non-bytes scalar, field `value` = 2 any singular type. -/
def mapEntryInfo (md : MessageDescriptor) : Option (ScalarType × FieldType) :=
  match md.fields with
  | [kf, vf] =>
      if kf.number = 1 && kf.name == "key" && vf.number = 2 && vf.name == "value"
          && kf.label == .singular && vf.label == .singular then
        match kf.typ with
        | .scalar st => if st == .sBytes then none else some (st, vf.typ)
        | _ => none
      else none
  | _ => none

/-- The default (zero) value of a field type, used for map entries whose key
or value is absent from the wire. -/
def defaultValue : FieldType → Value
  | .scalar .sBool => .vBool false
  | .scalar .sString => .vBytes []
  | .scalar .sBytes => .vBytes []
  | .scalar _ => .vInt 0
  | .enumTy _ => .vInt 0
  | .messageTy _ => .vMsg .nil []

/-- Concatenation of preserved unknown-field spans, in original order. -/
def spansJoin (unk : List UnknownSpan) : List Nat :=
  match unk with
  | [] => []
  | s :: t => s.raw ++ spansJoin t

/-! ## DynamicMessage wire encoder (spec §4.2) -/

mutual
/-- Modelled from the spec: emit the known fields of a message.  The field
map is kept in ascending field-number order (its representation invariant),
so iteration order is emission order. -/
def encodeFields (reg : Registry) (md : MessageDescriptor) : FieldMap → List Nat
  | .nil => []
  | .cons n v t => encHead reg md n v ++ encodeFields reg md t

/-- Emit one known field: resolve its descriptor by number (an unresolvable
number emits nothing) and dispatch on its repetition and the value's kind —
singular values with their tag and payload, repeated scalar numerics packed,
repeated message/string/bytes unpacked, maps entry by entry. -/
def encHead (reg : Registry) (md : MessageDescriptor) (n : Nat) : Value → List Nat
  | .vInt i =>
      (match md.fields.find? (fun fd => fd.number == n) with
       | none => []
       | some fd =>
         match fd.label with
         | .singular => tagBytes n (wireTypeOf fd.typ) ++ numericPayload fd.typ (.vInt i)
         | .repeated => []
         | .mapKind => [])
  | .vBool b =>
      (match md.fields.find? (fun fd => fd.number == n) with
       | none => []
       | some fd =>
         match fd.label with
         | .singular => tagBytes n (wireTypeOf fd.typ) ++ numericPayload fd.typ (.vBool b)
         | .repeated => []
         | .mapKind => [])
  | .vBytes bs =>
      (match md.fields.find? (fun fd => fd.number == n) with
       | none => []
       | some fd =>
         match fd.label with
         | .singular =>
             (match fd.typ with
              | .scalar .sString => tagBytes n 2 ++ lenPayload bs
              | .scalar .sBytes => tagBytes n 2 ++ lenPayload bs
              | ft => tagBytes n (wireTypeOf ft) ++ numericPayload ft (.vBytes bs))
         | .repeated => []
         | .mapKind => [])
  | .vMsg fs unk =>
      (match md.fields.find? (fun fd => fd.number == n) with
       | none => []
       | some fd =>
         match fd.label with
         | .singular =>
             (match fd.typ with
              | .messageTy tn =>
                  (match findMessage reg tn with
                   | some md' =>
                       tagBytes n 2 ++ lenPayload (encodeFields reg md' fs ++ spansJoin unk)
                   | none => [])
              | ft => tagBytes n (wireTypeOf ft) ++ numericPayload ft (.vMsg fs unk))
         | .repeated => []
         | .mapKind => [])
  | .vList vs =>
      (match md.fields.find? (fun fd => fd.number == n) with
       | none => []
       | some fd =>
         match fd.label with
         | .singular => tagBytes n (wireTypeOf fd.typ) ++ numericPayload fd.typ (.vList vs)
         | .repeated =>
             if packable fd.typ then
               tagBytes n 2 ++ lenPayload (packedPayload fd.typ vs)
             else
               encodeUnpacked reg fd.typ n vs
         | .mapKind => [])
  | .vMap es =>
      (match md.fields.find? (fun fd => fd.number == n) with
       | none => []
       | some fd =>
         match fd.label with
         | .singular => tagBytes n (wireTypeOf fd.typ) ++ numericPayload fd.typ (.vMap es)
         | .repeated => []
         | .mapKind =>
             (match fd.typ with
              | .messageTy tn =>
                  (match findMessage reg tn with
                   | some ed =>
                       (match mapEntryInfo ed with
                        | some (kt, vt) => encodeEntries reg kt vt n es
                        | none => [])
                   | none => [])
              | _ => []))

/-- Emit one singular value with its tag: numeric scalars as varint or
fixed-width payloads, string/bytes length-delimited, embedded messages
length-delimited recursively (known fields first, then the nested message's
preserved unknown spans verbatim). -/
def encodeSingular (reg : Registry) (ft : FieldType) (n : Nat) (v : Value) : List Nat :=
  match ft, v with
  | .messageTy tn, .vMsg fs unk =>
      (match findMessage reg tn with
       | some md' => tagBytes n 2 ++ lenPayload (encodeFields reg md' fs ++ spansJoin unk)
       | none => [])
  | .scalar .sString, .vBytes bs => tagBytes n 2 ++ lenPayload bs
  | .scalar .sBytes, .vBytes bs => tagBytes n 2 ++ lenPayload bs
  | ft, v => tagBytes n (wireTypeOf ft) ++ numericPayload ft v

/-- Emit an unpacked repeated field: one tagged occurrence per element. -/
def encodeUnpacked (reg : Registry) (ft : FieldType) (n : Nat) : ValueList → List Nat
  | .nil => []
  | .cons v t => encodeSingular reg ft n v ++ encodeUnpacked reg ft n t

/-- Emit a map field: one length-delimited synthetic key/value sub-message
per entry, in stored order. -/
def encodeEntries (reg : Registry) (kt : ScalarType) (vt : FieldType) (n : Nat) :
    EntryList → List Nat
  | .nil => []
  | .cons k v t =>
      tagBytes n 2 ++
        lenPayload (encodeSingular reg (.scalar kt) 1 k ++ encodeSingular reg vt 2 v) ++
        encodeEntries reg kt vt n t
end

theorem encodeFields_nil (reg : Registry) (md : MessageDescriptor) :
    encodeFields reg md .nil = [] := rfl

theorem encodeFields_cons (reg : Registry) (md : MessageDescriptor) (n : Nat) (v : Value)
    (t : FieldMap) :
    encodeFields reg md (.cons n v t) = encHead reg md n v ++ encodeFields reg md t := rfl

/-- For a resolvable singular field, per-slot emission coincides with
singular emission at the field's type. -/
theorem encHead_singular (reg : Registry) (md : MessageDescriptor) (n : Nat)
    (fd : FieldDescriptor) (v : Value)
    (hfind : md.fields.find? (fun fd' => fd'.number == n) = some fd)
    (hlab : fd.label = .singular) :
    encHead reg md n v = encodeSingular reg fd.typ n v := by
  cases v with
  | vInt i =>
    simp only [encHead, hfind, hlab]
    cases fd.typ with
    | scalar s => cases s <;> rfl
    | enumTy tn => rfl
    | messageTy tn => rfl
  | vBool b =>
    simp only [encHead, hfind, hlab]
    cases fd.typ with
    | scalar s => cases s <;> rfl
    | enumTy tn => rfl
    | messageTy tn => rfl
  | vBytes bs =>
    simp only [encHead, hfind, hlab]
    cases fd.typ with
    | scalar s => cases s <;> rfl
    | enumTy tn => rfl
    | messageTy tn => rfl
  | vMsg fs unk =>
    simp only [encHead, hfind, hlab]
    cases fd.typ with
    | scalar s => cases s <;> rfl
    | enumTy tn => rfl
    | messageTy tn =>
      cases hfm2 : findMessage reg tn <;> simp only [encodeSingular, hfm2]
  | vList vs =>
    simp only [encHead, hfind, hlab]
    cases fd.typ with
    | scalar s => cases s <;> rfl
    | enumTy tn => rfl
    | messageTy tn => rfl
  | vMap es =>
    simp only [encHead, hfind, hlab]
    cases fd.typ with
    | scalar s => cases s <;> rfl
    | enumTy tn => rfl
    | messageTy tn => rfl

/-- Modelled from the spec: `encode(message) → bytes` — known fields in
ascending field-number order, followed by the preserved unknown-field spans
in their original relative order. -/
def encode (reg : Registry) (md : MessageDescriptor) (m : DynamicMessage) : List Nat :=
  encodeFields reg md m.fields ++ spansJoin m.unknown

/-! ## DynamicMessage wire decoder (spec §4.2) -/

/-- The raw bytes a reader consumed: the prefix of `bs` ending where `rest`
begins. -/
def consumed (bs rest : List Nat) : List Nat := bs.take (bs.length - rest.length)

/-- Interpret a decoded varint for a varint-encodable field type: signed
types sign-extend the 64-bit image, unsigned types keep it, bool tests
non-zero, enums sign-extend (enum values are 32-bit signed). -/
def interpretVarint : FieldType → Nat → Option Value
  | .scalar .sInt32, u => some (.vInt (fromU64 u))
  | .scalar .sInt64, u => some (.vInt (fromU64 u))
  | .scalar .sUint32, u => some (.vInt ((u % 2 ^ 64 : Nat) : Int))
  | .scalar .sUint64, u => some (.vInt ((u % 2 ^ 64 : Nat) : Int))
  | .scalar .sBool, u => some (.vBool (u % 2 ^ 64 != 0))
  | .enumTy _, u => some (.vInt (fromU64 u))
  | _, _ => none

/-- Read one numeric (varint or fixed-width) value of the given field type
from the front of the input. -/
def readNumeric (ft : FieldType) (n : Nat) (bs : List Nat) : Except Err (Value × List Nat) :=
  match wireTypeOf ft with
  | 0 =>
      (match readVarint bs with
       | .ok (u, rest) =>
           (match interpretVarint ft u with
            | some v => .ok (v, rest)
            | none => .error (.WireMismatchError n))
       | .error e => .error e)
  | 5 =>
      (match readBytes 4 bs with
       | .ok (taken, rest) => .ok (.vInt ((fixedDecodeList taken : Nat) : Int), rest)
       | .error e => .error e)
  | 1 =>
      (match readBytes 8 bs with
       | .ok (taken, rest) => .ok (.vInt ((fixedDecodeList taken : Nat) : Int), rest)
       | .error e => .error e)
  | _ => .error (.WireMismatchError n)

/-- Skip over the payload of a field of the given physical wire type,
returning the raw payload bytes verbatim and the remaining input.  Wire
types other than 0, 1, 2, 5 are rejected. -/
def skipPayload (n wt : Nat) (bs : List Nat) : Except Err (List Nat × List Nat) :=
  match wt with
  | 0 =>
      (match readVarint bs with
       | .ok (_, rest) => .ok (consumed bs rest, rest)
       | .error e => .error e)
  | 1 => readBytes 8 bs
  | 5 => readBytes 4 bs
  | 2 =>
      (match readVarint bs with
       | .ok (len, rest1) =>
           (match readBytes len rest1 with
            | .ok (_, rest) => .ok (consumed bs rest, rest)
            | .error e => .error e)
       | .error e => .error e)
  | _ => .error (.WireMismatchError n)

/-- Parse the concatenated element encodings of a packed span into an ordered
element list. -/
def parsePacked (ft : FieldType) (n : Nat) : Nat → List Nat → Except Err ValueList
  | _, [] => .ok .nil
  | 0, _ => .error .TruncatedInputError
  | fuel + 1, bs =>
      match readNumeric ft n bs with
      | .error e => .error e
      | .ok (v, rest) =>
          match parsePacked ft n fuel rest with
          | .ok vs => .ok (.cons v vs)
          | .error e => .error e

/-- Modelled from the spec: the decode loop of §4.2.  For each tag: extract
field number and wire type; a known field decodes per its declared wire-type
category (a physical/declared mismatch is a `WireMismatchError`), an unknown
field is preserved as a raw span; repeated scalars accept packed and
unpacked occurrences merged in encounter order; map entries resolve with
last-occurrence-wins.  The fuel argument strictly exceeds the input length
at every call. -/
def decodeFields (reg : Registry) : Nat → MessageDescriptor → List Nat → FieldMap →
    List UnknownSpan → Except Err (FieldMap × List UnknownSpan)
  | _, _, [], fs, unk => .ok (fs, unk)
  | 0, _, _, _, _ => .error .TruncatedInputError
  | fuel + 1, md, bs, fs, unk =>
    match readVarint bs with
    | .error e => .error e
    | .ok (tag, rest) =>
      if tag / 8 = 0 then .error (.WireMismatchError 0)
      else
        match md.fields.find? (fun fd => fd.number == tag / 8) with
        | none =>
            (match skipPayload (tag / 8) (tag % 8) rest with
             | .error e => .error e
             | .ok (raw, rest') =>
                 decodeFields reg fuel md rest' fs
                   (unk ++ [⟨tag / 8, consumed bs rest ++ raw⟩]))
        | some fd =>
            match fd.label with
            | .singular =>
                if tag % 8 ≠ wireTypeOf fd.typ then .error (.WireMismatchError (tag / 8))
                else
                  (match fd.typ with
                   | .messageTy tn =>
                       (match readVarint rest with
                        | .error e => .error e
                        | .ok (len, rest1) =>
                            (match readBytes len rest1 with
                             | .error e => .error e
                             | .ok (span, rest') =>
                                 (match findMessage reg tn with
                                  | none => .error (.NotFoundError tn)
                                  | some md' =>
                                      (match decodeFields reg fuel md' span .nil [] with
                                       | .error e => .error e
                                       | .ok (fs', unk') =>
                                           decodeFields reg fuel md rest'
                                             (setField fs (tag / 8) (.vMsg fs' unk')) unk))))
                   | .scalar .sString =>
                       (match readVarint rest with
                        | .error e => .error e
                        | .ok (len, rest1) =>
                            (match readBytes len rest1 with
                             | .error e => .error e
                             | .ok (span, rest') =>
                                 decodeFields reg fuel md rest'
                                   (setField fs (tag / 8) (.vBytes span)) unk))
                   | .scalar .sBytes =>
                       (match readVarint rest with
                        | .error e => .error e
                        | .ok (len, rest1) =>
                            (match readBytes len rest1 with
                             | .error e => .error e
                             | .ok (span, rest') =>
                                 decodeFields reg fuel md rest'
                                   (setField fs (tag / 8) (.vBytes span)) unk))
                   | ft =>
                       (match readNumeric ft (tag / 8) rest with
                        | .error e => .error e
                        | .ok (v, rest') =>
                            decodeFields reg fuel md rest'
                              (setField fs (tag / 8) v) unk))
            | .repeated =>
                if tag % 8 = 2 then
                  (match readVarint rest with
                   | .error e => .error e
                   | .ok (len, rest1) =>
                       (match readBytes len rest1 with
                        | .error e => .error e
                        | .ok (span, rest') =>
                            if packable fd.typ then
                              (match parsePacked fd.typ (tag / 8) fuel span with
                               | .error e => .error e
                               | .ok vs =>
                                   decodeFields reg fuel md rest'
                                     (appendList fs (tag / 8) vs) unk)
                            else
                              (match fd.typ with
                               | .messageTy tn =>
                                   (match findMessage reg tn with
                                    | none => .error (.NotFoundError tn)
                                    | some md' =>
                                        (match decodeFields reg fuel md' span .nil [] with
                                         | .error e => .error e
                                         | .ok (fs', unk') =>
                                             decodeFields reg fuel md rest'
                                               (appendList fs (tag / 8)
                                                 (.cons (.vMsg fs' unk') .nil)) unk))
                               | _ =>
                                   decodeFields reg fuel md rest'
                                     (appendList fs (tag / 8) (.cons (.vBytes span) .nil)) unk)))
                else if tag % 8 = wireTypeOf fd.typ then
                  (match readNumeric fd.typ (tag / 8) rest with
                   | .error e => .error e
                   | .ok (v, rest') =>
                       decodeFields reg fuel md rest'
                         (appendList fs (tag / 8) (.cons v .nil)) unk)
                else .error (.WireMismatchError (tag / 8))
            | .mapKind =>
                if tag % 8 ≠ 2 then .error (.WireMismatchError (tag / 8))
                else
                  (match fd.typ with
                   | .messageTy tn =>
                       (match readVarint rest with
                        | .error e => .error e
                        | .ok (len, rest1) =>
                            (match readBytes len rest1 with
                             | .error e => .error e
                             | .ok (span, rest') =>
                                 (match findMessage reg tn with
                                  | none => .error (.NotFoundError tn)
                                  | some ed =>
                                      (match mapEntryInfo ed with
                                       | none => .error (.SchemaError tn)
                                       | some (kt, vt) =>
                                           (match decodeFields reg fuel ed span .nil [] with
                                            | .error e => .error e
                                            | .ok (efs, _) =>
                                                decodeFields reg fuel md rest'
                                                  (mapInsert fs (tag / 8)
                                                    ((getField efs 1).getD
                                                      (defaultValue (.scalar kt)))
                                                    ((getField efs 2).getD (defaultValue vt)))
                                                  unk)))))
                   | _ => .error (.SchemaError md.name))

/-- Modelled from the spec: `decode(bytes, descriptor, registry) →
DynamicMessage`, starting from the empty message with fuel `bytes.length +
1`. -/
def decode (reg : Registry) (md : MessageDescriptor) (bs : List Nat) :
    Except Err DynamicMessage :=
  match decodeFields reg (bs.length + 1) md bs .nil [] with
  | .ok (fs, unk) => .ok ⟨fs, unk⟩
  | .error e => .error e

/-! ## Well-formedness of descriptors and messages -/

/-- A well-formed message descriptor: positive, bounded, duplicate-free field
numbers and duplicate-free field names. -/
def wfMessageDescriptor (md : MessageDescriptor) : Bool :=
  md.fields.all (fun fd => decide (0 < fd.number) && decide (fd.number < 2 ^ 29)) &&
    (md.fields.map (·.number)).Nodup &&
    (md.fields.map (·.name)).Nodup

/-- A well-formed enum descriptor: duplicate-free value names. -/
def wfEnumDescriptor (ed : EnumDescriptor) : Bool :=
  (ed.values.map (·.name)).Nodup

/-- A well-formed registry: every indexed message and enum descriptor is
well-formed. -/
def wfRegistry (reg : Registry) : Bool :=
  reg.messages.all wfMessageDescriptor && reg.enums.all wfEnumDescriptor

/-- The names of the fields of `md` populated in `fs`. -/
def presentNames (md : MessageDescriptor) (fs : FieldMap) : List String :=
  (fieldNumbers fs).filterMap
    (fun n => (md.fields.find? (fun fd => fd.number == n)).map (·.name))

/-- Modelled from the spec: at most one member of each oneof group may be
set. -/
def oneofOk (md : MessageDescriptor) (fs : FieldMap) : Bool :=
  md.oneofs.all
    (fun g => decide (((presentNames md fs).filter (fun nm => g.memberNames.contains nm)).length ≤ 1))

mutual
/-- Well-formedness of one singular value against a field type: integral
scalars lie in their ranges, byte sequences hold bytes, enum values are
32-bit with a resolvable enum type, nested messages resolve and recurse. -/
def wfSingular (reg : Registry) : FieldType → Value → Bool
  | .scalar .sInt32, .vInt i => decide (-(2 ^ 31) ≤ i) && decide (i < 2 ^ 31)
  | .scalar .sInt64, .vInt i => decide (-(2 ^ 63) ≤ i) && decide (i < 2 ^ 63)
  | .scalar .sUint32, .vInt i => decide (0 ≤ i) && decide (i < 2 ^ 32)
  | .scalar .sUint64, .vInt i => decide (0 ≤ i) && decide (i < 2 ^ 64)
  | .scalar .sBool, .vBool _ => true
  | .scalar .sFixed32, .vInt i => decide (0 ≤ i) && decide (i < 2 ^ 32)
  | .scalar .sFixed64, .vInt i => decide (0 ≤ i) && decide (i < 2 ^ 64)
  | .scalar .sString, .vBytes bs => bs.all (fun b => decide (b < 256))
  | .scalar .sBytes, .vBytes bs => bs.all (fun b => decide (b < 256))
  | .enumTy tn, .vInt i =>
      (findEnum reg tn).isSome && decide (-(2 ^ 31) ≤ i) && decide (i < 2 ^ 31)
  | .messageTy tn, .vMsg fs _ =>
      (match findMessage reg tn with
       | some md' =>
           !md'.isMapEntry && wfFieldsAux reg md' fs && fmSorted fs && oneofOk md' fs
       | none => false)
  | _, _ => false

/-- Well-formedness of the elements of a repeated field. -/
def wfElems (reg : Registry) (ft : FieldType) : ValueList → Bool
  | .nil => true
  | .cons v t => wfSingular reg ft v && wfElems reg ft t

/-- Well-formedness of the entries of a map field. -/
def wfEntries (reg : Registry) (kt : ScalarType) (vt : FieldType) : EntryList → Bool
  | .nil => true
  | .cons k v t =>
      wfSingular reg (.scalar kt) k && wfSingular reg vt v && wfEntries reg kt vt t

/-- Well-formedness of one populated field slot: its number names a field of
the descriptor and the value matches that field's type and repetition;
repeated lists and maps are non-empty (absence is the canonical form of
emptiness) and map keys are distinct. -/
def wfHead (reg : Registry) (md : MessageDescriptor) (n : Nat) : Value → Bool
  | .vInt i =>
      (match md.fields.find? (fun fd => fd.number == n) with
       | none => false
       | some fd =>
         match fd.label with
         | .singular =>
             (match fd.typ with
              | .scalar .sInt32 => decide (-(2 ^ 31) ≤ i) && decide (i < 2 ^ 31)
              | .scalar .sInt64 => decide (-(2 ^ 63) ≤ i) && decide (i < 2 ^ 63)
              | .scalar .sUint32 => decide (0 ≤ i) && decide (i < 2 ^ 32)
              | .scalar .sUint64 => decide (0 ≤ i) && decide (i < 2 ^ 64)
              | .scalar .sFixed32 => decide (0 ≤ i) && decide (i < 2 ^ 32)
              | .scalar .sFixed64 => decide (0 ≤ i) && decide (i < 2 ^ 64)
              | .enumTy tn =>
                  (findEnum reg tn).isSome && decide (-(2 ^ 31) ≤ i) && decide (i < 2 ^ 31)
              | _ => false)
         | .repeated => false
         | .mapKind => false)
  | .vBool _ =>
      (match md.fields.find? (fun fd => fd.number == n) with
       | none => false
       | some fd =>
         match fd.label with
         | .singular =>
             (match fd.typ with
              | .scalar .sBool => true
              | _ => false)
         | .repeated => false
         | .mapKind => false)
  | .vBytes bs =>
      (match md.fields.find? (fun fd => fd.number == n) with
       | none => false
       | some fd =>
         match fd.label with
         | .singular =>
             (match fd.typ with
              | .scalar .sString => bs.all (fun b => decide (b < 256))
              | .scalar .sBytes => bs.all (fun b => decide (b < 256))
              | _ => false)
         | .repeated => false
         | .mapKind => false)
  | .vMsg fs _ =>
      (match md.fields.find? (fun fd => fd.number == n) with
       | none => false
       | some fd =>
         match fd.label with
         | .singular =>
             (match fd.typ with
              | .messageTy tn =>
                  (match findMessage reg tn with
                   | some md' =>
                       !md'.isMapEntry && wfFieldsAux reg md' fs && fmSorted fs &&
                         oneofOk md' fs
                   | none => false)
              | _ => false)
         | .repeated => false
         | .mapKind => false)
  | .vList vs =>
      (match md.fields.find? (fun fd => fd.number == n) with
       | none => false
       | some fd =>
         match fd.label with
         | .singular => false
         | .repeated => !vlIsNil vs && wfElems reg fd.typ vs
         | .mapKind => false)
  | .vMap es =>
      (match md.fields.find? (fun fd => fd.number == n) with
       | none => false
       | some fd =>
         match fd.label with
         | .singular => false
         | .repeated => false
         | .mapKind =>
             (match fd.typ with
              | .messageTy tn =>
                  (match findMessage reg tn with
                   | some ed =>
                       ed.isMapEntry &&
                       (match mapEntryInfo ed with
                        | some (kt, vt) =>
                            !elIsNil es && (entryKeys es).Nodup &&
                              wfEntries reg kt vt es
                        | none => false)
                   | none => false)
              | _ => false))

/-- Well-formedness of every populated field of a message, slot by slot. -/
def wfFieldsAux (reg : Registry) (md : MessageDescriptor) : FieldMap → Bool
  | .nil => true
  | .cons n v t => wfHead reg md n v && wfFieldsAux reg md t
end

theorem wfFieldsAux_nil (reg : Registry) (md : MessageDescriptor) :
    wfFieldsAux reg md .nil = true := rfl

theorem wfFieldsAux_cons (reg : Registry) (md : MessageDescriptor) (n : Nat) (v : Value)
    (t : FieldMap) :
    wfFieldsAux reg md (.cons n v t) = (wfHead reg md n v && wfFieldsAux reg md t) := rfl

/-- For a resolvable singular field, the per-slot check coincides with
singular-value well-formedness at the field's type. -/
theorem wfHead_singular (reg : Registry) (md : MessageDescriptor) (n : Nat)
    (fd : FieldDescriptor) (v : Value)
    (hfind : md.fields.find? (fun fd' => fd'.number == n) = some fd)
    (hlab : fd.label = .singular) :
    wfHead reg md n v = wfSingular reg fd.typ v := by
  cases v with
  | vInt i =>
    simp only [wfHead, hfind, hlab]
    cases fd.typ with
    | scalar s => cases s <;> rfl
    | enumTy tn => rfl
    | messageTy tn => rfl
  | vBool b =>
    simp only [wfHead, hfind, hlab]
    cases fd.typ with
    | scalar s => cases s <;> rfl
    | enumTy tn => rfl
    | messageTy tn => rfl
  | vBytes bs =>
    simp only [wfHead, hfind, hlab]
    cases fd.typ with
    | scalar s => cases s <;> rfl
    | enumTy tn => rfl
    | messageTy tn => rfl
  | vMsg fs unk =>
    simp only [wfHead, hfind, hlab]
    cases fd.typ with
    | scalar s => cases s <;> rfl
    | enumTy tn => rfl
    | messageTy tn =>
      cases hfm2 : findMessage reg tn <;> simp only [wfSingular, hfm2]
  | vList vs =>
    simp only [wfHead, hfind, hlab]
    cases fd.typ with
    | scalar s => cases s <;> rfl
    | enumTy tn => rfl
    | messageTy tn => rfl
  | vMap es =>
    simp only [wfHead, hfind, hlab]
    cases fd.typ with
    | scalar s => cases s <;> rfl
    | enumTy tn => rfl
    | messageTy tn => rfl

/-- Full message well-formedness: per-field well-formedness, the ascending
representation invariant, and the oneof constraint. -/
def wfFields (reg : Registry) (md : MessageDescriptor) (fs : FieldMap) : Bool :=
  wfFieldsAux reg md fs && fmSorted fs && oneofOk md fs

mutual
/-- No unknown-field spans anywhere in a value (claim C1's hypothesis). -/
def noUnknownV : Value → Bool
  | .vInt _ => true
  | .vBool _ => true
  | .vBytes _ => true
  | .vMsg fs unk => unk.isEmpty && noUnknownF fs
  | .vList vs => noUnknownL vs
  | .vMap es => noUnknownE es

/-- No unknown-field spans in any element. -/
def noUnknownL : ValueList → Bool
  | .nil => true
  | .cons v t => noUnknownV v && noUnknownL t

/-- No unknown-field spans in any field value. -/
def noUnknownF : FieldMap → Bool
  | .nil => true
  | .cons _ v t => noUnknownV v && noUnknownF t

/-- No unknown-field spans in any entry. -/
def noUnknownE : EntryList → Bool
  | .nil => true
  | .cons k v t => noUnknownV k && noUnknownV v && noUnknownE t
end

/-! ## Field-map algebra used by the round-trip development -/

/-- Concatenation of two field maps. -/
def fmConcat : FieldMap → FieldMap → FieldMap
  | .nil, ys => ys
  | .cons n v t, ys => .cons n v (fmConcat t ys)

/-- Fold of `appendList` over one decoded unpacked element at a time. -/
def appendElems (fs : FieldMap) (n : Nat) : ValueList → FieldMap
  | .nil => fs
  | .cons v t => appendElems (appendList fs n (.cons v .nil)) n t

/-- Fold of `mapInsert` over decoded map entries. -/
def insertEntries (fs : FieldMap) (n : Nat) : EntryList → FieldMap
  | .nil => fs
  | .cons k v t => insertEntries (mapInsert fs n k v) n t

/-- Concatenation of two entry lists. -/
def entryConcat : EntryList → EntryList → EntryList
  | .nil, ys => ys
  | .cons k v t, ys => .cons k v (entryConcat t ys)

mutual
/-- Structural measure of a value, ignoring embedded numbers. -/
def msV : Value → Nat
  | .vInt _ => 1
  | .vBool _ => 1
  | .vBytes _ => 1
  | .vMsg fs _ => 1 + msF fs
  | .vList vs => 1 + msL vs
  | .vMap es => 1 + msE es

/-- Structural measure of a value list. -/
def msL : ValueList → Nat
  | .nil => 0
  | .cons v t => 1 + msV v + msL t

/-- Structural measure of a field map. -/
def msF : FieldMap → Nat
  | .nil => 0
  | .cons _ v t => 1 + msV v + msF t

/-- Structural measure of an entry list. -/
def msE : EntryList → Nat
  | .nil => 0
  | .cons k v t => 3 + msV k + msV v + msE t
end

/-- Single-motive structural induction for field maps. -/
theorem fmInd (motive : FieldMap → Prop) (hnil : motive .nil)
    (hcons : ∀ n v t, motive t → motive (.cons n v t)) : ∀ fs, motive fs
  | .nil => hnil
  | .cons n v t => hcons n v t (fmInd motive hnil hcons t)

/-- Single-motive structural induction for value lists. -/
theorem vlInd (motive : ValueList → Prop) (hnil : motive .nil)
    (hcons : ∀ v t, motive t → motive (.cons v t)) : ∀ vs, motive vs
  | .nil => hnil
  | .cons v t => hcons v t (vlInd motive hnil hcons t)

/-- Single-motive structural induction for entry lists. -/
theorem elInd (motive : EntryList → Prop) (hnil : motive .nil)
    (hcons : ∀ k v t, motive t → motive (.cons k v t)) : ∀ es, motive es
  | .nil => hnil
  | .cons k v t => hcons k v t (elInd motive hnil hcons t)

theorem msV_vMsg (fs : FieldMap) (unk : List UnknownSpan) :
    msV (.vMsg fs unk) = 1 + msF fs := rfl

theorem msV_vList (vs : ValueList) : msV (.vList vs) = 1 + msL vs := rfl

theorem msV_vMap (es : EntryList) : msV (.vMap es) = 1 + msE es := rfl

theorem msF_cons (n : Nat) (v : Value) (t : FieldMap) :
    msF (.cons n v t) = 1 + msV v + msF t := rfl

theorem msL_cons (v : Value) (t : ValueList) : msL (.cons v t) = 1 + msV v + msL t := rfl

theorem msE_cons (k v : Value) (t : EntryList) :
    msE (.cons k v t) = 3 + msV k + msV v + msE t := rfl

theorem msV_pos (v : Value) : 0 < msV v := by
  cases v <;> simp [msV, msV_vMsg, msV_vList, msV_vMap]

theorem fmConcat_nil_right (fs : FieldMap) : fmConcat fs .nil = fs := by
  induction fs using fmInd with
  | hnil => rfl
  | hcons n v t ih => simp [fmConcat, ih]

theorem fmConcat_cons_right (acc : FieldMap) (n : Nat) (v : Value) (t : FieldMap) :
    fmConcat acc (.cons n v t) = fmConcat (fmConcat acc (.cons n v .nil)) t := by
  induction acc using fmInd with
  | hnil => rfl
  | hcons m w a ih => simp [fmConcat, ih]

theorem fieldNumbers_fmConcat (a b : FieldMap) :
    fieldNumbers (fmConcat a b) = fieldNumbers a ++ fieldNumbers b := by
  induction a using fmInd with
  | hnil => rfl
  | hcons n v t ih => simp [fmConcat, fieldNumbers, ih]

theorem getField_above_none (fs : FieldMap) (n : Nat)
    (h : ∀ a ∈ fieldNumbers fs, a < n) : getField fs n = none := by
  induction fs using fmInd with
  | hnil => rfl
  | hcons m w t ih =>
    have hm : m < n := h m (by simp [fieldNumbers])
    simp only [getField, if_neg (by omega : ¬ m = n)]
    exact ih (fun a ha => h a (by simp [fieldNumbers, ha]))

theorem setField_above (fs : FieldMap) (n : Nat) (v : Value)
    (h : ∀ a ∈ fieldNumbers fs, a < n) :
    setField fs n v = fmConcat fs (.cons n v .nil) := by
  induction fs using fmInd with
  | hnil => rfl
  | hcons m w t ih =>
    have hm : m < n := h m (by simp [fieldNumbers])
    simp only [setField, if_neg (by omega : ¬ n = m), if_neg (by omega : ¬ n < m), fmConcat]
    rw [ih (fun a ha => h a (by simp [fieldNumbers, ha]))]

theorem getField_concat_last (fs : FieldMap) (n : Nat) (v : Value)
    (h : ∀ a ∈ fieldNumbers fs, a < n) :
    getField (fmConcat fs (.cons n v .nil)) n = some v := by
  induction fs using fmInd with
  | hnil => simp [fmConcat, getField]
  | hcons m w t ih =>
    have hm : m < n := h m (by simp [fieldNumbers])
    simp only [fmConcat, getField, if_neg (by omega : ¬ m = n)]
    exact ih (fun a ha => h a (by simp [fieldNumbers, ha]))

theorem setField_concat_last (fs : FieldMap) (n : Nat) (v w : Value)
    (h : ∀ a ∈ fieldNumbers fs, a < n) :
    setField (fmConcat fs (.cons n v .nil)) n w = fmConcat fs (.cons n w .nil) := by
  induction fs using fmInd with
  | hnil => simp [fmConcat, setField]
  | hcons m u t ih =>
    have hm : m < n := h m (by simp [fieldNumbers])
    simp only [fmConcat, setField, if_neg (by omega : ¬ n = m), if_neg (by omega : ¬ n < m)]
    rw [ih (fun a ha => h a (by simp [fieldNumbers, ha]))]

theorem vlAppend_nil (vs : ValueList) : vlAppend vs .nil = vs := by
  induction vs using vlInd with
  | hnil => rfl
  | hcons v t ih => simp [vlAppend, ih]

theorem vlAppend_assoc (a b c : ValueList) :
    vlAppend (vlAppend a b) c = vlAppend a (vlAppend b c) := by
  induction a using vlInd with
  | hnil => rfl
  | hcons v t ih => simp [vlAppend, ih]

theorem entryConcat_nil_right (es : EntryList) : entryConcat es .nil = es := by
  induction es using elInd with
  | hnil => rfl
  | hcons k v t ih => simp [entryConcat, ih]

theorem entryKeys_entryConcat (a b : EntryList) :
    entryKeys (entryConcat a b) = entryKeys a ++ entryKeys b := by
  induction a using elInd with
  | hnil => rfl
  | hcons k v t ih => simp [entryConcat, entryKeys, ih]

theorem entryRemove_not_mem (k : Value) (es : EntryList) (h : k ∉ entryKeys es) :
    entryRemove k es = es := by
  induction es using elInd with
  | hnil => rfl
  | hcons k' v' t ih =>
    simp only [entryKeys, List.mem_cons, not_or] at h
    have hne : ¬ k' = k := fun he => h.1 he.symm
    simp only [entryRemove, if_neg hne]
    rw [ih h.2]

theorem entryAppend_eq_concat (es : EntryList) (k v : Value) :
    entryAppend es k v = entryConcat es (.cons k v .nil) := by
  induction es using elInd with
  | hnil => rfl
  | hcons k' v' t ih => simp [entryAppend, entryConcat, ih]

theorem entryConcat_cons_right (a : EntryList) (k v : Value) (t : EntryList) :
    entryConcat a (.cons k v t) = entryConcat (entryConcat a (.cons k v .nil)) t := by
  induction a using elInd with
  | hnil => rfl
  | hcons k' v' a' ih => simp [entryConcat, ih]

/-- Folding unpacked elements into a fresh tail position accumulates one
ordered list. -/
theorem appendElems_acc (fs : FieldMap) (n : Nat) (acc vs : ValueList)
    (h : ∀ a ∈ fieldNumbers fs, a < n) :
    appendElems (fmConcat fs (.cons n (.vList acc) .nil)) n vs
      = fmConcat fs (.cons n (.vList (vlAppend acc vs)) .nil) := by
  induction vs using vlInd generalizing acc with
  | hnil => simp [appendElems, vlAppend_nil]
  | hcons v t ih =>
    simp only [appendElems, appendList, getField_concat_last fs n _ h]
    rw [setField_concat_last fs n _ _ h, ih (vlAppend acc (.cons v .nil))]
    rw [vlAppend_assoc]
    rfl

/-- Decoding the unpacked occurrences of a repeated field, starting from a
state without the field, yields the ordered element list. -/
theorem appendElems_fresh (fs : FieldMap) (n : Nat) (v : Value) (t : ValueList)
    (h : ∀ a ∈ fieldNumbers fs, a < n) :
    appendElems fs n (.cons v t) = fmConcat fs (.cons n (.vList (.cons v t)) .nil) := by
  simp only [appendElems, appendList, getField_above_none fs n h]
  rw [setField_above fs n _ h, appendElems_acc fs n _ t h]
  rfl

/-- Folding map entries with pairwise-distinct keys into a fresh tail
position accumulates the ordered entry list. -/
theorem insertEntries_acc (fs : FieldMap) (n : Nat) (acc es : EntryList)
    (h : ∀ a ∈ fieldNumbers fs, a < n)
    (hk : (entryKeys acc ++ entryKeys es).Nodup) :
    insertEntries (fmConcat fs (.cons n (.vMap acc) .nil)) n es
      = fmConcat fs (.cons n (.vMap (entryConcat acc es)) .nil) := by
  induction es using elInd generalizing acc with
  | hnil => simp [insertEntries, entryConcat_nil_right]
  | hcons k v t ih =>
    simp only [insertEntries, mapInsert, getField_concat_last fs n _ h]
    have hknot : k ∉ entryKeys acc := by
      intro hmem
      have := List.disjoint_of_nodup_append hk
      exact this hmem (by simp [entryKeys])
    rw [setField_concat_last fs n _ _ h]
    simp only [entryInsert, entryRemove_not_mem k acc hknot, entryAppend_eq_concat]
    rw [ih (entryConcat acc (.cons k v .nil))]
    · rw [← entryConcat_cons_right]
    · simp only [entryKeys_entryConcat, entryKeys]
      simp only [entryKeys, List.cons_append, List.nil_append] at hk ⊢
      have : entryKeys acc ++ [k] ++ entryKeys t = entryKeys acc ++ k :: entryKeys t := by
        simp
      rw [this]
      exact hk

/-- Decoding the entries of a map field with pairwise-distinct keys, starting
from a state without the field, yields the ordered entry list. -/
theorem insertEntries_fresh (fs : FieldMap) (n : Nat) (k v : Value) (t : EntryList)
    (h : ∀ a ∈ fieldNumbers fs, a < n)
    (hk : (entryKeys (.cons k v t)).Nodup) :
    insertEntries fs n (.cons k v t) = fmConcat fs (.cons n (.vMap (.cons k v t)) .nil) := by
  simp only [insertEntries, mapInsert, getField_above_none fs n h]
  rw [setField_above fs n _ h, insertEntries_acc fs n _ t h]
  · rfl
  · simpa [entryKeys] using hk

/-! ## Reader consumption lemmas and fuel irrelevance -/

theorem readBytes_ok (k : Nat) (bs t r : List Nat) (h : readBytes k bs = .ok (t, r)) :
    t.length = k ∧ bs = t ++ r ∧ r.length + k = bs.length := by
  simp only [readBytes] at h
  split at h
  · simp only [Except.ok.injEq, Prod.mk.injEq] at h
    obtain ⟨rfl, rfl⟩ := h
    refine ⟨?_, ?_, ?_⟩
    · simp; omega
    · exact (List.take_append_drop k bs).symm
    · simp; omega
  · simp at h

theorem readNumeric_consumes (ft : FieldType) (n : Nat) (bs : List Nat) (v : Value)
    (rest : List Nat) (h : readNumeric ft n bs = .ok (v, rest)) :
    rest.length < bs.length := by
  simp only [readNumeric] at h
  split at h
  · split at h
    · rename_i u r hrv
      split at h
      · rename_i w hi
        simp only [Except.ok.injEq, Prod.mk.injEq] at h
        have := readVarint_consumes bs r u hrv
        rw [← h.2]
        exact this
      · simp at h
    · simp at h
  · split at h
    · rename_i t r hrb
      simp only [Except.ok.injEq, Prod.mk.injEq] at h
      have := readBytes_ok 4 bs t r hrb
      rw [← h.2]
      omega
    · simp at h
  · split at h
    · rename_i t r hrb
      simp only [Except.ok.injEq, Prod.mk.injEq] at h
      have := readBytes_ok 8 bs t r hrb
      rw [← h.2]
      omega
    · simp at h
  · simp at h

theorem skipPayload_consumes (n wt : Nat) (bs raw rest : List Nat)
    (h : skipPayload n wt bs = .ok (raw, rest)) : rest.length < bs.length := by
  simp only [skipPayload] at h
  split at h
  · split at h
    · rename_i u r hrv
      simp only [Except.ok.injEq, Prod.mk.injEq] at h
      have := readVarint_consumes bs r u hrv
      rw [← h.2]
      exact this
    · simp at h
  · have := readBytes_ok 8 bs raw rest h
    omega
  · have := readBytes_ok 4 bs raw rest h
    omega
  · split at h
    · rename_i len r1 hrv
      have h1 := readVarint_consumes bs r1 len hrv
      split at h
      · rename_i t r hrb
        simp only [Except.ok.injEq, Prod.mk.injEq] at h
        have h2 := readBytes_ok len r1 t r hrb
        rw [← h.2]
        omega
      · simp at h
    · simp at h
  · simp at h

theorem parsePacked_irrel (ft : FieldType) (n : Nat) :
    ∀ (L : Nat) (bs : List Nat) (f g : Nat), bs.length ≤ L → bs.length < f →
      bs.length < g → parsePacked ft n f bs = parsePacked ft n g bs := by
  intro L
  induction L with
  | zero =>
    intro bs f g hL _ _
    have : bs = [] := List.eq_nil_of_length_eq_zero (by omega)
    subst this
    simp [parsePacked]
  | succ L ih =>
    intro bs f g hL hf hg
    cases bs with
    | nil => simp [parsePacked]
    | cons x xs =>
      obtain ⟨a, rfl⟩ : ∃ a, f = a + 1 := ⟨f - 1, by omega⟩
      obtain ⟨b, rfl⟩ : ∃ b, g = b + 1 := ⟨g - 1, by omega⟩
      simp only [parsePacked]
      cases hrn : readNumeric ft n (x :: xs) with
      | error e => simp only [hrn]
      | ok p =>
        obtain ⟨v, rest⟩ := p
        simp only [hrn]
        have hc : rest.length < xs.length + 1 := by
          simpa using readNumeric_consumes ft n (x :: xs) v rest hrn
        have hL' : xs.length + 1 ≤ L + 1 := by simpa using hL
        have hf' : xs.length + 1 < a + 1 := by simpa using hf
        have hg' : xs.length + 1 < b + 1 := by simpa using hg
        rw [ih rest a b (by omega) (by omega) (by omega)]

/-- The decode loop's result does not depend on the fuel, provided the fuel
strictly exceeds the input length. -/
theorem decodeFields_irrel (reg : Registry) :
    ∀ (L : Nat) (md : MessageDescriptor) (bs : List Nat) (fs : FieldMap)
      (unk : List UnknownSpan) (f g : Nat), bs.length ≤ L → bs.length < f →
      bs.length < g →
      decodeFields reg f md bs fs unk = decodeFields reg g md bs fs unk := by
  intro L
  induction L with
  | zero =>
    intro md bs fs unk f g hL _ _
    have hb : bs = [] := List.eq_nil_of_length_eq_zero (by omega)
    subst hb
    simp [decodeFields]
  | succ L ih =>
    intro md bs fs unk f g hL hf hg
    cases bs with
    | nil => simp [decodeFields]
    | cons x xs =>
      obtain ⟨a, rfl⟩ : ∃ a, f = a + 1 := ⟨f - 1, by omega⟩
      obtain ⟨b, rfl⟩ : ∃ b, g = b + 1 := ⟨g - 1, by omega⟩
      have hL' : xs.length + 1 ≤ L + 1 := by simpa using hL
      have hf' : xs.length + 1 < a + 1 := by simpa using hf
      have hg' : xs.length + 1 < b + 1 := by simpa using hg
      simp only [decodeFields]
      cases hrv : readVarint (x :: xs) with
      | error e => simp only [hrv]
      | ok p =>
        obtain ⟨tag, rest⟩ := p
        simp only [hrv]
        have hrl : rest.length < xs.length + 1 := by
          simpa using readVarint_consumes _ _ _ hrv
        by_cases h0 : tag / 8 = 0
        · simp only [if_pos h0]
        · simp only [if_neg h0]
          cases hfind : md.fields.find? (fun fd => fd.number == tag / 8) with
          | none =>
            simp only [hfind]
            cases hsp : skipPayload (tag / 8) (tag % 8) rest with
            | error e => simp only [hsp]
            | ok p2 =>
              obtain ⟨raw, rest'⟩ := p2
              simp only [hsp]
              have hsc := skipPayload_consumes _ _ _ _ _ hsp
              exact ih md rest' fs _ a b (by omega) (by omega) (by omega)
          | some fd =>
            simp only [hfind]
            cases hlab : fd.label with
            | singular =>
              simp only [hlab]
              by_cases hwt : tag % 8 ≠ wireTypeOf fd.typ
              · simp only [if_pos hwt]
              · simp only [if_neg hwt]
                cases hty : fd.typ with
                | messageTy tn =>
                  simp only [hty]
                  cases hrv2 : readVarint rest with
                  | error e => simp only [hrv2]
                  | ok p2 =>
                    obtain ⟨len, rest1⟩ := p2
                    simp only [hrv2]
                    have hr1 : rest1.length < rest.length := readVarint_consumes _ _ _ hrv2
                    cases hrb : readBytes len rest1 with
                    | error e => simp only [hrb]
                    | ok p3 =>
                      obtain ⟨span, rest'⟩ := p3
                      simp only [hrb]
                      obtain ⟨hsl, hse, hre⟩ := readBytes_ok _ _ _ _ hrb
                      cases hfm : findMessage reg tn with
                      | none => simp only [hfm]
                      | some md' =>
                        simp only [hfm]
                        rw [ih md' span .nil [] a b (by omega) (by omega) (by omega)]
                        cases hsub : decodeFields reg b md' span .nil [] with
                        | error e => simp only [hsub]
                        | ok p4 =>
                          obtain ⟨fs', unk'⟩ := p4
                          simp only [hsub]
                          exact ih md rest' _ unk a b (by omega) (by omega) (by omega)
                | scalar s =>
                  cases s with
                  | sString =>
                    simp only [hty]
                    cases hrv2 : readVarint rest with
                    | error e => simp only [hrv2]
                    | ok p2 =>
                      obtain ⟨len, rest1⟩ := p2
                      simp only [hrv2]
                      have hr1 : rest1.length < rest.length := readVarint_consumes _ _ _ hrv2
                      cases hrb : readBytes len rest1 with
                      | error e => simp only [hrb]
                      | ok p3 =>
                        obtain ⟨span, rest'⟩ := p3
                        simp only [hrb]
                        obtain ⟨hsl, hse, hre⟩ := readBytes_ok _ _ _ _ hrb
                        exact ih md rest' _ unk a b (by omega) (by omega) (by omega)
                  | sBytes =>
                    simp only [hty]
                    cases hrv2 : readVarint rest with
                    | error e => simp only [hrv2]
                    | ok p2 =>
                      obtain ⟨len, rest1⟩ := p2
                      simp only [hrv2]
                      have hr1 : rest1.length < rest.length := readVarint_consumes _ _ _ hrv2
                      cases hrb : readBytes len rest1 with
                      | error e => simp only [hrb]
                      | ok p3 =>
                        obtain ⟨span, rest'⟩ := p3
                        simp only [hrb]
                        obtain ⟨hsl, hse, hre⟩ := readBytes_ok _ _ _ _ hrb
                        exact ih md rest' _ unk a b (by omega) (by omega) (by omega)
                  | sInt32 | sInt64 | sUint32 | sUint64 | sBool | sFixed32 | sFixed64 =>
                    simp only [hty]
                    cases hrn : readNumeric fd.typ (tag / 8) rest with
                    | error e => rw [hty] at hrn; simp only [hrn]
                    | ok p2 =>
                      obtain ⟨v, rest'⟩ := p2
                      rw [hty] at hrn
                      simp only [hrn]
                      have := readNumeric_consumes _ _ _ _ _ hrn
                      exact ih md rest' _ unk a b (by omega) (by omega) (by omega)
                | enumTy tn =>
                  simp only [hty]
                  cases hrn : readNumeric fd.typ (tag / 8) rest with
                  | error e => rw [hty] at hrn; simp only [hrn]
                  | ok p2 =>
                    obtain ⟨v, rest'⟩ := p2
                    rw [hty] at hrn
                    simp only [hrn]
                    have := readNumeric_consumes _ _ _ _ _ hrn
                    exact ih md rest' _ unk a b (by omega) (by omega) (by omega)
            | repeated =>
              simp only [hlab]
              by_cases hwt2 : tag % 8 = 2
              · simp only [if_pos hwt2]
                cases hrv2 : readVarint rest with
                | error e => simp only [hrv2]
                | ok p2 =>
                  obtain ⟨len, rest1⟩ := p2
                  simp only [hrv2]
                  have hr1 : rest1.length < rest.length := readVarint_consumes _ _ _ hrv2
                  cases hrb : readBytes len rest1 with
                  | error e => simp only [hrb]
                  | ok p3 =>
                    obtain ⟨span, rest'⟩ := p3
                    simp only [hrb]
                    obtain ⟨hsl, hse, hre⟩ := readBytes_ok _ _ _ _ hrb
                    by_cases hpk : packable fd.typ = true
                    · simp only [hpk, if_true]
                      rw [parsePacked_irrel fd.typ (tag / 8) span.length span a b le_rfl
                        (by omega) (by omega)]
                      cases hpp : parsePacked fd.typ (tag / 8) b span with
                      | error e => simp only [hpp]
                      | ok vs =>
                        simp only [hpp]
                        exact ih md rest' _ unk a b (by omega) (by omega) (by omega)
                    · simp only [if_neg hpk]
                      cases hty : fd.typ with
                      | messageTy tn =>
                        simp only [hty]
                        cases hfm : findMessage reg tn with
                        | none => simp only [hfm]
                        | some md' =>
                          simp only [hfm]
                          rw [ih md' span .nil [] a b (by omega) (by omega) (by omega)]
                          cases hsub : decodeFields reg b md' span .nil [] with
                          | error e => simp only [hsub]
                          | ok p4 =>
                            obtain ⟨fs', unk'⟩ := p4
                            simp only [hsub]
                            exact ih md rest' _ unk a b (by omega) (by omega) (by omega)
                      | scalar s =>
                        simp only [hty]
                        exact ih md rest' _ unk a b (by omega) (by omega) (by omega)
                      | enumTy tn =>
                        simp only [hty]
                        exact ih md rest' _ unk a b (by omega) (by omega) (by omega)
              · simp only [if_neg hwt2]
                by_cases hwt3 : tag % 8 = wireTypeOf fd.typ
                · simp only [if_pos hwt3]
                  cases hrn : readNumeric fd.typ (tag / 8) rest with
                  | error e => simp only [hrn]
                  | ok p2 =>
                    obtain ⟨v, rest'⟩ := p2
                    simp only [hrn]
                    have := readNumeric_consumes _ _ _ _ _ hrn
                    exact ih md rest' _ unk a b (by omega) (by omega) (by omega)
                · simp only [if_neg hwt3]
            | mapKind =>
              simp only [hlab]
              by_cases hwt : tag % 8 ≠ 2
              · simp only [if_pos hwt]
              · simp only [if_neg hwt]
                cases hty : fd.typ with
                | messageTy tn =>
                  simp only [hty]
                  cases hrv2 : readVarint rest with
                  | error e => simp only [hrv2]
                  | ok p2 =>
                    obtain ⟨len, rest1⟩ := p2
                    simp only [hrv2]
                    have hr1 : rest1.length < rest.length := readVarint_consumes _ _ _ hrv2
                    cases hrb : readBytes len rest1 with
                    | error e => simp only [hrb]
                    | ok p3 =>
                      obtain ⟨span, rest'⟩ := p3
                      simp only [hrb]
                      obtain ⟨hsl, hse, hre⟩ := readBytes_ok _ _ _ _ hrb
                      cases hfm : findMessage reg tn with
                      | none => simp only [hfm]
                      | some ed =>
                        simp only [hfm]
                        cases hmei : mapEntryInfo ed with
                        | none => simp only [hmei]
                        | some p5 =>
                          obtain ⟨kt, vt⟩ := p5
                          simp only [hmei]
                          rw [ih ed span .nil [] a b (by omega) (by omega) (by omega)]
                          cases hsub : decodeFields reg b ed span .nil [] with
                          | error e => simp only [hsub]
                          | ok p4 =>
                            obtain ⟨efs, eunk⟩ := p4
                            simp only [hsub]
                            exact ih md rest' _ unk a b (by omega) (by omega) (by omega)
                | scalar s => simp only [hty]
                | enumTy tn => simp only [hty]

/-! ## One-record step lemmas for decoding an encoder-produced record -/

theorem varintEncode_ne_nil (n : Nat) : varintEncode n ≠ [] := by
  have := varintEncodeAux_length_pos 9 n
  intro h
  rw [varintEncode] at h
  simp [h] at this

theorem lenPayload_length (payload : List Nat) :
    (lenPayload payload).length = (varintEncode payload.length).length + payload.length := by
  simp [lenPayload]

/-- Unfold one decode step positioned at an encoder-produced tag for a known
field: the tag parses, the field resolves, and control reaches the
label-indexed branch.  Stated for wire type 2 records of a singular
message-typed field. -/
theorem decode_step_singular_msg (reg : Registry) (md : MessageDescriptor)
    (fd : FieldDescriptor) (tn : String) (md' : MessageDescriptor)
    (payload : List Nat) (fs' : FieldMap) (unk2 : List UnknownSpan)
    (fs : FieldMap) (unk : List UnknownSpan) (rest : List Nat)
    (hfind : md.fields.find? (fun fd' => fd'.number == fd.number) = some fd)
    (hlab : fd.label = .singular) (hty : fd.typ = .messageTy tn)
    (hfm : findMessage reg tn = some md')
    (hn1 : 0 < fd.number) (hn2 : fd.number < 2 ^ 29)
    (hpl : payload.length < 2 ^ 64)
    (hsub : ∀ h : Nat, payload.length < h →
      decodeFields reg h md' payload .nil [] = .ok (fs', unk2)) :
    ∀ f g : Nat, (tagBytes fd.number 2 ++ lenPayload payload ++ rest).length < f →
      rest.length < g →
      decodeFields reg f md (tagBytes fd.number 2 ++ lenPayload payload ++ rest) fs unk
        = decodeFields reg g md rest (setField fs fd.number (.vMsg fs' unk2)) unk := by
  intro f g hf hg
  obtain ⟨a, rfl⟩ : ∃ a, f = a + 1 := ⟨f - 1, by omega⟩
  have h1 : 0 < (varintEncode (8 * fd.number + 2)).length := varintEncodeAux_length_pos 9 _
  have h2 : 0 < (varintEncode payload.length).length := varintEncodeAux_length_pos 9 _
  have hflen : (tagBytes fd.number 2 ++ lenPayload payload ++ rest).length
      = (varintEncode (8 * fd.number + 2)).length
        + ((varintEncode payload.length).length + payload.length) + rest.length := by
    simp [tagBytes, lenPayload]
    omega
  have hread : readVarint (varintEncode (8 * fd.number + 2) ++ (lenPayload payload ++ rest))
      = .ok (8 * fd.number + 2, lenPayload payload ++ rest) :=
    readVarint_varintEncode _ _ (by omega)
  obtain ⟨y, ys, hy⟩ := List.exists_cons_of_ne_nil (varintEncode_ne_nil (8 * fd.number + 2))
  rw [tagBytes, List.append_assoc, hy, List.cons_append]
  simp only [decodeFields]
  have hread' : readVarint (y :: (ys ++ (lenPayload payload ++ rest)))
      = .ok (8 * fd.number + 2, lenPayload payload ++ rest) := by
    rw [← List.cons_append, ← hy]
    exact hread
  simp only [hread']
  have hdiv : (8 * fd.number + 2) / 8 = fd.number := by omega
  have hmod : (8 * fd.number + 2) % 8 = 2 := by omega
  rw [hdiv, hmod]
  rw [if_neg (by omega : ¬ fd.number = 0)]
  simp only [hfind, hlab, hty, wireTypeOf]
  rw [if_neg (by simp : ¬ ((2 : Nat) ≠ 2))]
  have hlenr : readVarint (lenPayload payload ++ rest) = .ok (payload.length, payload ++ rest) := by
    rw [lenPayload, List.append_assoc]
    exact readVarint_varintEncode _ _ hpl
  simp only [hlenr]
  have hrb : readBytes payload.length (payload ++ rest) = .ok (payload, rest) :=
    readBytes_exact _ _
  simp only [hrb, hfm]
  simp only [hsub a (by omega)]
  exact decodeFields_irrel reg rest.length md rest _ unk a g le_rfl (by omega) hg

theorem wireTypeOf_lt_8 (ft : FieldType) : wireTypeOf ft < 8 := by
  cases ft with
  | scalar s => cases s <;> simp [wireTypeOf, wireTypeOfScalar]
  | enumTy tn => simp [wireTypeOf]
  | messageTy tn => simp [wireTypeOf]

/-- Reading back one numeric value from its own payload recovers it. -/
theorem readNumeric_roundtrip (reg : Registry) (ft : FieldType) (n : Nat) (v : Value)
    (rest : List Nat) (hwf : wfSingular reg ft v = true) (hwt : wireTypeOf ft ≠ 2) :
    readNumeric ft n (numericPayload ft v ++ rest) = .ok (v, rest) := by
  cases ft with
  | messageTy tn => simp [wireTypeOf] at hwt
  | enumTy tn =>
    cases v with
    | vInt i =>
      simp only [wfSingular, Bool.and_eq_true, decide_eq_true_eq] at hwf
      simp only [numericPayload, readNumeric, wireTypeOf]
      rw [readVarint_varintEncode _ _ (toU64_lt i)]
      simp only [interpretVarint]
      rw [fromU64_toU64 i (by omega) (by omega)]
    | vBool b => simp [wfSingular] at hwf
    | vBytes bs => simp [wfSingular] at hwf
    | vMsg fs u => simp [wfSingular] at hwf
    | vList vs => simp [wfSingular] at hwf
    | vMap es => simp [wfSingular] at hwf
  | scalar s =>
    cases s with
    | sString => simp [wireTypeOf, wireTypeOfScalar] at hwt
    | sBytes => simp [wireTypeOf, wireTypeOfScalar] at hwt
    | sBool =>
      cases v with
      | vBool b =>
        simp only [numericPayload, readNumeric, wireTypeOf, wireTypeOfScalar]
        cases b with
        | false =>
          rw [if_neg (by simp)]
          rw [readVarint_varintEncode _ _ (by norm_num)]
          simp [interpretVarint]
        | true =>
          rw [if_pos (by trivial)]
          rw [readVarint_varintEncode _ _ (by norm_num)]
          simp [interpretVarint]
      | vInt i => simp [wfSingular] at hwf
      | vBytes bs => simp [wfSingular] at hwf
      | vMsg fs u => simp [wfSingular] at hwf
      | vList vs => simp [wfSingular] at hwf
      | vMap es => simp [wfSingular] at hwf
    | sInt32 =>
      cases v with
      | vInt i =>
        simp only [wfSingular, Bool.and_eq_true, decide_eq_true_eq] at hwf
        simp only [numericPayload, readNumeric, wireTypeOf, wireTypeOfScalar]
        rw [readVarint_varintEncode _ _ (toU64_lt i)]
        simp only [interpretVarint]
        rw [fromU64_toU64 i (by omega) (by omega)]
      | vBool b => simp [wfSingular] at hwf
      | vBytes bs => simp [wfSingular] at hwf
      | vMsg fs u => simp [wfSingular] at hwf
      | vList vs => simp [wfSingular] at hwf
      | vMap es => simp [wfSingular] at hwf
    | sInt64 =>
      cases v with
      | vInt i =>
        simp only [wfSingular, Bool.and_eq_true, decide_eq_true_eq] at hwf
        simp only [numericPayload, readNumeric, wireTypeOf, wireTypeOfScalar]
        rw [readVarint_varintEncode _ _ (toU64_lt i)]
        simp only [interpretVarint]
        rw [fromU64_toU64 i (by omega) (by omega)]
      | vBool b => simp [wfSingular] at hwf
      | vBytes bs => simp [wfSingular] at hwf
      | vMsg fs u => simp [wfSingular] at hwf
      | vList vs => simp [wfSingular] at hwf
      | vMap es => simp [wfSingular] at hwf
    | sUint32 =>
      cases v with
      | vInt i =>
        simp only [wfSingular, Bool.and_eq_true, decide_eq_true_eq] at hwf
        simp only [numericPayload, readNumeric, wireTypeOf, wireTypeOfScalar]
        rw [readVarint_varintEncode _ _ (toU64_lt i)]
        simp only [interpretVarint]
        have hcast : ((toU64 i % 2 ^ 64 : Nat) : Int) = i := by
          simp only [toU64]
          omega
        rw [hcast]
      | vBool b => simp [wfSingular] at hwf
      | vBytes bs => simp [wfSingular] at hwf
      | vMsg fs u => simp [wfSingular] at hwf
      | vList vs => simp [wfSingular] at hwf
      | vMap es => simp [wfSingular] at hwf
    | sUint64 =>
      cases v with
      | vInt i =>
        simp only [wfSingular, Bool.and_eq_true, decide_eq_true_eq] at hwf
        simp only [numericPayload, readNumeric, wireTypeOf, wireTypeOfScalar]
        rw [readVarint_varintEncode _ _ (toU64_lt i)]
        simp only [interpretVarint]
        have hcast : ((toU64 i % 2 ^ 64 : Nat) : Int) = i := by
          simp only [toU64]
          omega
        rw [hcast]
      | vBool b => simp [wfSingular] at hwf
      | vBytes bs => simp [wfSingular] at hwf
      | vMsg fs u => simp [wfSingular] at hwf
      | vList vs => simp [wfSingular] at hwf
      | vMap es => simp [wfSingular] at hwf
    | sFixed32 =>
      cases v with
      | vInt i =>
        simp only [wfSingular, Bool.and_eq_true, decide_eq_true_eq] at hwf
        simp only [numericPayload, readNumeric, wireTypeOf, wireTypeOfScalar]
        have hrb := readBytes_exact (fixedEncode 4 (toU64 i)) rest
        rw [fixedEncode_length] at hrb
        simp only [hrb]
        have hlt : toU64 i < 256 ^ 4 := by
          simp only [toU64]
          omega
        rw [fixedDecodeList_fixedEncode 4 _ hlt]
        have hcast : ((toU64 i : Nat) : Int) = i := by
          simp only [toU64]
          omega
        rw [hcast]
      | vBool b => simp [wfSingular] at hwf
      | vBytes bs => simp [wfSingular] at hwf
      | vMsg fs u => simp [wfSingular] at hwf
      | vList vs => simp [wfSingular] at hwf
      | vMap es => simp [wfSingular] at hwf
    | sFixed64 =>
      cases v with
      | vInt i =>
        simp only [wfSingular, Bool.and_eq_true, decide_eq_true_eq] at hwf
        simp only [numericPayload, readNumeric, wireTypeOf, wireTypeOfScalar]
        have hrb := readBytes_exact (fixedEncode 8 (toU64 i)) rest
        rw [fixedEncode_length] at hrb
        simp only [hrb]
        have hlt : toU64 i < 256 ^ 8 := by
          simp only [toU64]
          omega
        rw [fixedDecodeList_fixedEncode 8 _ hlt]
        have hcast : ((toU64 i : Nat) : Int) = i := by
          simp only [toU64]
          omega
        rw [hcast]
      | vBool b => simp [wfSingular] at hwf
      | vBytes bs => simp [wfSingular] at hwf
      | vMsg fs u => simp [wfSingular] at hwf
      | vList vs => simp [wfSingular] at hwf
      | vMap es => simp [wfSingular] at hwf

theorem numericPayload_ne_nil (reg : Registry) (ft : FieldType) (v : Value)
    (hwf : wfSingular reg ft v = true) (hwt : wireTypeOf ft ≠ 2) :
    numericPayload ft v ≠ [] := by
  cases ft with
  | messageTy tn => simp [wireTypeOf] at hwt
  | enumTy tn =>
    cases v <;> simp_all [wfSingular, numericPayload]
    exact varintEncode_ne_nil _
  | scalar s =>
    cases s <;> cases v <;> simp_all [wfSingular, numericPayload, wireTypeOf, wireTypeOfScalar]
    case scalar.sInt32.vInt => exact varintEncode_ne_nil _
    case scalar.sInt64.vInt => exact varintEncode_ne_nil _
    case scalar.sUint32.vInt => exact varintEncode_ne_nil _
    case scalar.sUint64.vInt => exact varintEncode_ne_nil _
    case scalar.sBool.vBool => exact varintEncode_ne_nil _
    case scalar.sFixed32.vInt => simp [← List.length_eq_zero, fixedEncode_length]
    case scalar.sFixed64.vInt => simp [← List.length_eq_zero, fixedEncode_length]

/-- Parsing a packed span produced by the encoder recovers the ordered
element list, at any sufficient fuel. -/
theorem parsePacked_roundtrip (reg : Registry) (ft : FieldType) (n : Nat)
    (hwt : wireTypeOf ft ≠ 2) :
    ∀ (vs : ValueList) (f : Nat), wfElems reg ft vs = true →
      (packedPayload ft vs).length < f →
      parsePacked ft n f (packedPayload ft vs) = .ok vs := by
  intro vs
  induction vs using vlInd with
  | hnil =>
    intro f _ _
    simp [packedPayload, parsePacked]
  | hcons v t ih =>
    intro f hwf hf
    simp only [wfElems, Bool.and_eq_true] at hwf
    simp only [packedPayload] at hf ⊢
    obtain ⟨a, rfl⟩ : ∃ a, f = a + 1 := ⟨f - 1, by omega⟩
    obtain ⟨y, ys, hy⟩ := List.exists_cons_of_ne_nil (numericPayload_ne_nil reg ft v hwf.1 hwt)
    rw [hy, List.cons_append]
    simp only [parsePacked]
    have hrn : readNumeric ft n (y :: (ys ++ packedPayload ft t))
        = .ok (v, packedPayload ft t) := by
      rw [← List.cons_append, ← hy]
      exact readNumeric_roundtrip reg ft n v _ hwf.1 hwt
    simp only [hrn]
    have hlen : (numericPayload ft v).length + (packedPayload ft t).length < a + 1 := by
      simpa using hf
    have hlen2 : 0 < (numericPayload ft v).length := by
      rw [hy]
      simp
    rw [ih a hwf.2 (by omega)]

/-- One decode step over an encoder-produced singular string/bytes record. -/
theorem decode_step_singular_bytes (reg : Registry) (md : MessageDescriptor)
    (fd : FieldDescriptor) (bs : List Nat) (fs : FieldMap) (unk : List UnknownSpan)
    (rest : List Nat)
    (hfind : md.fields.find? (fun fd' => fd'.number == fd.number) = some fd)
    (hlab : fd.label = .singular)
    (hst : fd.typ = .scalar .sString ∨ fd.typ = .scalar .sBytes)
    (hn1 : 0 < fd.number) (hn2 : fd.number < 2 ^ 29)
    (hpl : bs.length < 2 ^ 64) :
    ∀ f g : Nat, (tagBytes fd.number 2 ++ lenPayload bs ++ rest).length < f →
      rest.length < g →
      decodeFields reg f md (tagBytes fd.number 2 ++ lenPayload bs ++ rest) fs unk
        = decodeFields reg g md rest (setField fs fd.number (.vBytes bs)) unk := by
  intro f g hf hg
  obtain ⟨a, rfl⟩ : ∃ a, f = a + 1 := ⟨f - 1, by omega⟩
  have h1 : 0 < (varintEncode (8 * fd.number + 2)).length := varintEncodeAux_length_pos 9 _
  have h2 : 0 < (varintEncode bs.length).length := varintEncodeAux_length_pos 9 _
  have hflen : (tagBytes fd.number 2 ++ lenPayload bs ++ rest).length
      = (varintEncode (8 * fd.number + 2)).length
        + ((varintEncode bs.length).length + bs.length) + rest.length := by
    simp [tagBytes, lenPayload]
    omega
  have hread : readVarint (varintEncode (8 * fd.number + 2) ++ (lenPayload bs ++ rest))
      = .ok (8 * fd.number + 2, lenPayload bs ++ rest) :=
    readVarint_varintEncode _ _ (by omega)
  obtain ⟨y, ys, hy⟩ := List.exists_cons_of_ne_nil (varintEncode_ne_nil (8 * fd.number + 2))
  rw [tagBytes, List.append_assoc, hy, List.cons_append]
  simp only [decodeFields]
  have hread' : readVarint (y :: (ys ++ (lenPayload bs ++ rest)))
      = .ok (8 * fd.number + 2, lenPayload bs ++ rest) := by
    rw [← List.cons_append, ← hy]
    exact hread
  simp only [hread']
  have hdiv : (8 * fd.number + 2) / 8 = fd.number := by omega
  have hmod : (8 * fd.number + 2) % 8 = 2 := by omega
  rw [hdiv, hmod]
  rw [if_neg (by omega : ¬ fd.number = 0)]
  have hlenr : readVarint (lenPayload bs ++ rest) = .ok (bs.length, bs ++ rest) := by
    rw [lenPayload, List.append_assoc]
    exact readVarint_varintEncode _ _ hpl
  have hrb : readBytes bs.length (bs ++ rest) = .ok (bs, rest) := readBytes_exact _ _
  rcases hst with hty | hty
  · simp only [hfind, hlab, hty, wireTypeOf, wireTypeOfScalar]
    rw [if_neg (by simp : ¬ ((2 : Nat) ≠ 2))]
    simp only [hlenr, hrb]
    exact decodeFields_irrel reg rest.length md rest _ unk a g le_rfl (by omega) hg
  · simp only [hfind, hlab, hty, wireTypeOf, wireTypeOfScalar]
    rw [if_neg (by simp : ¬ ((2 : Nat) ≠ 2))]
    simp only [hlenr, hrb]
    exact decodeFields_irrel reg rest.length md rest _ unk a g le_rfl (by omega) hg

/-- One decode step over an encoder-produced singular numeric record. -/
theorem decode_step_singular_num (reg : Registry) (md : MessageDescriptor)
    (fd : FieldDescriptor) (v : Value) (fs : FieldMap) (unk : List UnknownSpan)
    (rest : List Nat)
    (hfind : md.fields.find? (fun fd' => fd'.number == fd.number) = some fd)
    (hlab : fd.label = .singular)
    (hwt : wireTypeOf fd.typ ≠ 2)
    (hwf : wfSingular reg fd.typ v = true)
    (hn1 : 0 < fd.number) (hn2 : fd.number < 2 ^ 29) :
    ∀ f g : Nat,
      (tagBytes fd.number (wireTypeOf fd.typ) ++ numericPayload fd.typ v ++ rest).length < f →
      rest.length < g →
      decodeFields reg f md
          (tagBytes fd.number (wireTypeOf fd.typ) ++ numericPayload fd.typ v ++ rest) fs unk
        = decodeFields reg g md rest (setField fs fd.number v) unk := by
  intro f g hf hg
  obtain ⟨a, rfl⟩ : ∃ a, f = a + 1 := ⟨f - 1, by omega⟩
  have hwt8 : wireTypeOf fd.typ < 8 := wireTypeOf_lt_8 fd.typ
  have h1 : 0 < (varintEncode (8 * fd.number + wireTypeOf fd.typ)).length :=
    varintEncodeAux_length_pos 9 _
  have hflen : (tagBytes fd.number (wireTypeOf fd.typ) ++ numericPayload fd.typ v ++ rest).length
      = (varintEncode (8 * fd.number + wireTypeOf fd.typ)).length
        + (numericPayload fd.typ v).length + rest.length := by
    simp [tagBytes]
    omega
  have hread : readVarint (varintEncode (8 * fd.number + wireTypeOf fd.typ)
        ++ (numericPayload fd.typ v ++ rest))
      = .ok (8 * fd.number + wireTypeOf fd.typ, numericPayload fd.typ v ++ rest) :=
    readVarint_varintEncode _ _ (by omega)
  obtain ⟨y, ys, hy⟩ :=
    List.exists_cons_of_ne_nil (varintEncode_ne_nil (8 * fd.number + wireTypeOf fd.typ))
  rw [tagBytes, List.append_assoc, hy, List.cons_append]
  simp only [decodeFields]
  have hread' : readVarint (y :: (ys ++ (numericPayload fd.typ v ++ rest)))
      = .ok (8 * fd.number + wireTypeOf fd.typ, numericPayload fd.typ v ++ rest) := by
    rw [← List.cons_append, ← hy]
    exact hread
  simp only [hread']
  have hdiv : (8 * fd.number + wireTypeOf fd.typ) / 8 = fd.number := by omega
  have hmod : (8 * fd.number + wireTypeOf fd.typ) % 8 = wireTypeOf fd.typ := by omega
  rw [hdiv, hmod]
  rw [if_neg (by omega : ¬ fd.number = 0)]
  simp only [hfind, hlab]
  rw [if_neg (by simp : ¬ (wireTypeOf fd.typ ≠ wireTypeOf fd.typ))]
  have hrn := readNumeric_roundtrip reg fd.typ fd.number v rest hwf hwt
  cases hty : fd.typ with
  | messageTy tn => rw [hty] at hwt; simp [wireTypeOf] at hwt
  | enumTy tn =>
    simp only [hty]
    rw [hty] at hrn
    simp only [hrn]
    exact decodeFields_irrel reg rest.length md rest _ unk a g le_rfl (by omega) hg
  | scalar s =>
    cases s with
    | sString => rw [hty] at hwt; simp [wireTypeOf, wireTypeOfScalar] at hwt
    | sBytes => rw [hty] at hwt; simp [wireTypeOf, wireTypeOfScalar] at hwt
    | sInt32 | sInt64 | sUint32 | sUint64 | sBool | sFixed32 | sFixed64 =>
      simp only [hty]
      rw [hty] at hrn
      simp only [hrn]
      exact decodeFields_irrel reg rest.length md rest _ unk a g le_rfl (by omega) hg

/-- One decode step over an encoder-produced packed repeated record. -/
theorem decode_step_rep_packed (reg : Registry) (md : MessageDescriptor)
    (fd : FieldDescriptor) (vs : ValueList) (fs : FieldMap) (unk : List UnknownSpan)
    (rest : List Nat)
    (hfind : md.fields.find? (fun fd' => fd'.number == fd.number) = some fd)
    (hlab : fd.label = .repeated) (hpk : packable fd.typ = true)
    (hn1 : 0 < fd.number) (hn2 : fd.number < 2 ^ 29)
    (hpl : (packedPayload fd.typ vs).length < 2 ^ 64)
    (hpp : ∀ h : Nat, (packedPayload fd.typ vs).length < h →
      parsePacked fd.typ fd.number h (packedPayload fd.typ vs) = .ok vs) :
    ∀ f g : Nat,
      (tagBytes fd.number 2 ++ lenPayload (packedPayload fd.typ vs) ++ rest).length < f →
      rest.length < g →
      decodeFields reg f md
          (tagBytes fd.number 2 ++ lenPayload (packedPayload fd.typ vs) ++ rest) fs unk
        = decodeFields reg g md rest (appendList fs fd.number vs) unk := by
  intro f g hf hg
  obtain ⟨a, rfl⟩ : ∃ a, f = a + 1 := ⟨f - 1, by omega⟩
  have h1 : 0 < (varintEncode (8 * fd.number + 2)).length := varintEncodeAux_length_pos 9 _
  have h2 : 0 < (varintEncode (packedPayload fd.typ vs).length).length :=
    varintEncodeAux_length_pos 9 _
  have hflen : (tagBytes fd.number 2 ++ lenPayload (packedPayload fd.typ vs) ++ rest).length
      = (varintEncode (8 * fd.number + 2)).length
        + ((varintEncode (packedPayload fd.typ vs).length).length
          + (packedPayload fd.typ vs).length) + rest.length := by
    simp [tagBytes, lenPayload]
    omega
  have hread : readVarint (varintEncode (8 * fd.number + 2)
        ++ (lenPayload (packedPayload fd.typ vs) ++ rest))
      = .ok (8 * fd.number + 2, lenPayload (packedPayload fd.typ vs) ++ rest) :=
    readVarint_varintEncode _ _ (by omega)
  obtain ⟨y, ys, hy⟩ := List.exists_cons_of_ne_nil (varintEncode_ne_nil (8 * fd.number + 2))
  rw [tagBytes, List.append_assoc, hy, List.cons_append]
  simp only [decodeFields]
  have hread' : readVarint (y :: (ys ++ (lenPayload (packedPayload fd.typ vs) ++ rest)))
      = .ok (8 * fd.number + 2, lenPayload (packedPayload fd.typ vs) ++ rest) := by
    rw [← List.cons_append, ← hy]
    exact hread
  simp only [hread']
  have hdiv : (8 * fd.number + 2) / 8 = fd.number := by omega
  have hmod : (8 * fd.number + 2) % 8 = 2 := by omega
  rw [hdiv, hmod]
  rw [if_neg (by omega : ¬ fd.number = 0)]
  simp only [hfind, hlab]
  rw [if_pos (by trivial)]
  have hlenr : readVarint (lenPayload (packedPayload fd.typ vs) ++ rest)
      = .ok ((packedPayload fd.typ vs).length, packedPayload fd.typ vs ++ rest) := by
    rw [lenPayload, List.append_assoc]
    exact readVarint_varintEncode _ _ hpl
  simp only [hlenr]
  have hrb : readBytes (packedPayload fd.typ vs).length (packedPayload fd.typ vs ++ rest)
      = .ok (packedPayload fd.typ vs, rest) := readBytes_exact _ _
  simp only [hrb]
  rw [if_pos hpk]
  simp only [hpp a (by omega)]
  exact decodeFields_irrel reg rest.length md rest _ unk a g le_rfl (by omega) hg

/-- One decode step over an encoder-produced unpacked repeated message
element. -/
theorem decode_step_rep_msg (reg : Registry) (md : MessageDescriptor)
    (fd : FieldDescriptor) (tn : String) (md' : MessageDescriptor)
    (payload : List Nat) (fs' : FieldMap) (unk2 : List UnknownSpan)
    (fs : FieldMap) (unk : List UnknownSpan) (rest : List Nat)
    (hfind : md.fields.find? (fun fd' => fd'.number == fd.number) = some fd)
    (hlab : fd.label = .repeated) (hty : fd.typ = .messageTy tn)
    (hfm : findMessage reg tn = some md')
    (hn1 : 0 < fd.number) (hn2 : fd.number < 2 ^ 29)
    (hpl : payload.length < 2 ^ 64)
    (hsub : ∀ h : Nat, payload.length < h →
      decodeFields reg h md' payload .nil [] = .ok (fs', unk2)) :
    ∀ f g : Nat, (tagBytes fd.number 2 ++ lenPayload payload ++ rest).length < f →
      rest.length < g →
      decodeFields reg f md (tagBytes fd.number 2 ++ lenPayload payload ++ rest) fs unk
        = decodeFields reg g md rest
            (appendList fs fd.number (.cons (.vMsg fs' unk2) .nil)) unk := by
  intro f g hf hg
  obtain ⟨a, rfl⟩ : ∃ a, f = a + 1 := ⟨f - 1, by omega⟩
  have h1 : 0 < (varintEncode (8 * fd.number + 2)).length := varintEncodeAux_length_pos 9 _
  have h2 : 0 < (varintEncode payload.length).length := varintEncodeAux_length_pos 9 _
  have hflen : (tagBytes fd.number 2 ++ lenPayload payload ++ rest).length
      = (varintEncode (8 * fd.number + 2)).length
        + ((varintEncode payload.length).length + payload.length) + rest.length := by
    simp [tagBytes, lenPayload]
    omega
  have hread : readVarint (varintEncode (8 * fd.number + 2) ++ (lenPayload payload ++ rest))
      = .ok (8 * fd.number + 2, lenPayload payload ++ rest) :=
    readVarint_varintEncode _ _ (by omega)
  obtain ⟨y, ys, hy⟩ := List.exists_cons_of_ne_nil (varintEncode_ne_nil (8 * fd.number + 2))
  rw [tagBytes, List.append_assoc, hy, List.cons_append]
  simp only [decodeFields]
  have hread' : readVarint (y :: (ys ++ (lenPayload payload ++ rest)))
      = .ok (8 * fd.number + 2, lenPayload payload ++ rest) := by
    rw [← List.cons_append, ← hy]
    exact hread
  simp only [hread']
  have hdiv : (8 * fd.number + 2) / 8 = fd.number := by omega
  have hmod : (8 * fd.number + 2) % 8 = 2 := by omega
  rw [hdiv, hmod]
  rw [if_neg (by omega : ¬ fd.number = 0)]
  simp only [hfind, hlab]
  rw [if_pos (by trivial)]
  have hlenr : readVarint (lenPayload payload ++ rest) = .ok (payload.length, payload ++ rest) := by
    rw [lenPayload, List.append_assoc]
    exact readVarint_varintEncode _ _ hpl
  simp only [hlenr]
  have hrb : readBytes payload.length (payload ++ rest) = .ok (payload, rest) :=
    readBytes_exact _ _
  simp only [hrb]
  rw [if_neg (by rw [hty]; simp [packable] : ¬ (packable fd.typ = true))]
  simp only [hty, hfm]
  simp only [hsub a (by omega)]
  exact decodeFields_irrel reg rest.length md rest _ unk a g le_rfl (by omega) hg

/-- One decode step over an encoder-produced unpacked repeated string/bytes
element. -/
theorem decode_step_rep_bytes (reg : Registry) (md : MessageDescriptor)
    (fd : FieldDescriptor) (bs : List Nat) (fs : FieldMap) (unk : List UnknownSpan)
    (rest : List Nat)
    (hfind : md.fields.find? (fun fd' => fd'.number == fd.number) = some fd)
    (hlab : fd.label = .repeated)
    (hst : fd.typ = .scalar .sString ∨ fd.typ = .scalar .sBytes)
    (hn1 : 0 < fd.number) (hn2 : fd.number < 2 ^ 29)
    (hpl : bs.length < 2 ^ 64) :
    ∀ f g : Nat, (tagBytes fd.number 2 ++ lenPayload bs ++ rest).length < f →
      rest.length < g →
      decodeFields reg f md (tagBytes fd.number 2 ++ lenPayload bs ++ rest) fs unk
        = decodeFields reg g md rest
            (appendList fs fd.number (.cons (.vBytes bs) .nil)) unk := by
  intro f g hf hg
  obtain ⟨a, rfl⟩ : ∃ a, f = a + 1 := ⟨f - 1, by omega⟩
  have h1 : 0 < (varintEncode (8 * fd.number + 2)).length := varintEncodeAux_length_pos 9 _
  have h2 : 0 < (varintEncode bs.length).length := varintEncodeAux_length_pos 9 _
  have hflen : (tagBytes fd.number 2 ++ lenPayload bs ++ rest).length
      = (varintEncode (8 * fd.number + 2)).length
        + ((varintEncode bs.length).length + bs.length) + rest.length := by
    simp [tagBytes, lenPayload]
    omega
  have hread : readVarint (varintEncode (8 * fd.number + 2) ++ (lenPayload bs ++ rest))
      = .ok (8 * fd.number + 2, lenPayload bs ++ rest) :=
    readVarint_varintEncode _ _ (by omega)
  obtain ⟨y, ys, hy⟩ := List.exists_cons_of_ne_nil (varintEncode_ne_nil (8 * fd.number + 2))
  rw [tagBytes, List.append_assoc, hy, List.cons_append]
  simp only [decodeFields]
  have hread' : readVarint (y :: (ys ++ (lenPayload bs ++ rest)))
      = .ok (8 * fd.number + 2, lenPayload bs ++ rest) := by
    rw [← List.cons_append, ← hy]
    exact hread
  simp only [hread']
  have hdiv : (8 * fd.number + 2) / 8 = fd.number := by omega
  have hmod : (8 * fd.number + 2) % 8 = 2 := by omega
  rw [hdiv, hmod]
  rw [if_neg (by omega : ¬ fd.number = 0)]
  simp only [hfind, hlab]
  rw [if_pos (by trivial)]
  have hlenr : readVarint (lenPayload bs ++ rest) = .ok (bs.length, bs ++ rest) := by
    rw [lenPayload, List.append_assoc]
    exact readVarint_varintEncode _ _ hpl
  simp only [hlenr]
  have hrb : readBytes bs.length (bs ++ rest) = .ok (bs, rest) := readBytes_exact _ _
  simp only [hrb]
  rcases hst with hty | hty
  · rw [if_neg (by rw [hty]; simp [packable, wireTypeOfScalar] : ¬ (packable fd.typ = true))]
    simp only [hty]
    exact decodeFields_irrel reg rest.length md rest _ unk a g le_rfl (by omega) hg
  · rw [if_neg (by rw [hty]; simp [packable, wireTypeOfScalar] : ¬ (packable fd.typ = true))]
    simp only [hty]
    exact decodeFields_irrel reg rest.length md rest _ unk a g le_rfl (by omega) hg

/-- One decode step over an encoder-produced map entry record. -/
theorem decode_step_map_entry (reg : Registry) (md : MessageDescriptor)
    (fd : FieldDescriptor) (tn : String) (ed : MessageDescriptor)
    (kt : ScalarType) (vt : FieldType)
    (payload : List Nat) (efs : FieldMap) (eunk : List UnknownSpan)
    (fs : FieldMap) (unk : List UnknownSpan) (rest : List Nat)
    (hfind : md.fields.find? (fun fd' => fd'.number == fd.number) = some fd)
    (hlab : fd.label = .mapKind) (hty : fd.typ = .messageTy tn)
    (hfm : findMessage reg tn = some ed)
    (hmei : mapEntryInfo ed = some (kt, vt))
    (hn1 : 0 < fd.number) (hn2 : fd.number < 2 ^ 29)
    (hpl : payload.length < 2 ^ 64)
    (hsub : ∀ h : Nat, payload.length < h →
      decodeFields reg h ed payload .nil [] = .ok (efs, eunk)) :
    ∀ f g : Nat, (tagBytes fd.number 2 ++ lenPayload payload ++ rest).length < f →
      rest.length < g →
      decodeFields reg f md (tagBytes fd.number 2 ++ lenPayload payload ++ rest) fs unk
        = decodeFields reg g md rest
            (mapInsert fs fd.number ((getField efs 1).getD (defaultValue (.scalar kt)))
              ((getField efs 2).getD (defaultValue vt))) unk := by
  intro f g hf hg
  obtain ⟨a, rfl⟩ : ∃ a, f = a + 1 := ⟨f - 1, by omega⟩
  have h1 : 0 < (varintEncode (8 * fd.number + 2)).length := varintEncodeAux_length_pos 9 _
  have h2 : 0 < (varintEncode payload.length).length := varintEncodeAux_length_pos 9 _
  have hflen : (tagBytes fd.number 2 ++ lenPayload payload ++ rest).length
      = (varintEncode (8 * fd.number + 2)).length
        + ((varintEncode payload.length).length + payload.length) + rest.length := by
    simp [tagBytes, lenPayload]
    omega
  have hread : readVarint (varintEncode (8 * fd.number + 2) ++ (lenPayload payload ++ rest))
      = .ok (8 * fd.number + 2, lenPayload payload ++ rest) :=
    readVarint_varintEncode _ _ (by omega)
  obtain ⟨y, ys, hy⟩ := List.exists_cons_of_ne_nil (varintEncode_ne_nil (8 * fd.number + 2))
  rw [tagBytes, List.append_assoc, hy, List.cons_append]
  simp only [decodeFields]
  have hread' : readVarint (y :: (ys ++ (lenPayload payload ++ rest)))
      = .ok (8 * fd.number + 2, lenPayload payload ++ rest) := by
    rw [← List.cons_append, ← hy]
    exact hread
  simp only [hread']
  have hdiv : (8 * fd.number + 2) / 8 = fd.number := by omega
  have hmod : (8 * fd.number + 2) % 8 = 2 := by omega
  rw [hdiv, hmod]
  rw [if_neg (by omega : ¬ fd.number = 0)]
  simp only [hfind, hlab]
  rw [if_neg (by simp : ¬ ((2 : Nat) ≠ 2))]
  simp only [hty]
  have hlenr : readVarint (lenPayload payload ++ rest) = .ok (payload.length, payload ++ rest) := by
    rw [lenPayload, List.append_assoc]
    exact readVarint_varintEncode _ _ hpl
  simp only [hlenr]
  have hrb : readBytes payload.length (payload ++ rest) = .ok (payload, rest) :=
    readBytes_exact _ _
  simp only [hrb, hfm, hmei]
  simp only [hsub a (by omega)]
  exact decodeFields_irrel reg rest.length md rest _ unk a g le_rfl (by omega) hg

/-! ## Extraction lemmas for well-formedness hypotheses -/

theorem fmSortedAbove_lt (fs : FieldMap) :
    ∀ n, fmSortedAbove n fs = true → ∀ b ∈ fieldNumbers fs, n < b := by
  induction fs using fmInd with
  | hnil => intro n _ b hb; simp [fieldNumbers] at hb
  | hcons m v t ih =>
    intro n h b hb
    simp only [fmSortedAbove, Bool.and_eq_true, decide_eq_true_eq] at h
    simp only [fieldNumbers, List.mem_cons] at hb
    rcases hb with rfl | hb
    · exact h.1
    · exact lt_trans h.1 (ih m h.2 b hb)

theorem fmSorted_of_above (fs : FieldMap) (n : Nat) (h : fmSortedAbove n fs = true) :
    fmSorted fs = true := by
  cases fs with
  | nil => rfl
  | cons m v t =>
    simp only [fmSortedAbove, Bool.and_eq_true] at h
    simp only [fmSorted]
    exact h.2

theorem wfMD_field_bounds (md : MessageDescriptor) (fd : FieldDescriptor)
    (hmd : wfMessageDescriptor md = true) (hmem : fd ∈ md.fields) :
    0 < fd.number ∧ fd.number < 2 ^ 29 := by
  simp only [wfMessageDescriptor, Bool.and_eq_true, List.all_eq_true] at hmd
  have := hmd.1.1 fd hmem
  simp only [Bool.and_eq_true, decide_eq_true_eq] at this
  exact this

theorem findMessage_wf (reg : Registry) (tn : String) (md' : MessageDescriptor)
    (hreg : wfRegistry reg = true) (hfm : findMessage reg tn = some md') :
    wfMessageDescriptor md' = true := by
  simp only [wfRegistry, Bool.and_eq_true, List.all_eq_true] at hreg
  exact hreg.1 md' (List.mem_of_find?_eq_some hfm)

theorem find?_number_eq (md : MessageDescriptor) (n : Nat) (fd : FieldDescriptor)
    (h : md.fields.find? (fun fd' => fd'.number == n) = some fd) : fd.number = n := by
  have := List.find?_some h
  simpa using this

theorem mapEntryInfo_spec (ed : MessageDescriptor) (kt : ScalarType) (vt : FieldType)
    (h : mapEntryInfo ed = some (kt, vt)) :
    ∃ kf vf, ed.fields = [kf, vf] ∧ kf.number = 1 ∧ vf.number = 2 ∧
      kf.label = .singular ∧ vf.label = .singular ∧ kf.typ = .scalar kt ∧ vf.typ = vt := by
  simp only [mapEntryInfo] at h
  split at h
  · rename_i kf vf heq
    split at h
    · rename_i hguard
      simp only [Bool.and_eq_true, decide_eq_true_eq, beq_iff_eq] at hguard
      split at h
      · rename_i st hst
        split at h
        · simp at h
        · simp only [Option.some.injEq, Prod.mk.injEq] at h
          exact ⟨kf, vf, heq, hguard.1.1.1.1.1, hguard.1.1.1.2,
            hguard.1.2, hguard.2, by rw [hst, h.1], h.2⟩
      · simp at h
    · simp at h
  · simp at h

/-! ## The decode-of-encode round-trip (grand induction) -/

/-- Round-trip statement for a message's known fields: decoding the encoding
of a well-formed field map appended to any continuation consumes exactly the
encoding and extends the accumulator in order. -/
def RTfields (N : Nat) : Prop :=
  ∀ (reg : Registry) (md : MessageDescriptor) (fs acc : FieldMap)
    (unk : List UnknownSpan) (rest : List Nat) (f g : Nat),
    msF fs ≤ N →
    wfRegistry reg = true → wfMessageDescriptor md = true →
    wfFieldsAux reg md fs = true → noUnknownF fs = true → fmSorted fs = true →
    (∀ a ∈ fieldNumbers acc, ∀ b ∈ fieldNumbers fs, a < b) →
    (encodeFields reg md fs).length < 2 ^ 64 →
    (encodeFields reg md fs ++ rest).length < f → rest.length < g →
    decodeFields reg f md (encodeFields reg md fs ++ rest) acc unk
      = decodeFields reg g md rest (fmConcat acc fs) unk

/-- Round-trip statement for a single singular field record. -/
def RTsing (N : Nat) : Prop :=
  ∀ (reg : Registry) (md : MessageDescriptor) (fd : FieldDescriptor) (v : Value)
    (fs : FieldMap) (unk : List UnknownSpan) (rest : List Nat) (f g : Nat),
    msV v ≤ N →
    wfRegistry reg = true → wfMessageDescriptor md = true →
    md.fields.find? (fun fd' => fd'.number == fd.number) = some fd →
    fd.label = .singular →
    wfSingular reg fd.typ v = true → noUnknownV v = true →
    (encodeSingular reg fd.typ fd.number v).length < 2 ^ 64 →
    (encodeSingular reg fd.typ fd.number v ++ rest).length < f → rest.length < g →
    decodeFields reg f md (encodeSingular reg fd.typ fd.number v ++ rest) fs unk
      = decodeFields reg g md rest (setField fs fd.number v) unk

/-- Round-trip statement for the unpacked elements of a repeated field. -/
def RTelems (N : Nat) : Prop :=
  ∀ (reg : Registry) (md : MessageDescriptor) (fd : FieldDescriptor) (vs : ValueList)
    (fs : FieldMap) (unk : List UnknownSpan) (rest : List Nat) (f g : Nat),
    msL vs ≤ N →
    wfRegistry reg = true → wfMessageDescriptor md = true →
    md.fields.find? (fun fd' => fd'.number == fd.number) = some fd →
    fd.label = .repeated → packable fd.typ = false →
    wfElems reg fd.typ vs = true → noUnknownL vs = true →
    (encodeUnpacked reg fd.typ fd.number vs).length < 2 ^ 64 →
    (encodeUnpacked reg fd.typ fd.number vs ++ rest).length < f → rest.length < g →
    decodeFields reg f md (encodeUnpacked reg fd.typ fd.number vs ++ rest) fs unk
      = decodeFields reg g md rest (appendElems fs fd.number vs) unk

/-- Round-trip statement for the entries of a map field. -/
def RTentries (N : Nat) : Prop :=
  ∀ (reg : Registry) (md : MessageDescriptor) (fd : FieldDescriptor) (tn : String)
    (ed : MessageDescriptor) (kt : ScalarType) (vt : FieldType) (es : EntryList)
    (fs : FieldMap) (unk : List UnknownSpan) (rest : List Nat) (f g : Nat),
    msE es ≤ N →
    wfRegistry reg = true → wfMessageDescriptor md = true →
    md.fields.find? (fun fd' => fd'.number == fd.number) = some fd →
    fd.label = .mapKind → fd.typ = .messageTy tn →
    findMessage reg tn = some ed → mapEntryInfo ed = some (kt, vt) →
    wfEntries reg kt vt es = true → noUnknownE es = true →
    (encodeEntries reg kt vt fd.number es).length < 2 ^ 64 →
    (encodeEntries reg kt vt fd.number es ++ rest).length < f → rest.length < g →
    decodeFields reg f md (encodeEntries reg kt vt fd.number es ++ rest) fs unk
      = decodeFields reg g md rest (insertEntries fs fd.number es) unk

/-- The strong-induction step for singular records. -/
theorem rtSingStep (N : Nat)
    (ih : ∀ m, m < N → RTfields m ∧ RTsing m ∧ RTelems m ∧ RTentries m) : RTsing N := by
  intro reg md fd v fs unk rest f g hN hreg hmd hfind hlab hwfv hnuv hblen hf hg
  have hmem := List.mem_of_find?_eq_some hfind
  obtain ⟨hn1, hn2⟩ := wfMD_field_bounds md fd hmd hmem
  cases hty : fd.typ with
  | messageTy tn =>
    cases v with
    | vMsg fs' unk' =>
      rw [hty] at hwfv
      simp only [wfSingular] at hwfv
      cases hfm : findMessage reg tn with
      | none => rw [hfm] at hwfv; simp at hwfv
      | some md' =>
        rw [hfm] at hwfv
        simp only [Bool.and_eq_true] at hwfv
        obtain ⟨⟨⟨hnme, hwfa'⟩, hsort'⟩, honeof'⟩ := hwfv
        simp only [noUnknownV, Bool.and_eq_true] at hnuv
        obtain ⟨hemp, hnuf⟩ := hnuv
        have hunk : unk' = [] := by
          cases unk' with
          | nil => rfl
          | cons s t => simp [List.isEmpty] at hemp
        subst hunk
        have henc : encodeSingular reg fd.typ fd.number (.vMsg fs' [])
            = tagBytes fd.number 2 ++ lenPayload (encodeFields reg md' fs') := by
          rw [hty]
          simp only [encodeSingular, hfm, spansJoin, List.append_nil]
        rw [← hty]
        rw [henc] at hblen hf ⊢
        have hencl : (encodeFields reg md' fs').length < 2 ^ 64 := by
          rw [List.length_append, lenPayload_length] at hblen
          omega
        have hN' : msF fs' < N := by
          rw [msV_vMsg] at hN
          omega
        have hsub : ∀ h : Nat, (encodeFields reg md' fs').length < h →
            decodeFields reg h md' (encodeFields reg md' fs') .nil [] = .ok (fs', []) := by
          intro h hh
          have hrt := (ih (msF fs') hN').1 reg md' fs' .nil [] [] h 1 le_rfl hreg
            (findMessage_wf reg tn md' hreg hfm) hwfa' hnuf hsort'
            (by intro a ha; simp [fieldNumbers] at ha) hencl
            (by simpa using hh) (by simp)
          rw [List.append_nil] at hrt
          rw [hrt]
          simp [decodeFields, fmConcat]
        exact decode_step_singular_msg reg md fd tn md' (encodeFields reg md' fs') fs' []
          fs unk rest hfind hlab hty hfm hn1 hn2 hencl hsub f g hf hg
    | vInt i => rw [hty] at hwfv; simp [wfSingular] at hwfv
    | vBool b => rw [hty] at hwfv; simp [wfSingular] at hwfv
    | vBytes bs => rw [hty] at hwfv; simp [wfSingular] at hwfv
    | vList vs => rw [hty] at hwfv; simp [wfSingular] at hwfv
    | vMap es => rw [hty] at hwfv; simp [wfSingular] at hwfv
  | enumTy tn =>
    cases v with
    | vInt i =>
      have hwt : wireTypeOf fd.typ ≠ 2 := by rw [hty]; simp [wireTypeOf]
      have henc : encodeSingular reg fd.typ fd.number (.vInt i)
          = tagBytes fd.number (wireTypeOf fd.typ) ++ numericPayload fd.typ (.vInt i) := by
        rw [hty]
        rfl
      rw [← hty]
      rw [henc] at hf ⊢
      exact decode_step_singular_num reg md fd (.vInt i) fs unk rest hfind hlab hwt
        (hty ▸ hwfv) hn1 hn2 f g hf hg
    | vBool b => rw [hty] at hwfv; simp [wfSingular] at hwfv
    | vBytes bs => rw [hty] at hwfv; simp [wfSingular] at hwfv
    | vMsg fs' unk' => rw [hty] at hwfv; simp [wfSingular] at hwfv
    | vList vs => rw [hty] at hwfv; simp [wfSingular] at hwfv
    | vMap es => rw [hty] at hwfv; simp [wfSingular] at hwfv
  | scalar s =>
    cases s with
    | sString =>
      cases v with
      | vBytes bs =>
        have henc : encodeSingular reg fd.typ fd.number (.vBytes bs)
            = tagBytes fd.number 2 ++ lenPayload bs := by
          rw [hty]
          rfl
        rw [← hty]
        rw [henc] at hblen hf ⊢
        have hbs : bs.length < 2 ^ 64 := by
          rw [List.length_append, lenPayload_length] at hblen
          omega
        exact decode_step_singular_bytes reg md fd bs fs unk rest hfind hlab
          (Or.inl hty) hn1 hn2 hbs f g hf hg
      | vInt i => rw [hty] at hwfv; simp [wfSingular] at hwfv
      | vBool b => rw [hty] at hwfv; simp [wfSingular] at hwfv
      | vMsg fs' unk' => rw [hty] at hwfv; simp [wfSingular] at hwfv
      | vList vs => rw [hty] at hwfv; simp [wfSingular] at hwfv
      | vMap es => rw [hty] at hwfv; simp [wfSingular] at hwfv
    | sBytes =>
      cases v with
      | vBytes bs =>
        have henc : encodeSingular reg fd.typ fd.number (.vBytes bs)
            = tagBytes fd.number 2 ++ lenPayload bs := by
          rw [hty]
          rfl
        rw [← hty]
        rw [henc] at hblen hf ⊢
        have hbs : bs.length < 2 ^ 64 := by
          rw [List.length_append, lenPayload_length] at hblen
          omega
        exact decode_step_singular_bytes reg md fd bs fs unk rest hfind hlab
          (Or.inr hty) hn1 hn2 hbs f g hf hg
      | vInt i => rw [hty] at hwfv; simp [wfSingular] at hwfv
      | vBool b => rw [hty] at hwfv; simp [wfSingular] at hwfv
      | vMsg fs' unk' => rw [hty] at hwfv; simp [wfSingular] at hwfv
      | vList vs => rw [hty] at hwfv; simp [wfSingular] at hwfv
      | vMap es => rw [hty] at hwfv; simp [wfSingular] at hwfv
    | sBool =>
      cases v with
      | vBool b =>
        have hwt : wireTypeOf fd.typ ≠ 2 := by rw [hty]; simp [wireTypeOf, wireTypeOfScalar]
        have henc : encodeSingular reg fd.typ fd.number (.vBool b)
            = tagBytes fd.number (wireTypeOf fd.typ) ++ numericPayload fd.typ (.vBool b) := by
          rw [hty]
          rfl
        rw [← hty]
        rw [henc] at hf ⊢
        exact decode_step_singular_num reg md fd (.vBool b) fs unk rest hfind hlab hwt
          (hty ▸ hwfv) hn1 hn2 f g hf hg
      | vInt i => rw [hty] at hwfv; simp [wfSingular] at hwfv
      | vBytes bs => rw [hty] at hwfv; simp [wfSingular] at hwfv
      | vMsg fs' unk' => rw [hty] at hwfv; simp [wfSingular] at hwfv
      | vList vs => rw [hty] at hwfv; simp [wfSingular] at hwfv
      | vMap es => rw [hty] at hwfv; simp [wfSingular] at hwfv
    | sInt32 | sInt64 | sUint32 | sUint64 | sFixed32 | sFixed64 =>
      cases v with
      | vInt i =>
        have hwt : wireTypeOf fd.typ ≠ 2 := by rw [hty]; simp [wireTypeOf, wireTypeOfScalar]
        have henc : encodeSingular reg fd.typ fd.number (.vInt i)
            = tagBytes fd.number (wireTypeOf fd.typ) ++ numericPayload fd.typ (.vInt i) := by
          rw [hty]
          rfl
        rw [← hty]
        rw [henc] at hf ⊢
        exact decode_step_singular_num reg md fd (.vInt i) fs unk rest hfind hlab hwt
          (hty ▸ hwfv) hn1 hn2 f g hf hg
      | vBool b => rw [hty] at hwfv; simp [wfSingular] at hwfv
      | vBytes bs => rw [hty] at hwfv; simp [wfSingular] at hwfv
      | vMsg fs' unk' => rw [hty] at hwfv; simp [wfSingular] at hwfv
      | vList vs => rw [hty] at hwfv; simp [wfSingular] at hwfv
      | vMap es => rw [hty] at hwfv; simp [wfSingular] at hwfv

/-- The strong-induction step for the unpacked elements of a repeated
field. -/
theorem rtElemsStep (N : Nat)
    (ih : ∀ m, m < N → RTfields m ∧ RTsing m ∧ RTelems m ∧ RTentries m) : RTelems N := by
  intro reg md fd vs fs unk rest f g hN hreg hmd hfind hlab hpkf hwfe hnue hblen hf hg
  have hmem := List.mem_of_find?_eq_some hfind
  obtain ⟨hn1, hn2⟩ := wfMD_field_bounds md fd hmd hmem
  cases vs with
  | nil =>
    simp only [encodeUnpacked, List.nil_append] at hf ⊢
    simp only [appendElems]
    exact decodeFields_irrel reg rest.length md rest fs unk f g le_rfl hf hg
  | cons v t =>
    simp only [wfElems, Bool.and_eq_true] at hwfe
    obtain ⟨hwfv, hwft⟩ := hwfe
    simp only [noUnknownL, Bool.and_eq_true] at hnue
    obtain ⟨hnuv, hnut⟩ := hnue
    have henc : encodeUnpacked reg fd.typ fd.number (.cons v t)
        = encodeSingular reg fd.typ fd.number v ++ encodeUnpacked reg fd.typ fd.number t := rfl
    rw [henc] at hblen hf ⊢
    rw [List.append_assoc] at hf ⊢
    have hbl1 : (encodeSingular reg fd.typ fd.number v).length < 2 ^ 64 := by
      rw [List.length_append] at hblen
      omega
    have hbl2 : (encodeUnpacked reg fd.typ fd.number t).length < 2 ^ 64 := by
      rw [List.length_append] at hblen
      omega
    have hNt : msL t < N := by
      rw [msL_cons] at hN
      have := msV_pos v
      omega
    have hNv : msV v < N := by
      rw [msL_cons] at hN
      omega
    cases hty : fd.typ with
    | messageTy tn =>
      rw [← hty]
      cases v with
      | vMsg fs' unk' =>
        rw [hty] at hwfv
        simp only [wfSingular] at hwfv
        cases hfm : findMessage reg tn with
        | none => rw [hfm] at hwfv; simp at hwfv
        | some md' =>
          rw [hfm] at hwfv
          simp only [Bool.and_eq_true] at hwfv
          obtain ⟨⟨⟨hnme, hwfa'⟩, hsort'⟩, honeof'⟩ := hwfv
          simp only [noUnknownV, Bool.and_eq_true] at hnuv
          obtain ⟨hemp, hnuf⟩ := hnuv
          have hunk : unk' = [] := by
            cases unk' with
            | nil => rfl
            | cons s u => simp [List.isEmpty] at hemp
          subst hunk
          have henc2 : encodeSingular reg fd.typ fd.number (.vMsg fs' [])
              = tagBytes fd.number 2 ++ lenPayload (encodeFields reg md' fs') := by
            rw [hty]
            simp only [encodeSingular, hfm, spansJoin, List.append_nil]
          rw [henc2] at hbl1 hf ⊢
          have hencl : (encodeFields reg md' fs').length < 2 ^ 64 := by
            rw [List.length_append, lenPayload_length] at hbl1
            omega
          have hN' : msF fs' < N := by
            rw [msV_vMsg] at hNv
            omega
          have hsub : ∀ h : Nat, (encodeFields reg md' fs').length < h →
              decodeFields reg h md' (encodeFields reg md' fs') .nil [] = .ok (fs', []) := by
            intro h hh
            have hrt := (ih (msF fs') hN').1 reg md' fs' .nil [] [] h 1 le_rfl hreg
              (findMessage_wf reg tn md' hreg hfm) hwfa' hnuf hsort'
              (by intro a ha; simp [fieldNumbers] at ha) hencl
              (by simpa using hh) (by simp)
            rw [List.append_nil] at hrt
            rw [hrt]
            simp [decodeFields, fmConcat]
          rw [decode_step_rep_msg reg md fd tn md' (encodeFields reg md' fs') fs' []
            fs unk (encodeUnpacked reg fd.typ fd.number t ++ rest) hfind hlab hty hfm
            hn1 hn2 hencl hsub f
            ((encodeUnpacked reg fd.typ fd.number t ++ rest).length + 1) hf (by omega)]
          rw [(ih (msL t) hNt).2.2.1 reg md fd t
            (appendList fs fd.number (.cons (.vMsg fs' []) .nil)) unk rest
            ((encodeUnpacked reg fd.typ fd.number t ++ rest).length + 1) g le_rfl
            hreg hmd hfind hlab hpkf hwft hnut hbl2 (by omega) hg]
          rfl
      | vInt i => rw [hty] at hwfv; simp [wfSingular] at hwfv
      | vBool b => rw [hty] at hwfv; simp [wfSingular] at hwfv
      | vBytes bs => rw [hty] at hwfv; simp [wfSingular] at hwfv
      | vList vs' => rw [hty] at hwfv; simp [wfSingular] at hwfv
      | vMap es => rw [hty] at hwfv; simp [wfSingular] at hwfv
    | enumTy tn =>
      rw [hty] at hpkf
      simp [packable] at hpkf
    | scalar s =>
      cases s with
      | sInt32 => rw [hty] at hpkf; simp [packable, wireTypeOfScalar] at hpkf
      | sInt64 => rw [hty] at hpkf; simp [packable, wireTypeOfScalar] at hpkf
      | sUint32 => rw [hty] at hpkf; simp [packable, wireTypeOfScalar] at hpkf
      | sUint64 => rw [hty] at hpkf; simp [packable, wireTypeOfScalar] at hpkf
      | sBool => rw [hty] at hpkf; simp [packable, wireTypeOfScalar] at hpkf
      | sFixed32 => rw [hty] at hpkf; simp [packable, wireTypeOfScalar] at hpkf
      | sFixed64 => rw [hty] at hpkf; simp [packable, wireTypeOfScalar] at hpkf
      | sString =>
        rw [← hty]
        cases v with
        | vBytes bs =>
          have henc2 : encodeSingular reg fd.typ fd.number (.vBytes bs)
              = tagBytes fd.number 2 ++ lenPayload bs := by
            rw [hty]
            rfl
          rw [henc2] at hbl1 hf ⊢
          have hbs : bs.length < 2 ^ 64 := by
            rw [List.length_append, lenPayload_length] at hbl1
            omega
          rw [decode_step_rep_bytes reg md fd bs fs unk
            (encodeUnpacked reg fd.typ fd.number t ++ rest) hfind hlab (Or.inl hty)
            hn1 hn2 hbs f
            ((encodeUnpacked reg fd.typ fd.number t ++ rest).length + 1) hf (by omega)]
          rw [(ih (msL t) hNt).2.2.1 reg md fd t
            (appendList fs fd.number (.cons (.vBytes bs) .nil)) unk rest
            ((encodeUnpacked reg fd.typ fd.number t ++ rest).length + 1) g le_rfl
            hreg hmd hfind hlab hpkf hwft hnut hbl2 (by omega) hg]
          rfl
        | vInt i => rw [hty] at hwfv; simp [wfSingular] at hwfv
        | vBool b => rw [hty] at hwfv; simp [wfSingular] at hwfv
        | vMsg fs' unk' => rw [hty] at hwfv; simp [wfSingular] at hwfv
        | vList vs' => rw [hty] at hwfv; simp [wfSingular] at hwfv
        | vMap es => rw [hty] at hwfv; simp [wfSingular] at hwfv
      | sBytes =>
        rw [← hty]
        cases v with
        | vBytes bs =>
          have henc2 : encodeSingular reg fd.typ fd.number (.vBytes bs)
              = tagBytes fd.number 2 ++ lenPayload bs := by
            rw [hty]
            rfl
          rw [henc2] at hbl1 hf ⊢
          have hbs : bs.length < 2 ^ 64 := by
            rw [List.length_append, lenPayload_length] at hbl1
            omega
          rw [decode_step_rep_bytes reg md fd bs fs unk
            (encodeUnpacked reg fd.typ fd.number t ++ rest) hfind hlab (Or.inr hty)
            hn1 hn2 hbs f
            ((encodeUnpacked reg fd.typ fd.number t ++ rest).length + 1) hf (by omega)]
          rw [(ih (msL t) hNt).2.2.1 reg md fd t
            (appendList fs fd.number (.cons (.vBytes bs) .nil)) unk rest
            ((encodeUnpacked reg fd.typ fd.number t ++ rest).length + 1) g le_rfl
            hreg hmd hfind hlab hpkf hwft hnut hbl2 (by omega) hg]
          rfl
        | vInt i => rw [hty] at hwfv; simp [wfSingular] at hwfv
        | vBool b => rw [hty] at hwfv; simp [wfSingular] at hwfv
        | vMsg fs' unk' => rw [hty] at hwfv; simp [wfSingular] at hwfv
        | vList vs' => rw [hty] at hwfv; simp [wfSingular] at hwfv
        | vMap es => rw [hty] at hwfv; simp [wfSingular] at hwfv

/-- The strong-induction step for map entries. -/
theorem rtEntriesStep (N : Nat)
    (ih : ∀ m, m < N → RTfields m ∧ RTsing m ∧ RTelems m ∧ RTentries m) : RTentries N := by
  intro reg md fd tn ed kt vt es fs unk rest f g hN hreg hmd hfind hlab hty hfm hmei
    hwfe hnue hblen hf hg
  have hmem := List.mem_of_find?_eq_some hfind
  obtain ⟨hn1, hn2⟩ := wfMD_field_bounds md fd hmd hmem
  obtain ⟨kf, vf, hedf, hkn, hvn, hkl, hvl, hktyp, hvtyp⟩ := mapEntryInfo_spec ed kt vt hmei
  have hfk : ed.fields.find? (fun fd' => fd'.number == (1 : Nat)) = some kf := by
    rw [hedf]
    simp [List.find?_cons, hkn]
  have hfv : ed.fields.find? (fun fd' => fd'.number == (2 : Nat)) = some vf := by
    rw [hedf]
    simp [List.find?_cons, hkn, hvn]
  cases es with
  | nil =>
    simp only [encodeEntries, List.nil_append] at hf ⊢
    simp only [insertEntries]
    exact decodeFields_irrel reg rest.length md rest fs unk f g le_rfl hf hg
  | cons k v t =>
    simp only [wfEntries, Bool.and_eq_true] at hwfe
    obtain ⟨⟨hwfk, hwfv⟩, hwft⟩ := hwfe
    simp only [noUnknownE, Bool.and_eq_true] at hnue
    obtain ⟨⟨hnuk, hnuv⟩, hnut⟩ := hnue
    have henc : encodeEntries reg kt vt fd.number (.cons k v t)
        = tagBytes fd.number 2
            ++ lenPayload (encodeSingular reg (.scalar kt) 1 k ++ encodeSingular reg vt 2 v)
            ++ encodeEntries reg kt vt fd.number t := rfl
    rw [henc] at hblen hf ⊢
    rw [List.append_assoc] at hf ⊢
    have hple : (encodeSingular reg (.scalar kt) 1 k
        ++ encodeSingular reg vt 2 v).length < 2 ^ 64 := by
      simp only [List.length_append, lenPayload_length] at hblen ⊢
      omega
    have hbl2 : (encodeEntries reg kt vt fd.number t).length < 2 ^ 64 := by
      rw [List.length_append, List.length_append] at hblen
      omega
    have hpayload : encodeFields reg ed (.cons 1 k (.cons 2 v .nil))
        = encodeSingular reg (.scalar kt) 1 k ++ encodeSingular reg vt 2 v := by
      rw [encodeFields_cons, encodeFields_cons, encodeFields_nil,
        encHead_singular reg ed 1 kf k hfk hkl, encHead_singular reg ed 2 vf v hfv hvl,
        hktyp, hvtyp, List.append_nil]
    have hwfe' : wfFieldsAux reg ed (.cons 1 k (.cons 2 v .nil)) = true := by
      rw [wfFieldsAux_cons, wfFieldsAux_cons, wfFieldsAux_nil,
        wfHead_singular reg ed 1 kf k hfk hkl, wfHead_singular reg ed 2 vf v hfv hvl,
        hktyp, hvtyp, hwfk, hwfv]
      rfl
    have hsorted' : fmSorted (.cons 1 k (.cons 2 v .nil)) = true := by
      simp [fmSorted, fmSortedAbove]
    have hnof' : noUnknownF (.cons 1 k (.cons 2 v .nil)) = true := by
      simp [noUnknownF, hnuk, hnuv]
    have hNe : msF (.cons 1 k (.cons 2 v .nil)) < N := by
      rw [msE_cons] at hN
      rw [msF_cons, msF_cons]
      have : msF FieldMap.nil = 0 := rfl
      omega
    have hNt : msE t < N := by
      rw [msE_cons] at hN
      have := msV_pos k
      omega
    have hsub : ∀ h : Nat,
        (encodeSingular reg (.scalar kt) 1 k ++ encodeSingular reg vt 2 v).length < h →
        decodeFields reg h ed
            (encodeSingular reg (.scalar kt) 1 k ++ encodeSingular reg vt 2 v) .nil []
          = .ok (.cons 1 k (.cons 2 v .nil), []) := by
      intro h hh
      rw [← hpayload] at hh ⊢
      have hrt := (ih (msF (.cons 1 k (.cons 2 v .nil))) hNe).1 reg ed
        (.cons 1 k (.cons 2 v .nil)) .nil [] [] h 1 le_rfl hreg
        (findMessage_wf reg tn ed hreg hfm) hwfe' hnof' hsorted'
        (by intro a ha; simp [fieldNumbers] at ha) (by rw [hpayload]; exact hple)
        (by simpa using hh) (by simp)
      rw [List.append_nil] at hrt
      rw [hrt]
      simp [decodeFields, fmConcat]
    rw [decode_step_map_entry reg md fd tn ed kt vt
      (encodeSingular reg (.scalar kt) 1 k ++ encodeSingular reg vt 2 v)
      (.cons 1 k (.cons 2 v .nil)) [] fs unk
      (encodeEntries reg kt vt fd.number t ++ rest) hfind hlab hty hfm hmei hn1 hn2
      hple hsub f ((encodeEntries reg kt vt fd.number t ++ rest).length + 1) hf (by omega)]
    have hg1 : getField (.cons 1 k (.cons 2 v .nil)) 1 = some k := by
      simp [getField]
    have hg2 : getField (.cons 1 k (.cons 2 v .nil)) 2 = some v := by
      simp [getField]
    rw [hg1, hg2]
    simp only [Option.getD_some]
    rw [(ih (msE t) hNt).2.2.2 reg md fd tn ed kt vt t (mapInsert fs fd.number k v) unk rest
      ((encodeEntries reg kt vt fd.number t ++ rest).length + 1) g le_rfl hreg hmd hfind
      hlab hty hfm hmei hwft hnut hbl2 (by omega) hg]
    rfl

/-- A packable field type is never length-delimited. -/
theorem packable_wireTypeOf (ft : FieldType) (h : packable ft = true) : wireTypeOf ft ≠ 2 := by
  cases ft with
  | scalar s => cases s <;> simp_all [packable, wireTypeOf, wireTypeOfScalar]
  | enumTy tn => simp [wireTypeOf]
  | messageTy tn => simp [packable] at h

/-- Extending an accumulator whose numbers all lie below `nn` by a slot at
`nn` keeps every stored number below a set of numbers above `nn`. -/
theorem extend_below (acc : FieldMap) (nn : Nat) (w : Value) (ts : List Nat)
    (haccn : ∀ a ∈ fieldNumbers acc, a < nn)
    (habove : ∀ b ∈ ts, nn < b)
    (hlt : ∀ a ∈ fieldNumbers acc, ∀ b ∈ ts, a < b) :
    ∀ a ∈ fieldNumbers (fmConcat acc (.cons nn w .nil)), ∀ b ∈ ts, a < b := by
  intro a ha b hb
  rw [fieldNumbers_fmConcat] at ha
  simp only [fieldNumbers, List.mem_append, List.mem_cons, List.not_mem_nil, or_false] at ha
  cases ha with
  | inl h => exact hlt a h b hb
  | inr h =>
    subst h
    exact habove b hb

/-- The strong-induction step for a message's field map. -/
theorem rtFieldsStep (N : Nat)
    (ih : ∀ m, m < N → RTfields m ∧ RTsing m ∧ RTelems m ∧ RTentries m) : RTfields N := by
  intro reg md fs acc unk rest f g hN hreg hmd hwfa hnof hsorted hlt hblen hf hg
  cases fs with
  | nil =>
    rw [fmConcat_nil_right]
    rw [encodeFields_nil, List.nil_append] at hf ⊢
    exact decodeFields_irrel reg rest.length md rest acc unk f g le_rfl hf hg
  | cons n v t =>
    rw [wfFieldsAux_cons, Bool.and_eq_true] at hwfa
    obtain ⟨hwfh, hwft⟩ := hwfa
    simp only [noUnknownF, Bool.and_eq_true] at hnof
    obtain ⟨hnuv, hnft⟩ := hnof
    simp only [fmSorted] at hsorted
    cases hfind0 : md.fields.find? (fun fd' => fd'.number == n) with
    | none =>
      exfalso
      cases v <;> simp [wfHead, hfind0] at hwfh
    | some fd =>
      have hnum : fd.number = n := find?_number_eq md n fd hfind0
      subst hnum
      have hmem := List.mem_of_find?_eq_some hfind0
      obtain ⟨hn1, hn2⟩ := wfMD_field_bounds md fd hmd hmem
      have habove : ∀ b ∈ fieldNumbers t, fd.number < b := fmSortedAbove_lt t fd.number hsorted
      have hsortt : fmSorted t = true := fmSorted_of_above t fd.number hsorted
      have haccn : ∀ a ∈ fieldNumbers acc, a < fd.number := by
        intro a ha
        exact hlt a ha fd.number (by simp [fieldNumbers])
      have hltt : ∀ a ∈ fieldNumbers acc, ∀ b ∈ fieldNumbers t, a < b := by
        intro a ha b hb
        exact hlt a ha b (by simp [fieldNumbers, hb])
      rw [msF_cons] at hN
      have hNv : msV v < N := by omega
      have hNt : msF t < N := by
        have := msV_pos v
        omega
      rw [encodeFields_cons] at hblen hf ⊢
      cases hlab : fd.label with
      | singular =>
        have hwfs : wfSingular reg fd.typ v = true := by
          rw [← wfHead_singular reg md fd.number fd v hfind0 hlab]
          exact hwfh
        rw [encHead_singular reg md fd.number fd v hfind0 hlab] at hblen hf ⊢
        rw [List.append_assoc] at hf ⊢
        rw [List.length_append] at hblen
        have hbl1 : (encodeSingular reg fd.typ fd.number v).length < 2 ^ 64 := by omega
        have hbl2 : (encodeFields reg md t).length < 2 ^ 64 := by omega
        rw [(ih (msV v) hNv).2.1 reg md fd v acc unk (encodeFields reg md t ++ rest) f
          ((encodeFields reg md t ++ rest).length + 1) le_rfl hreg hmd hfind0 hlab hwfs hnuv
          hbl1 hf (by omega)]
        rw [(ih (msF t) hNt).1 reg md t (setField acc fd.number v) unk rest
          ((encodeFields reg md t ++ rest).length + 1) g le_rfl hreg hmd hwft hnft hsortt
          (by rw [setField_above acc fd.number v haccn]
              exact extend_below acc fd.number v (fieldNumbers t) haccn habove hltt)
          hbl2 (by omega) hg]
        rw [setField_above acc fd.number v haccn, ← fmConcat_cons_right]
      | repeated =>
        cases v with
        | vList vs =>
          simp only [wfHead, hfind0, hlab, Bool.and_eq_true] at hwfh
          obtain ⟨hnn, hwfel⟩ := hwfh
          simp only [noUnknownV] at hnuv
          cases vs with
          | nil =>
            exfalso
            simp [vlIsNil] at hnn
          | cons v0 vt =>
            have hNl : msL (.cons v0 vt) < N := by
              rw [msV_vList] at hNv
              omega
            have henc1 : encHead reg md fd.number (.vList (.cons v0 vt))
                = if packable fd.typ then
                    tagBytes fd.number 2
                      ++ lenPayload (packedPayload fd.typ (.cons v0 vt))
                  else encodeUnpacked reg fd.typ fd.number (.cons v0 vt) := by
              simp only [encHead, hfind0, hlab]
            cases hpk : packable fd.typ with
            | true =>
              rw [henc1, if_pos hpk] at hblen hf ⊢
              rw [List.append_assoc] at hf ⊢
              rw [List.length_append, List.length_append, lenPayload_length] at hblen
              have hppl : (packedPayload fd.typ (.cons v0 vt)).length < 2 ^ 64 := by omega
              have hbl2 : (encodeFields reg md t).length < 2 ^ 64 := by omega
              have hwt : wireTypeOf fd.typ ≠ 2 := packable_wireTypeOf fd.typ hpk
              have hpp : ∀ h : Nat, (packedPayload fd.typ (.cons v0 vt)).length < h →
                  parsePacked fd.typ fd.number h (packedPayload fd.typ (.cons v0 vt))
                    = .ok (.cons v0 vt) := by
                intro h hh
                exact parsePacked_roundtrip reg fd.typ fd.number hwt (.cons v0 vt) h hwfel hh
              rw [decode_step_rep_packed reg md fd (.cons v0 vt) acc unk
                (encodeFields reg md t ++ rest) hfind0 hlab hpk hn1 hn2 hppl hpp f
                ((encodeFields reg md t ++ rest).length + 1) hf (by omega)]
              have hconv : appendList acc fd.number (.cons v0 vt)
                  = fmConcat acc (.cons fd.number (.vList (.cons v0 vt)) .nil) := by
                simp only [appendList, getField_above_none acc fd.number haccn]
                exact setField_above acc fd.number _ haccn
              rw [(ih (msF t) hNt).1 reg md t (appendList acc fd.number (.cons v0 vt)) unk
                rest ((encodeFields reg md t ++ rest).length + 1) g le_rfl hreg hmd hwft hnft
                hsortt
                (by rw [hconv]
                    exact extend_below acc fd.number _ (fieldNumbers t) haccn habove hltt)
                hbl2 (by omega) hg]
              rw [hconv, ← fmConcat_cons_right]
            | false =>
              rw [henc1, if_neg (by simp [hpk])] at hblen hf ⊢
              rw [List.append_assoc] at hf ⊢
              rw [List.length_append] at hblen
              have hbl1 : (encodeUnpacked reg fd.typ fd.number (.cons v0 vt)).length
                  < 2 ^ 64 := by omega
              have hbl2 : (encodeFields reg md t).length < 2 ^ 64 := by omega
              rw [(ih (msL (.cons v0 vt)) hNl).2.2.1 reg md fd (.cons v0 vt) acc unk
                (encodeFields reg md t ++ rest) f ((encodeFields reg md t ++ rest).length + 1)
                le_rfl hreg hmd hfind0 hlab hpk hwfel hnuv hbl1 hf (by omega)]
              have hconv := appendElems_fresh acc fd.number v0 vt haccn
              rw [(ih (msF t) hNt).1 reg md t (appendElems acc fd.number (.cons v0 vt)) unk
                rest ((encodeFields reg md t ++ rest).length + 1) g le_rfl hreg hmd hwft hnft
                hsortt
                (by rw [hconv]
                    exact extend_below acc fd.number _ (fieldNumbers t) haccn habove hltt)
                hbl2 (by omega) hg]
              rw [hconv, ← fmConcat_cons_right]
        | vInt i =>
          exfalso
          simp [wfHead, hfind0, hlab] at hwfh
        | vBool b =>
          exfalso
          simp [wfHead, hfind0, hlab] at hwfh
        | vBytes bs =>
          exfalso
          simp [wfHead, hfind0, hlab] at hwfh
        | vMsg fs2 unk2 =>
          exfalso
          simp [wfHead, hfind0, hlab] at hwfh
        | vMap es =>
          exfalso
          simp [wfHead, hfind0, hlab] at hwfh
      | mapKind =>
        cases v with
        | vMap es =>
          cases hty : fd.typ with
          | scalar s =>
            exfalso
            simp [wfHead, hfind0, hlab, hty] at hwfh
          | enumTy tn =>
            exfalso
            simp [wfHead, hfind0, hlab, hty] at hwfh
          | messageTy tn =>
            cases hfm : findMessage reg tn with
            | none =>
              exfalso
              simp [wfHead, hfind0, hlab, hty, hfm] at hwfh
            | some ed =>
              cases hmei : mapEntryInfo ed with
              | none =>
                exfalso
                simp [wfHead, hfind0, hlab, hty, hfm, hmei] at hwfh
              | some ktvt =>
                obtain ⟨kt, vt⟩ := ktvt
                simp only [wfHead, hfind0, hlab, hty, hfm, hmei, Bool.and_eq_true,
                  decide_eq_true_eq] at hwfh
                obtain ⟨hime, ⟨hnn, hnodup⟩, hwfes⟩ := hwfh
                simp only [noUnknownV] at hnuv
                cases es with
                | nil =>
                  exfalso
                  simp [elIsNil] at hnn
                | cons k0 v0 et =>
                  have hNe : msE (.cons k0 v0 et) < N := by
                    rw [msV_vMap] at hNv
                    omega
                  have henc1 : encHead reg md fd.number (.vMap (.cons k0 v0 et))
                      = encodeEntries reg kt vt fd.number (.cons k0 v0 et) := by
                    simp only [encHead, hfind0, hlab, hty, hfm, hmei]
                  rw [henc1] at hblen hf ⊢
                  rw [List.append_assoc] at hf ⊢
                  rw [List.length_append] at hblen
                  have hbl1 : (encodeEntries reg kt vt fd.number (.cons k0 v0 et)).length
                      < 2 ^ 64 := by omega
                  have hbl2 : (encodeFields reg md t).length < 2 ^ 64 := by omega
                  rw [(ih (msE (.cons k0 v0 et)) hNe).2.2.2 reg md fd tn ed kt vt
                    (.cons k0 v0 et) acc unk (encodeFields reg md t ++ rest) f
                    ((encodeFields reg md t ++ rest).length + 1) le_rfl hreg hmd hfind0 hlab
                    hty hfm hmei hwfes hnuv hbl1 hf (by omega)]
                  have hconv := insertEntries_fresh acc fd.number k0 v0 et haccn hnodup
                  rw [(ih (msF t) hNt).1 reg md t
                    (insertEntries acc fd.number (.cons k0 v0 et)) unk rest
                    ((encodeFields reg md t ++ rest).length + 1) g le_rfl hreg hmd hwft hnft
                    hsortt
                    (by rw [hconv]
                        exact extend_below acc fd.number _ (fieldNumbers t) haccn habove hltt)
                    hbl2 (by omega) hg]
                  rw [hconv, ← fmConcat_cons_right]
        | vInt i =>
          exfalso
          simp [wfHead, hfind0, hlab] at hwfh
        | vBool b =>
          exfalso
          simp [wfHead, hfind0, hlab] at hwfh
        | vBytes bs =>
          exfalso
          simp [wfHead, hfind0, hlab] at hwfh
        | vMsg fs2 unk2 =>
          exfalso
          simp [wfHead, hfind0, hlab] at hwfh
        | vList vs =>
          exfalso
          simp [wfHead, hfind0, hlab] at hwfh

/-- The grand round-trip induction: all four statements hold at every
measure. -/
theorem roundtripAll (N : Nat) : RTfields N ∧ RTsing N ∧ RTelems N ∧ RTentries N := by
  induction N using Nat.strong_induction_on with
  | _ N ih =>
    exact ⟨rtFieldsStep N ih, rtSingStep N ih, rtElemsStep N ih, rtEntriesStep N ih⟩

/-- Join a list of byte strings. -/
def listJoin : List (List Nat) → List Nat
  | [] => []
  | a :: t => a ++ listJoin t

/-- The per-field records of an encoding: one `(number, bytes)` pair per
stored field, in storage order. -/
def fieldRecords (reg : Registry) (md : MessageDescriptor) : FieldMap → List (Nat × List Nat)
  | .nil => []
  | .cons n v t => (n, encHead reg md n v) :: fieldRecords reg md t

theorem encodeFields_eq_records (reg : Registry) (md : MessageDescriptor) (fs : FieldMap) :
    encodeFields reg md fs = listJoin ((fieldRecords reg md fs).map Prod.snd) := by
  induction fs using fmInd with
  | hnil => rfl
  | hcons n v t ih =>
    rw [encodeFields_cons, ih]
    rfl

theorem fieldRecords_fst (reg : Registry) (md : MessageDescriptor) (fs : FieldMap) :
    (fieldRecords reg md fs).map Prod.fst = fieldNumbers fs := by
  induction fs using fmInd with
  | hnil => rfl
  | hcons n v t ih => simp [fieldRecords, fieldNumbers, ih]

theorem spansJoin_eq (unk : List UnknownSpan) :
    spansJoin unk = listJoin (unk.map UnknownSpan.raw) := by
  induction unk with
  | nil => rfl
  | cons sp t ih => simp [spansJoin, listJoin, ih]

/-- The representation invariant is genuine ascending order. -/
theorem fmSorted_sorted (fs : FieldMap) (h : fmSorted fs = true) :
    List.Sorted (· < ·) (fieldNumbers fs) := by
  induction fs using fmInd with
  | hnil => simp [fieldNumbers]
  | hcons n v t ih =>
    simp only [fmSorted] at h
    simp only [fieldNumbers, List.sorted_cons]
    exact ⟨fmSortedAbove_lt t n h, ih (fmSorted_of_above t n h)⟩

/-! ## Concrete example descriptors (the spec's Point example) -/

/-- Modelled from the spec: the `Point` message with `int32 x = 1` and
`int32 y = 2`. -/
def pointMD : MessageDescriptor :=
  { name := "Point",
    fields := [
      { number := 1, name := "x", typ := .scalar .sInt32, label := .singular },
      { number := 2, name := "y", typ := .scalar .sInt32, label := .singular }],
    oneofs := [], isMapEntry := false }

/-- A registry holding only `Point`. -/
def pointReg : Registry := { messages := [pointMD], enums := [], services := [] }

/-- The spec's example population `x := 5`, `y := -3`. -/
def ptFields : FieldMap := .cons 1 (.vInt 5) (.cons 2 (.vInt (-3)) .nil)

/-! ## Claim C1 -/

/-- C1: Modelled from the spec: for a well-formed registry and message
descriptor and a message populated only with fields known to its descriptor
(no unknown-field spans anywhere in it), decoding the bytes produced by
encoding the message yields the message back: `decode (encode m) = .ok m`. -/
theorem C1_decode_encode_roundtrip (reg : Registry) (md : MessageDescriptor)
    (fs : FieldMap)
    (hreg : wfRegistry reg = true) (hmd : wfMessageDescriptor md = true)
    (hwf : wfFields reg md fs = true) (hnof : noUnknownF fs = true)
    (hlen : (encodeFields reg md fs).length < 2 ^ 64) :
    decode reg md (encode reg md ⟨fs, []⟩) = .ok ⟨fs, []⟩ := by
  simp only [wfFields, Bool.and_eq_true] at hwf
  obtain ⟨⟨hwfa, hsort⟩, honeof⟩ := hwf
  have henc : encode reg md ⟨fs, []⟩ = encodeFields reg md fs := by
    simp [encode, spansJoin]
  have hrt := (roundtripAll (msF fs)).1 reg md fs .nil [] []
    ((encodeFields reg md fs).length + 1) 1 le_rfl hreg hmd hwfa hnof hsort
    (by intro a ha; simp [fieldNumbers] at ha) hlen
    (by simp) (by simp)
  rw [List.append_nil] at hrt
  simp only [decode, henc]
  rw [hrt]
  simp [decodeFields, fmConcat]

/-- Witness for C1 at the spec's `Point` example. -/
theorem C1_decode_encode_roundtrip_witness :
    wfRegistry pointReg = true ∧ wfMessageDescriptor pointMD = true ∧
    wfFields pointReg pointMD ptFields = true ∧ noUnknownF ptFields = true ∧
    (encodeFields pointReg pointMD ptFields).length < 2 ^ 64 ∧
    decode pointReg pointMD (encode pointReg pointMD ⟨ptFields, []⟩) = .ok ⟨ptFields, []⟩ :=
  ⟨by decide, by decide, by decide, by decide, by decide,
    C1_decode_encode_roundtrip pointReg pointMD ptFields (by decide) (by decide) (by decide)
      (by decide) (by decide)⟩

/-! ## Claim C5 -/

/-- A message with unknown spans, for the layout witness. -/
def ptMsgU : DynamicMessage := ⟨ptFields, [⟨3, [24, 7]⟩]⟩

/-- C5: Modelled from the spec: `encode` emits the known fields as one record
per stored field in ascending field-number order (the storage order under the
representation invariant), followed by the preserved unknown-field spans in
their original relative order; a resolvable repeated field is emitted packed
exactly when its element type is packable, and packable means a scalar whose
wire category is not length-delimited (never a message type). -/
theorem C5_encode_layout (reg : Registry) (md : MessageDescriptor) (m : DynamicMessage)
    (hsort : fmSorted m.fields = true) :
    encode reg md m
        = listJoin ((fieldRecords reg md m.fields).map Prod.snd)
          ++ listJoin (m.unknown.map UnknownSpan.raw)
      ∧ (fieldRecords reg md m.fields).map Prod.fst = fieldNumbers m.fields
      ∧ List.Sorted (· < ·) (fieldNumbers m.fields)
      ∧ (∀ fd vs, md.fields.find? (fun fd' => fd'.number == fd.number) = some fd →
          fd.label = .repeated →
          encHead reg md fd.number (.vList vs)
            = if packable fd.typ then
                tagBytes fd.number 2 ++ lenPayload (packedPayload fd.typ vs)
              else encodeUnpacked reg fd.typ fd.number vs)
      ∧ (∀ s : ScalarType, packable (.scalar s) = (wireTypeOfScalar s != 2))
      ∧ (∀ tn, packable (.messageTy tn) = false) := by
  refine ⟨?_, fieldRecords_fst reg md m.fields, fmSorted_sorted m.fields hsort, ?_, ?_, ?_⟩
  · simp only [encode]
    rw [encodeFields_eq_records, spansJoin_eq]
  · intro fd vs hfind hlab
    simp only [encHead, hfind, hlab]
  · intro s
    rfl
  · intro tn
    rfl

/-- Witness for C5 at the `Point` message extended with an unknown span. -/
theorem C5_encode_layout_witness :
    fmSorted ptMsgU.fields = true ∧
    (encode pointReg pointMD ptMsgU
        = listJoin ((fieldRecords pointReg pointMD ptMsgU.fields).map Prod.snd)
          ++ listJoin (ptMsgU.unknown.map UnknownSpan.raw)
      ∧ (fieldRecords pointReg pointMD ptMsgU.fields).map Prod.fst
          = fieldNumbers ptMsgU.fields
      ∧ List.Sorted (· < ·) (fieldNumbers ptMsgU.fields)
      ∧ (∀ fd vs, pointMD.fields.find? (fun fd' => fd'.number == fd.number) = some fd →
          fd.label = .repeated →
          encHead pointReg pointMD fd.number (.vList vs)
            = if packable fd.typ then
                tagBytes fd.number 2 ++ lenPayload (packedPayload fd.typ vs)
              else encodeUnpacked pointReg fd.typ fd.number vs)
      ∧ (∀ s : ScalarType, packable (.scalar s) = (wireTypeOfScalar s != 2))
      ∧ (∀ tn, packable (.messageTy tn) = false)) :=
  ⟨by decide, C5_encode_layout pointReg pointMD ptMsgU (by decide)⟩

/-! ## Claim C4 -/

/-- Modelled from the spec: every embedded-message or enum field type name of
every registered message, and every service method's request/response type
name, resolves in the registry. -/
def allRefsResolve (reg : Registry) : Bool :=
  reg.messages.all (fun md => md.fields.all (fun fd =>
    match fd.typ with
    | .scalar _ => true
    | .enumTy t => (findEnum reg t).isSome
    | .messageTy t => (findMessage reg t).isSome)) &&
  reg.services.all (fun sd => sd.methods.all (fun me =>
    (findMessage reg me.inputType).isSome && (findMessage reg me.outputType).isSome))

theorem fieldMissingRef_none_iff (reg : Registry) (fd : FieldDescriptor) :
    fieldMissingRef reg fd = none
      ↔ (match fd.typ with
         | .scalar _ => true
         | .enumTy t => (findEnum reg t).isSome
         | .messageTy t => (findMessage reg t).isSome) = true := by
  cases hty : fd.typ with
  | scalar s => simp [fieldMissingRef, hty]
  | enumTy t =>
    simp only [fieldMissingRef, hty]
    cases h : (findEnum reg t).isSome <;> simp [h]
  | messageTy t =>
    simp only [fieldMissingRef, hty]
    cases h : (findMessage reg t).isSome <;> simp [h]

theorem methodMissingRef_none_iff (reg : Registry) (me : MethodDescriptor) :
    methodMissingRef reg me = none
      ↔ ((findMessage reg me.inputType).isSome
          && (findMessage reg me.outputType).isSome) = true := by
  simp only [methodMissingRef]
  cases h1 : (findMessage reg me.inputType).isSome <;>
    cases h2 : (findMessage reg me.outputType).isSome <;> simp [h1, h2]

theorem registryMissingRef_none_iff (reg : Registry) :
    registryMissingRef reg = none ↔ allRefsResolve reg = true := by
  have hsplit : registryMissingRef reg = none
      ↔ (reg.messages.findSome? (messageMissingRef reg) = none
          ∧ reg.services.findSome? (serviceMissingRef reg) = none) := by
    simp only [registryMissingRef]
    cases hm : reg.messages.findSome? (messageMissingRef reg) <;> simp
  rw [hsplit, List.findSome?_eq_none_iff, List.findSome?_eq_none_iff]
  simp only [allRefsResolve, Bool.and_eq_true, List.all_eq_true]
  refine and_congr ?_ ?_
  · refine forall_congr' fun md => imp_congr_right fun _ => ?_
    rw [messageMissingRef, List.findSome?_eq_none_iff]
    exact forall_congr' fun fd => imp_congr_right fun _ => fieldMissingRef_none_iff reg fd
  · refine forall_congr' fun sd => imp_congr_right fun _ => ?_
    rw [serviceMissingRef, List.findSome?_eq_none_iff]
    refine forall_congr' fun me => imp_congr_right fun _ => ?_
    rw [methodMissingRef_none_iff reg me, Bool.and_eq_true]

theorem registryMissingRef_some_dangling (reg : Registry) (t : String)
    (h : registryMissingRef reg = some t) :
    (∃ md ∈ reg.messages, ∃ fd ∈ md.fields,
        (fd.typ = .enumTy t ∧ findEnum reg t = none)
        ∨ (fd.typ = .messageTy t ∧ findMessage reg t = none))
    ∨ (∃ sd ∈ reg.services, ∃ me ∈ sd.methods,
        (me.inputType = t ∨ me.outputType = t) ∧ findMessage reg t = none) := by
  simp only [registryMissingRef] at h
  cases hm : reg.messages.findSome? (messageMissingRef reg) with
  | some u =>
    simp only [hm, Option.some.injEq] at h
    rw [h] at hm
    left
    obtain ⟨md, hmd, hsome⟩ := List.exists_of_findSome?_eq_some hm
    simp only [messageMissingRef] at hsome
    obtain ⟨fd, hfd, hfsome⟩ := List.exists_of_findSome?_eq_some hsome
    refine ⟨md, hmd, fd, hfd, ?_⟩
    cases hty : fd.typ with
    | scalar s => simp [fieldMissingRef, hty] at hfsome
    | enumTy u' =>
      simp only [fieldMissingRef, hty] at hfsome
      cases hfe : (findEnum reg u').isSome with
      | true => simp [hfe] at hfsome
      | false =>
        simp only [hfe, Bool.false_eq_true, if_false, Option.some.injEq] at hfsome
        rw [hfsome] at hfe
        refine Or.inl ⟨by rw [hfsome], ?_⟩
        cases hfe2 : findEnum reg t <;> simp_all
    | messageTy u' =>
      simp only [fieldMissingRef, hty] at hfsome
      cases hfe : (findMessage reg u').isSome with
      | true => simp [hfe] at hfsome
      | false =>
        simp only [hfe, Bool.false_eq_true, if_false, Option.some.injEq] at hfsome
        rw [hfsome] at hfe
        refine Or.inr ⟨by rw [hfsome], ?_⟩
        cases hfe2 : findMessage reg t <;> simp_all
  | none =>
    simp only [hm] at h
    right
    obtain ⟨sd, hsd, hsome⟩ := List.exists_of_findSome?_eq_some h
    simp only [serviceMissingRef] at hsome
    obtain ⟨me, hme, hmsome⟩ := List.exists_of_findSome?_eq_some hsome
    simp only [methodMissingRef] at hmsome
    refine ⟨sd, hsd, me, hme, ?_⟩
    cases h1 : (findMessage reg me.inputType).isSome with
    | false =>
      simp only [h1, Bool.false_eq_true, not_false_iff, if_pos, Option.some.injEq] at hmsome
      refine ⟨Or.inl hmsome, ?_⟩
      rw [← hmsome]
      cases hfm2 : findMessage reg me.inputType <;> simp_all
    | true =>
      cases h2 : (findMessage reg me.outputType).isSome with
      | false =>
        simp only [h1, h2] at hmsome
        simp only [Bool.false_eq_true, not_false_iff, not_true, if_pos, if_neg,
          Option.some.injEq] at hmsome
        refine ⟨Or.inr hmsome, ?_⟩
        rw [← hmsome]
        cases hfm2 : findMessage reg me.outputType <;> simp_all
      | true => simp [h1, h2] at hmsome

/-- C4: Modelled from the spec: `load` succeeds (returning the registry built
from the set) exactly when every embedded-message or enum field type name and
every service request/response type name resolves; otherwise it fails with a
`SchemaError` naming a referenced type that does not resolve to any
definition in the set. -/
theorem C4_load_referential (ds : DescriptorSet) :
    (allRefsResolve (buildRegistry ds) = true → load ds = .ok (buildRegistry ds))
    ∧ (allRefsResolve (buildRegistry ds) = false →
        ∃ t, load ds = .error (.SchemaError t)
          ∧ ((∃ md ∈ (buildRegistry ds).messages, ∃ fd ∈ md.fields,
                (fd.typ = .enumTy t ∧ findEnum (buildRegistry ds) t = none)
                ∨ (fd.typ = .messageTy t ∧ findMessage (buildRegistry ds) t = none))
             ∨ (∃ sd ∈ (buildRegistry ds).services, ∃ me ∈ sd.methods,
                 (me.inputType = t ∨ me.outputType = t)
                   ∧ findMessage (buildRegistry ds) t = none))) := by
  constructor
  · intro h
    have hn : registryMissingRef (buildRegistry ds) = none :=
      (registryMissingRef_none_iff _).mpr h
    simp [load, hn]
  · intro h
    cases hm : registryMissingRef (buildRegistry ds) with
    | none =>
      rw [(registryMissingRef_none_iff _).mp hm] at h
      cases h
    | some t =>
      refine ⟨t, ?_, registryMissingRef_some_dangling _ t hm⟩
      simp [load, hm]

/-- A one-file descriptor set whose references all resolve. -/
def goodDS : DescriptorSet :=
  [{ packageName := "p", messages := [pointMD], enums := [], services := [],
     dependencies := [] }]

/-- A message referring to an absent type. -/
def nodeMD : MessageDescriptor :=
  { name := "Node",
    fields := [{ number := 1, name := "child", typ := .messageTy "Missing",
                 label := .singular }],
    oneofs := [], isMapEntry := false }

/-- A one-file descriptor set with a dangling message reference. -/
def badDS : DescriptorSet :=
  [{ packageName := "p", messages := [nodeMD], enums := [], services := [],
     dependencies := [] }]

/-- Witness for C4: a fully-linked set loads, a dangling set fails. -/
theorem C4_load_referential_witness :
    (allRefsResolve (buildRegistry goodDS) = true
      ∧ load goodDS = .ok (buildRegistry goodDS))
    ∧ (allRefsResolve (buildRegistry badDS) = false
      ∧ ∃ t, load badDS = .error (.SchemaError t)
          ∧ ((∃ md ∈ (buildRegistry badDS).messages, ∃ fd ∈ md.fields,
                (fd.typ = .enumTy t ∧ findEnum (buildRegistry badDS) t = none)
                ∨ (fd.typ = .messageTy t ∧ findMessage (buildRegistry badDS) t = none))
             ∨ (∃ sd ∈ (buildRegistry badDS).services, ∃ me ∈ sd.methods,
                 (me.inputType = t ∨ me.outputType = t)
                   ∧ findMessage (buildRegistry badDS) t = none))) :=
  ⟨⟨by decide, (C4_load_referential goodDS).1 (by decide)⟩,
   ⟨by decide, (C4_load_referential badDS).2 (by decide)⟩⟩

/-! ## Claim C7 -/

theorem readVarintAux_overlong (k : Nat) :
    ∀ rest : List Nat, readVarintAux k (List.replicate k 128 ++ rest)
      = .error .MalformedVarintError := by
  induction k with
  | zero => intro rest; rfl
  | succ j ih =>
    intro rest
    simp only [List.replicate_succ, List.cons_append, readVarintAux]
    rw [if_neg (by omega : ¬ (128 : Nat) % 256 < 128)]
    rw [List.append_eq, ih rest]

/-- A known singular string field descriptor for the error witnesses. -/
def strFD : FieldDescriptor :=
  { number := 1, name := "s", typ := .scalar .sString, label := .singular }

/-- A message holding only the string field. -/
def strMD : MessageDescriptor :=
  { name := "S", fields := [strFD], oneofs := [], isMapEntry := false }

/-- C7: Modelled from the spec: decoding fails with `TruncatedInputError`
when a length prefix exceeds the remaining input (here: any singular string
field whose announced length exceeds the bytes that follow), fails with
`MalformedVarintError` on an overlong varint (ten continuation bytes exhaust
the cap), and fails with `WireMismatchError` naming the field when a known
singular field's physical wire type differs from the declared category. -/
theorem C7_decode_errors :
    (∀ (reg : Registry) (md : MessageDescriptor) (fd : FieldDescriptor) (L : Nat)
       (body : List Nat),
       md.fields.find? (fun fd' => fd'.number == fd.number) = some fd →
       fd.label = .singular → fd.typ = .scalar .sString →
       0 < fd.number → fd.number < 2 ^ 29 → L < 2 ^ 64 → body.length < L →
       decode reg md (tagBytes fd.number 2 ++ varintEncode L ++ body)
         = .error .TruncatedInputError)
    ∧ (∀ (reg : Registry) (md : MessageDescriptor) (rest : List Nat),
       decode reg md (List.replicate 10 128 ++ rest) = .error .MalformedVarintError)
    ∧ (∀ (reg : Registry) (md : MessageDescriptor) (fd : FieldDescriptor) (w : Nat)
       (rest : List Nat),
       md.fields.find? (fun fd' => fd'.number == fd.number) = some fd →
       fd.label = .singular → w < 8 → w ≠ wireTypeOf fd.typ →
       0 < fd.number → fd.number < 2 ^ 29 →
       decode reg md (tagBytes fd.number w ++ rest)
         = .error (.WireMismatchError fd.number)) := by
  refine ⟨?_, ?_, ?_⟩
  · intro reg md fd L body hfind hlab hty hn1 hn2 hL hbody
    have hread : readVarint (varintEncode (8 * fd.number + 2) ++ (varintEncode L ++ body))
        = .ok (8 * fd.number + 2, varintEncode L ++ body) :=
      readVarint_varintEncode _ _ (by omega)
    obtain ⟨y, ys, hy⟩ := List.exists_cons_of_ne_nil (varintEncode_ne_nil (8 * fd.number + 2))
    simp only [decode]
    rw [tagBytes, List.append_assoc, hy, List.cons_append]
    simp only [decodeFields]
    have hread' : readVarint (y :: (ys ++ (varintEncode L ++ body)))
        = .ok (8 * fd.number + 2, varintEncode L ++ body) := by
      rw [← List.cons_append, ← hy]
      exact hread
    simp only [hread']
    have hdiv : (8 * fd.number + 2) / 8 = fd.number := by omega
    have hmod : (8 * fd.number + 2) % 8 = 2 := by omega
    rw [hdiv, hmod]
    rw [if_neg (by omega : ¬ fd.number = 0)]
    simp only [hfind, hlab]
    rw [hty]
    rw [if_neg (by decide : ¬ ((2 : Nat) ≠ wireTypeOf (.scalar .sString)))]
    have hreadL : readVarint (varintEncode L ++ body) = .ok (L, body) :=
      readVarint_varintEncode _ _ hL
    simp only [hreadL]
    have hrb : readBytes L body = .error .TruncatedInputError := by
      simp only [readBytes, if_neg (by omega : ¬ L ≤ body.length)]
    simp only [hrb]
  · intro reg md rest
    have hcons : List.replicate 10 128 ++ rest = 128 :: (List.replicate 9 128 ++ rest) := by
      simp [List.replicate_succ]
    have hrv : readVarint (128 :: (List.replicate 9 128 ++ rest))
        = .error .MalformedVarintError := by
      rw [← List.cons_append]
      have : (128 : Nat) :: List.replicate 9 128 = List.replicate 10 128 := by
        simp [List.replicate_succ]
      rw [this]
      exact readVarintAux_overlong 10 rest
    simp only [decode]
    rw [hcons]
    simp only [decodeFields, hrv]
  · intro reg md fd w rest hfind hlab hw8 hwne hn1 hn2
    have hread : readVarint (varintEncode (8 * fd.number + w) ++ rest)
        = .ok (8 * fd.number + w, rest) :=
      readVarint_varintEncode _ _ (by omega)
    obtain ⟨y, ys, hy⟩ := List.exists_cons_of_ne_nil (varintEncode_ne_nil (8 * fd.number + w))
    simp only [decode]
    rw [tagBytes, hy, List.cons_append]
    simp only [decodeFields]
    have hread' : readVarint (y :: (ys ++ rest)) = .ok (8 * fd.number + w, rest) := by
      rw [← List.cons_append, ← hy]
      exact hread
    simp only [hread']
    have hdiv : (8 * fd.number + w) / 8 = fd.number := by omega
    have hmod : (8 * fd.number + w) % 8 = w := by omega
    rw [hdiv, hmod]
    rw [if_neg (by omega : ¬ fd.number = 0)]
    simp only [hfind, hlab]
    rw [if_pos hwne]

/-- Witness for C7: all three failures at concrete inputs. -/
theorem C7_decode_errors_witness :
    decode pointReg strMD (tagBytes 1 2 ++ varintEncode 5 ++ [97])
        = .error .TruncatedInputError
    ∧ decode pointReg pointMD (List.replicate 10 128 ++ [])
        = .error .MalformedVarintError
    ∧ decode pointReg strMD (tagBytes 1 5 ++ [1, 2, 3, 4])
        = .error (.WireMismatchError 1) :=
  ⟨C7_decode_errors.1 pointReg strMD strFD 5 [97] (by decide) (by decide) (by decide)
      (by decide) (by decide) (by decide) (by decide),
   C7_decode_errors.2.1 pointReg pointMD [],
   C7_decode_errors.2.2 pointReg strMD strFD 5 [1, 2, 3, 4] (by decide) (by decide)
      (by decide) (by decide) (by decide) (by decide)⟩

/-! ## Claim C6 -/

/-- One decode step over a single unpacked numeric occurrence of a repeated
field: the element is appended to the field's list in encounter order. -/
theorem decode_step_rep_num (reg : Registry) (md : MessageDescriptor)
    (fd : FieldDescriptor) (v : Value) (fs : FieldMap) (unk : List UnknownSpan)
    (rest : List Nat)
    (hfind : md.fields.find? (fun fd' => fd'.number == fd.number) = some fd)
    (hlab : fd.label = .repeated)
    (hwt : wireTypeOf fd.typ ≠ 2)
    (hwf : wfSingular reg fd.typ v = true)
    (hn1 : 0 < fd.number) (hn2 : fd.number < 2 ^ 29) :
    ∀ f g : Nat,
      (tagBytes fd.number (wireTypeOf fd.typ) ++ numericPayload fd.typ v ++ rest).length < f →
      rest.length < g →
      decodeFields reg f md
          (tagBytes fd.number (wireTypeOf fd.typ) ++ numericPayload fd.typ v ++ rest) fs unk
        = decodeFields reg g md rest (appendList fs fd.number (.cons v .nil)) unk := by
  intro f g hf hg
  obtain ⟨a, rfl⟩ : ∃ a, f = a + 1 := ⟨f - 1, by omega⟩
  have hwt8 : wireTypeOf fd.typ < 8 := wireTypeOf_lt_8 fd.typ
  have h1 : 0 < (varintEncode (8 * fd.number + wireTypeOf fd.typ)).length :=
    varintEncodeAux_length_pos 9 _
  have hflen : (tagBytes fd.number (wireTypeOf fd.typ) ++ numericPayload fd.typ v ++ rest).length
      = (varintEncode (8 * fd.number + wireTypeOf fd.typ)).length
        + (numericPayload fd.typ v).length + rest.length := by
    simp [tagBytes]
    omega
  have hread : readVarint (varintEncode (8 * fd.number + wireTypeOf fd.typ)
        ++ (numericPayload fd.typ v ++ rest))
      = .ok (8 * fd.number + wireTypeOf fd.typ, numericPayload fd.typ v ++ rest) :=
    readVarint_varintEncode _ _ (by omega)
  obtain ⟨y, ys, hy⟩ :=
    List.exists_cons_of_ne_nil (varintEncode_ne_nil (8 * fd.number + wireTypeOf fd.typ))
  rw [tagBytes, List.append_assoc, hy, List.cons_append]
  simp only [decodeFields]
  have hread' : readVarint (y :: (ys ++ (numericPayload fd.typ v ++ rest)))
      = .ok (8 * fd.number + wireTypeOf fd.typ, numericPayload fd.typ v ++ rest) := by
    rw [← List.cons_append, ← hy]
    exact hread
  simp only [hread']
  have hdiv : (8 * fd.number + wireTypeOf fd.typ) / 8 = fd.number := by omega
  have hmod : (8 * fd.number + wireTypeOf fd.typ) % 8 = wireTypeOf fd.typ := by omega
  rw [hdiv, hmod]
  rw [if_neg (by omega : ¬ fd.number = 0)]
  simp only [hfind, hlab]
  rw [if_neg hwt]
  rw [if_pos (by trivial)]
  have hrn := readNumeric_roundtrip reg fd.typ fd.number v rest hwf hwt
  cases hty : fd.typ with
  | messageTy tn => rw [hty] at hwt; simp [wireTypeOf] at hwt
  | enumTy tn =>
    rw [hty] at hrn
    simp only [hrn]
    exact decodeFields_irrel reg rest.length md rest _ unk a g le_rfl (by omega) hg
  | scalar s =>
    cases s with
    | sString => rw [hty] at hwt; simp [wireTypeOf, wireTypeOfScalar] at hwt
    | sBytes => rw [hty] at hwt; simp [wireTypeOf, wireTypeOfScalar] at hwt
    | sInt32 | sInt64 | sUint32 | sUint64 | sBool | sFixed32 | sFixed64 =>
      rw [hty] at hrn
      simp only [hrn]
      exact decodeFields_irrel reg rest.length md rest _ unk a g le_rfl (by omega) hg

/-- The wire bytes of a sequence of unpacked numeric occurrences. -/
def unpackedNumJoin (ft : FieldType) (n : Nat) : ValueList → List Nat
  | .nil => []
  | .cons v t => tagBytes n (wireTypeOf ft) ++ numericPayload ft v ++ unpackedNumJoin ft n t

/-- Decoding a run of unpacked numeric occurrences appends the elements one at
a time, in encounter order. -/
theorem decode_unpacked_seq (reg : Registry) (md : MessageDescriptor)
    (fd : FieldDescriptor)
    (hfind : md.fields.find? (fun fd' => fd'.number == fd.number) = some fd)
    (hlab : fd.label = .repeated)
    (hwt : wireTypeOf fd.typ ≠ 2)
    (hn1 : 0 < fd.number) (hn2 : fd.number < 2 ^ 29) :
    ∀ (vs : ValueList) (fs : FieldMap) (unk : List UnknownSpan) (rest : List Nat) (f g : Nat),
      wfElems reg fd.typ vs = true →
      (unpackedNumJoin fd.typ fd.number vs ++ rest).length < f → rest.length < g →
      decodeFields reg f md (unpackedNumJoin fd.typ fd.number vs ++ rest) fs unk
        = decodeFields reg g md rest (appendElems fs fd.number vs) unk := by
  intro vs
  induction vs using vlInd with
  | hnil =>
    intro fs unk rest f g _ hf hg
    simp only [unpackedNumJoin, List.nil_append] at hf ⊢
    simp only [appendElems]
    exact decodeFields_irrel reg rest.length md rest fs unk f g le_rfl hf hg
  | hcons v t ih =>
    intro fs unk rest f g hwfe hf hg
    simp only [wfElems, Bool.and_eq_true] at hwfe
    obtain ⟨hwfv, hwft⟩ := hwfe
    simp only [unpackedNumJoin] at hf ⊢
    rw [List.append_assoc, List.append_assoc] at hf ⊢
    rw [← List.append_assoc (tagBytes fd.number (wireTypeOf fd.typ))] at hf ⊢
    rw [decode_step_rep_num reg md fd v fs unk
      (unpackedNumJoin fd.typ fd.number t ++ rest) hfind hlab hwt hwfv hn1 hn2 f
      ((unpackedNumJoin fd.typ fd.number t ++ rest).length + 1) hf (by omega)]
    rw [ih (appendList fs fd.number (.cons v .nil)) unk rest
      ((unpackedNumJoin fd.typ fd.number t ++ rest).length + 1) g hwft (by omega) hg]
    rfl

/-- C6: Modelled from the spec: a repeated packable scalar field accepts a
packed span followed by unpacked occurrences, merging all elements into one
ordered list in the order encountered (packed first, then unpacked); and a
map field whose wire stream carries the same key twice resolves to the last
occurrence's value. -/
theorem C6_mixed_and_lastwins :
    (∀ (reg : Registry) (md : MessageDescriptor) (fd : FieldDescriptor)
       (vs1 vs2 : ValueList),
       md.fields.find? (fun fd' => fd'.number == fd.number) = some fd →
       fd.label = .repeated → packable fd.typ = true →
       wfElems reg fd.typ vs1 = true → wfElems reg fd.typ vs2 = true →
       0 < fd.number → fd.number < 2 ^ 29 →
       (packedPayload fd.typ vs1).length < 2 ^ 64 →
       decode reg md (tagBytes fd.number 2 ++ lenPayload (packedPayload fd.typ vs1)
           ++ unpackedNumJoin fd.typ fd.number vs2)
         = .ok ⟨.cons fd.number (.vList (vlAppend vs1 vs2)) .nil, []⟩)
    ∧ (∀ (reg : Registry) (md : MessageDescriptor) (fd : FieldDescriptor) (tn : String)
       (ed : MessageDescriptor) (kt : ScalarType) (vt : FieldType) (k v1 v2 : Value),
       wfRegistry reg = true →
       md.fields.find? (fun fd' => fd'.number == fd.number) = some fd →
       fd.label = .mapKind → fd.typ = .messageTy tn →
       findMessage reg tn = some ed → mapEntryInfo ed = some (kt, vt) →
       wfSingular reg (.scalar kt) k = true →
       wfSingular reg vt v1 = true → wfSingular reg vt v2 = true →
       noUnknownV k = true → noUnknownV v1 = true → noUnknownV v2 = true →
       0 < fd.number → fd.number < 2 ^ 29 →
       (encodeSingular reg (.scalar kt) 1 k ++ encodeSingular reg vt 2 v1).length < 2 ^ 64 →
       (encodeSingular reg (.scalar kt) 1 k ++ encodeSingular reg vt 2 v2).length < 2 ^ 64 →
       decode reg md
           (tagBytes fd.number 2
             ++ lenPayload (encodeSingular reg (.scalar kt) 1 k
                  ++ encodeSingular reg vt 2 v1)
             ++ (tagBytes fd.number 2
                  ++ lenPayload (encodeSingular reg (.scalar kt) 1 k
                       ++ encodeSingular reg vt 2 v2)))
         = .ok ⟨.cons fd.number (.vMap (.cons k v2 .nil)) .nil, []⟩) := by
  constructor
  · intro reg md fd vs1 vs2 hfind hlab hpk hwf1 hwf2 hn1 hn2 hpl
    have hwt : wireTypeOf fd.typ ≠ 2 := packable_wireTypeOf fd.typ hpk
    have hpp : ∀ h : Nat, (packedPayload fd.typ vs1).length < h →
        parsePacked fd.typ fd.number h (packedPayload fd.typ vs1) = .ok vs1 := by
      intro h hh
      exact parsePacked_roundtrip reg fd.typ fd.number hwt vs1 h hwf1 hh
    simp only [decode]
    rw [show tagBytes fd.number 2 ++ lenPayload (packedPayload fd.typ vs1)
          ++ unpackedNumJoin fd.typ fd.number vs2
        = tagBytes fd.number 2 ++ lenPayload (packedPayload fd.typ vs1)
          ++ (unpackedNumJoin fd.typ fd.number vs2 ++ []) by simp]
    rw [decode_step_rep_packed reg md fd vs1 .nil []
      (unpackedNumJoin fd.typ fd.number vs2 ++ []) hfind hlab hpk hn1 hn2 hpl hpp _
      ((unpackedNumJoin fd.typ fd.number vs2 ++ []).length + 1) (by omega) (by omega)]
    have hseq := decode_unpacked_seq reg md fd hfind hlab hwt hn1 hn2 vs2
      (appendList .nil fd.number vs1) [] []
      ((unpackedNumJoin fd.typ fd.number vs2 ++ []).length + 1) 1 hwf2
      (by simp) (by simp)
    rw [hseq]
    have hconv : appendElems (appendList FieldMap.nil fd.number vs1) fd.number vs2
        = FieldMap.cons fd.number (.vList (vlAppend vs1 vs2)) .nil := by
      have h0 : appendList FieldMap.nil fd.number vs1
          = fmConcat .nil (.cons fd.number (.vList vs1) .nil) := rfl
      rw [h0, appendElems_acc .nil fd.number vs1 vs2
        (by intro a ha; simp [fieldNumbers] at ha)]
      rfl
    rw [hconv]
    simp [decodeFields]
  · intro reg md fd tn ed kt vt k v1 v2 hreg hfind hlab hty hfm hmei hwfk hwfv1 hwfv2
      hnuk hnuv1 hnuv2 hn1 hn2 hpl1 hpl2
    obtain ⟨kf, vf, hedf, hkn, hvn, hkl, hvl, hktyp, hvtyp⟩ := mapEntryInfo_spec ed kt vt hmei
    have hfk : ed.fields.find? (fun fd' => fd'.number == (1 : Nat)) = some kf := by
      rw [hedf]
      simp [List.find?_cons, hkn]
    have hfv : ed.fields.find? (fun fd' => fd'.number == (2 : Nat)) = some vf := by
      rw [hedf]
      simp [List.find?_cons, hkn, hvn]
    have hsub : ∀ (v : Value), wfSingular reg vt v = true → noUnknownV v = true →
        (encodeSingular reg (.scalar kt) 1 k ++ encodeSingular reg vt 2 v).length < 2 ^ 64 →
        ∀ h : Nat,
        (encodeSingular reg (.scalar kt) 1 k ++ encodeSingular reg vt 2 v).length < h →
        decodeFields reg h ed
            (encodeSingular reg (.scalar kt) 1 k ++ encodeSingular reg vt 2 v) .nil []
          = .ok (.cons 1 k (.cons 2 v .nil), []) := by
      intro v hwfv hnuv hpl h hh
      have hpayload : encodeFields reg ed (.cons 1 k (.cons 2 v .nil))
          = encodeSingular reg (.scalar kt) 1 k ++ encodeSingular reg vt 2 v := by
        rw [encodeFields_cons, encodeFields_cons, encodeFields_nil,
          encHead_singular reg ed 1 kf k hfk hkl, encHead_singular reg ed 2 vf v hfv hvl,
          hktyp, hvtyp, List.append_nil]
      have hwfe' : wfFieldsAux reg ed (.cons 1 k (.cons 2 v .nil)) = true := by
        rw [wfFieldsAux_cons, wfFieldsAux_cons, wfFieldsAux_nil,
          wfHead_singular reg ed 1 kf k hfk hkl, wfHead_singular reg ed 2 vf v hfv hvl,
          hktyp, hvtyp, hwfk, hwfv]
        rfl
      rw [← hpayload] at hh ⊢
      have hrt := (roundtripAll (msF (.cons 1 k (.cons 2 v .nil)))).1 reg ed
        (.cons 1 k (.cons 2 v .nil)) .nil [] [] h 1 le_rfl hreg
        (findMessage_wf reg tn ed hreg hfm) hwfe'
        (by simp [noUnknownF, hnuk, hnuv])
        (by simp [fmSorted, fmSortedAbove])
        (by intro a ha; simp [fieldNumbers] at ha) (by rw [hpayload]; exact hpl)
        (by simpa using hh) (by simp)
      rw [List.append_nil] at hrt
      rw [hrt]
      simp [decodeFields, fmConcat]
    simp only [decode]
    rw [show tagBytes fd.number 2
          ++ lenPayload (encodeSingular reg (.scalar kt) 1 k ++ encodeSingular reg vt 2 v1)
          ++ (tagBytes fd.number 2
              ++ lenPayload (encodeSingular reg (.scalar kt) 1 k
                   ++ encodeSingular reg vt 2 v2))
        = tagBytes fd.number 2
          ++ lenPayload (encodeSingular reg (.scalar kt) 1 k ++ encodeSingular reg vt 2 v1)
          ++ (tagBytes fd.number 2
              ++ lenPayload (encodeSingular reg (.scalar kt) 1 k
                   ++ encodeSingular reg vt 2 v2) ++ []) by simp]
    have hstep1 := decode_step_map_entry reg md fd tn ed kt vt
      (encodeSingular reg (.scalar kt) 1 k ++ encodeSingular reg vt 2 v1)
      (.cons 1 k (.cons 2 v1 .nil)) [] .nil []
      (tagBytes fd.number 2
        ++ lenPayload (encodeSingular reg (.scalar kt) 1 k ++ encodeSingular reg vt 2 v2)
        ++ []) hfind hlab hty hfm hmei hn1 hn2 hpl1 (hsub v1 hwfv1 hnuv1 hpl1)
      ((tagBytes fd.number 2
        ++ lenPayload (encodeSingular reg (.scalar kt) 1 k ++ encodeSingular reg vt 2 v1)
        ++ (tagBytes fd.number 2
             ++ lenPayload (encodeSingular reg (.scalar kt) 1 k
                  ++ encodeSingular reg vt 2 v2)
             ++ [])).length + 1)
      ((tagBytes fd.number 2
        ++ lenPayload (encodeSingular reg (.scalar kt) 1 k ++ encodeSingular reg vt 2 v2)
        ++ []).length + 1) (by omega) (by omega)
    rw [hstep1]
    have hstep2 := decode_step_map_entry reg md fd tn ed kt vt
      (encodeSingular reg (.scalar kt) 1 k ++ encodeSingular reg vt 2 v2)
      (.cons 1 k (.cons 2 v2 .nil)) []
      (mapInsert .nil fd.number
        ((getField (.cons 1 k (.cons 2 v1 .nil)) 1).getD (defaultValue (.scalar kt)))
        ((getField (.cons 1 k (.cons 2 v1 .nil)) 2).getD (defaultValue vt)))
      [] [] hfind hlab hty hfm hmei hn1 hn2 hpl2 (hsub v2 hwfv2 hnuv2 hpl2)
      ((tagBytes fd.number 2
        ++ lenPayload (encodeSingular reg (.scalar kt) 1 k ++ encodeSingular reg vt 2 v2)
        ++ []).length + 1) 1 (by omega) (by simp)
    rw [hstep2]
    have hg1 : getField (FieldMap.cons 1 k (.cons 2 v1 .nil)) 1 = some k := by
      simp [getField]
    have hg2 : getField (FieldMap.cons 1 k (.cons 2 v1 .nil)) 2 = some v1 := by
      simp [getField]
    have hg1' : getField (FieldMap.cons 1 k (.cons 2 v2 .nil)) 1 = some k := by
      simp [getField]
    have hg2' : getField (FieldMap.cons 1 k (.cons 2 v2 .nil)) 2 = some v2 := by
      simp [getField]
    rw [hg1, hg2, hg1', hg2']
    simp only [Option.getD_some]
    have hmi : mapInsert (mapInsert FieldMap.nil fd.number k v1) fd.number k v2
        = FieldMap.cons fd.number (.vMap (.cons k v2 .nil)) .nil := by
      have h1 : mapInsert FieldMap.nil fd.number k v1
          = FieldMap.cons fd.number (.vMap (.cons k v1 .nil)) .nil := rfl
      rw [h1]
      simp [mapInsert, getField, entryInsert, entryRemove, entryAppend, setField]
    rw [hmi]
    simp [decodeFields]

/-- A repeated int32 field for the mixture witness. -/
def repFD : FieldDescriptor :=
  { number := 1, name := "xs", typ := .scalar .sInt32, label := .repeated }

/-- A message holding only the repeated field. -/
def repMD : MessageDescriptor :=
  { name := "R", fields := [repFD], oneofs := [], isMapEntry := false }

/-- A registry holding only `R`. -/
def repReg : Registry := { messages := [repMD], enums := [], services := [] }

/-- The synthetic map-entry message `E` with int32 key and value. -/
def mapEntryMD : MessageDescriptor :=
  { name := "E",
    fields := [
      { number := 1, name := "key", typ := .scalar .sInt32, label := .singular },
      { number := 2, name := "value", typ := .scalar .sInt32, label := .singular }],
    oneofs := [], isMapEntry := true }

/-- A map field over `E`. -/
def mapFD : FieldDescriptor :=
  { number := 1, name := "m", typ := .messageTy "E", label := .mapKind }

/-- A message holding only the map field. -/
def mapMD : MessageDescriptor :=
  { name := "M", fields := [mapFD], oneofs := [], isMapEntry := false }

/-- A registry holding `M` and its entry message. -/
def mapReg : Registry := { messages := [mapMD, mapEntryMD], enums := [], services := [] }

/-- Witness for C6: `[1,2]` packed followed by `3` unpacked merges to
`[1,2,3]`, and a duplicated map key resolves to the last value. -/
theorem C6_mixed_and_lastwins_witness :
    decode repReg repMD
        (tagBytes 1 2
          ++ lenPayload (packedPayload (.scalar .sInt32)
               (.cons (.vInt 1) (.cons (.vInt 2) .nil)))
          ++ unpackedNumJoin (.scalar .sInt32) 1 (.cons (.vInt 3) .nil))
      = .ok ⟨.cons 1 (.vList (vlAppend (.cons (.vInt 1) (.cons (.vInt 2) .nil))
          (.cons (.vInt 3) .nil))) .nil, []⟩
    ∧ decode mapReg mapMD
        (tagBytes 1 2
          ++ lenPayload (encodeSingular mapReg (.scalar .sInt32) 1 (.vInt 7)
               ++ encodeSingular mapReg (.scalar .sInt32) 2 (.vInt 5))
          ++ (tagBytes 1 2
               ++ lenPayload (encodeSingular mapReg (.scalar .sInt32) 1 (.vInt 7)
                    ++ encodeSingular mapReg (.scalar .sInt32) 2 (.vInt 9))))
      = .ok ⟨.cons 1 (.vMap (.cons (.vInt 7) (.vInt 9) .nil)) .nil, []⟩ :=
  ⟨C6_mixed_and_lastwins.1 repReg repMD repFD
      (.cons (.vInt 1) (.cons (.vInt 2) .nil)) (.cons (.vInt 3) .nil)
      (by decide) (by decide) (by decide) (by decide) (by decide) (by decide) (by decide)
      (by decide),
   C6_mixed_and_lastwins.2 mapReg mapMD mapFD "E" mapEntryMD .sInt32 (.scalar .sInt32)
      (.vInt 7) (.vInt 5) (.vInt 9)
      (by decide) (by decide) (by decide) (by decide) (by decide) (by decide) (by decide)
      (by decide) (by decide) (by decide) (by decide) (by decide) (by decide) (by decide)
      (by decide) (by decide)⟩

/-! ## Claim C2 -/

theorem readVarintAux_extend (k : Nat) :
    ∀ (bs t : List Nat) (v : Nat) (r : List Nat),
      readVarintAux k bs = .ok (v, r) → readVarintAux k (bs ++ t) = .ok (v, r ++ t) := by
  induction k with
  | zero =>
    intro bs t v r h
    simp [readVarintAux] at h
  | succ j ih =>
    intro bs t v r h
    cases bs with
    | nil => simp [readVarintAux] at h
    | cons b rb =>
      rw [List.cons_append]
      simp only [readVarintAux] at h ⊢
      by_cases hb : b % 256 < 128
      · rw [if_pos hb] at h ⊢
        simp only [Except.ok.injEq, Prod.mk.injEq] at h
        obtain ⟨rfl, rfl⟩ := h
        rfl
      · rw [if_neg hb] at h ⊢
        cases hr : readVarintAux j rb with
        | error e => simp [hr] at h
        | ok p =>
          obtain ⟨u, r2⟩ := p
          simp only [hr] at h
          simp only [Except.ok.injEq, Prod.mk.injEq] at h
          obtain ⟨rfl, rfl⟩ := h
          simp only [ih rb t u r2 hr]

theorem readVarint_extend (bs t : List Nat) (v : Nat) (r : List Nat)
    (h : readVarint bs = .ok (v, r)) : readVarint (bs ++ t) = .ok (v, r ++ t) :=
  readVarintAux_extend 10 bs t v r h

theorem consumed_of_eq_append (p r bs : List Nat) (h : p ++ r = bs) : consumed bs r = p := by
  subst h
  simp only [consumed, List.length_append]
  rw [show p.length + r.length - r.length = p.length by omega]
  exact List.take_left p r

theorem readVarintAux_split (k : Nat) :
    ∀ (bs : List Nat) (v : Nat) (r : List Nat),
      readVarintAux k bs = .ok (v, r) → consumed bs r ++ r = bs := by
  induction k with
  | zero =>
    intro bs v r h
    simp [readVarintAux] at h
  | succ j ih =>
    intro bs v r h
    cases bs with
    | nil => simp [readVarintAux] at h
    | cons b rb =>
      simp only [readVarintAux] at h
      by_cases hb : b % 256 < 128
      · rw [if_pos hb] at h
        simp only [Except.ok.injEq, Prod.mk.injEq] at h
        obtain ⟨rfl, rfl⟩ := h
        simp only [consumed, List.length_cons]
        rw [show rb.length + 1 - rb.length = 1 by omega]
        rfl
      · rw [if_neg hb] at h
        cases hr : readVarintAux j rb with
        | error e => simp [hr] at h
        | ok p =>
          obtain ⟨u, r2⟩ := p
          simp only [hr] at h
          simp only [Except.ok.injEq, Prod.mk.injEq] at h
          obtain ⟨rfl, rfl⟩ := h
          have hsp := ih rb u r2 hr
          have hle : r2.length ≤ rb.length := by
            have := congrArg List.length hsp
            simp only [List.length_append] at this
            omega
          simp only [consumed, List.length_cons] at hsp ⊢
          rw [show rb.length + 1 - r2.length = (rb.length - r2.length) + 1 by omega]
          rw [List.take_succ_cons, List.cons_append, hsp]

theorem readVarint_split (bs : List Nat) (v : Nat) (r : List Nat)
    (h : readVarint bs = .ok (v, r)) : consumed bs r ++ r = bs :=
  readVarintAux_split 10 bs v r h

theorem consumed_append (bs r t : List Nat) (hsplit : consumed bs r ++ r = bs) :
    consumed (bs ++ t) (r ++ t) = consumed bs r := by
  have hle : r.length ≤ bs.length := by
    have := congrArg List.length hsplit
    simp only [List.length_append] at this
    omega
  simp only [consumed, List.length_append]
  rw [show bs.length + t.length - (r.length + t.length) = bs.length - r.length by omega]
  rw [List.take_append_of_le_length (by omega)]

theorem readBytes_extend (k : Nat) (bs t tk dr : List Nat)
    (h : readBytes k bs = .ok (tk, dr)) : readBytes k (bs ++ t) = .ok (tk, dr ++ t) := by
  simp only [readBytes] at h ⊢
  by_cases hk : k ≤ bs.length
  · rw [if_pos hk] at h
    simp only [Except.ok.injEq, Prod.mk.injEq] at h
    obtain ⟨rfl, rfl⟩ := h
    rw [if_pos (by simp; omega)]
    rw [List.take_append_of_le_length hk, List.drop_append_of_le_length hk]
  · rw [if_neg hk] at h
    simp at h

theorem skipPayload_extend (n wt : Nat) (bs t raw r : List Nat)
    (h : skipPayload n wt bs = .ok (raw, r)) :
    skipPayload n wt (bs ++ t) = .ok (raw, r ++ t) := by
  match wt with
  | 0 =>
    simp only [skipPayload] at h ⊢
    cases hrv : readVarint bs with
    | error e => simp [hrv] at h
    | ok p =>
      obtain ⟨u, r1⟩ := p
      simp only [hrv] at h
      simp only [Except.ok.injEq, Prod.mk.injEq] at h
      obtain ⟨rfl, rfl⟩ := h
      simp only [readVarint_extend bs t u r1 hrv]
      rw [consumed_append bs r1 t (readVarint_split bs u r1 hrv)]
  | 1 => exact readBytes_extend 8 bs t raw r h
  | 5 => exact readBytes_extend 4 bs t raw r h
  | 2 =>
    simp only [skipPayload] at h ⊢
    cases hrv : readVarint bs with
    | error e => simp [hrv] at h
    | ok p =>
      obtain ⟨len, r1⟩ := p
      simp only [hrv] at h
      cases hrb : readBytes len r1 with
      | error e => simp [hrb] at h
      | ok q =>
        obtain ⟨tk, r2⟩ := q
        simp only [hrb] at h
        simp only [Except.ok.injEq, Prod.mk.injEq] at h
        obtain ⟨rfl, rfl⟩ := h
        simp only [readVarint_extend bs t len r1 hrv]
        simp only [readBytes_extend len r1 t tk r2 hrb]
        have h1 := readVarint_split bs len r1 hrv
        obtain ⟨hlen2, hsp2, _⟩ := readBytes_ok len r1 tk r2 hrb
        have hp : (consumed bs r1 ++ tk) ++ r2 = bs := by
          rw [List.append_assoc, ← hsp2]
          exact h1
        have hsplit : consumed bs r2 ++ r2 = bs := by
          rw [consumed_of_eq_append _ r2 bs hp]
          exact hp
        rw [consumed_append bs r2 t hsplit]
  | (w + 6) =>
    simp only [skipPayload] at h
    exact absurd h (by simp)

theorem skipPayload_split (n wt : Nat) (bs raw r : List Nat)
    (h : skipPayload n wt bs = .ok (raw, r)) : raw ++ r = bs := by
  match wt with
  | 0 =>
    simp only [skipPayload] at h
    cases hrv : readVarint bs with
    | error e => simp [hrv] at h
    | ok p =>
      obtain ⟨u, r1⟩ := p
      simp only [hrv] at h
      simp only [Except.ok.injEq, Prod.mk.injEq] at h
      obtain ⟨rfl, rfl⟩ := h
      exact readVarint_split bs u r1 hrv
  | 1 =>
    obtain ⟨_, hsp, _⟩ := readBytes_ok 8 bs raw r h
    exact hsp.symm
  | 5 =>
    obtain ⟨_, hsp, _⟩ := readBytes_ok 4 bs raw r h
    exact hsp.symm
  | 2 =>
    simp only [skipPayload] at h
    cases hrv : readVarint bs with
    | error e => simp [hrv] at h
    | ok p =>
      obtain ⟨len, r1⟩ := p
      simp only [hrv] at h
      cases hrb : readBytes len r1 with
      | error e => simp [hrb] at h
      | ok q =>
        obtain ⟨tk, r2⟩ := q
        simp only [hrb] at h
        simp only [Except.ok.injEq, Prod.mk.injEq] at h
        obtain ⟨rfl, rfl⟩ := h
        have h1 := readVarint_split bs len r1 hrv
        obtain ⟨_, hsp2, _⟩ := readBytes_ok len r1 tk r2 hrb
        have hbs : (consumed bs r1 ++ tk) ++ r2 = bs := by
          rw [List.append_assoc, ← hsp2]
          exact h1
        rw [consumed_of_eq_append _ r2 bs hbs]
        exact hbs
  | (w + 6) =>
    simp only [skipPayload] at h
    exact absurd h (by simp)

/-- Modelled from the spec: an unknown-field span as decode preserves it —
a positive field number absent from the descriptor whose raw bytes are one
complete tagged record. -/
def wfSpanB (md : MessageDescriptor) (sp : UnknownSpan) : Bool :=
  decide (0 < sp.fieldNumber) && decide (sp.fieldNumber < 2 ^ 29) &&
  (md.fields.find? (fun fd => fd.number == sp.fieldNumber)).isNone &&
  (match readVarint sp.raw with
   | .ok (tag, rtail) =>
       (tag / 8 == sp.fieldNumber) &&
       (match skipPayload (tag / 8) (tag % 8) rtail with
        | .ok (_, rest') => rest'.isEmpty
        | .error _ => false)
   | .error _ => false)

/-- One decode step over a preserved unknown-field span: the span is appended
verbatim to the unknown list. -/
theorem decode_step_unknown (reg : Registry) (md : MessageDescriptor) (sp : UnknownSpan)
    (fs : FieldMap) (unk : List UnknownSpan) (rest : List Nat)
    (hwf : wfSpanB md sp = true) :
    ∀ f g : Nat, (sp.raw ++ rest).length < f → rest.length < g →
      decodeFields reg f md (sp.raw ++ rest) fs unk
        = decodeFields reg g md rest fs (unk ++ [sp]) := by
  intro f g hf hg
  simp only [wfSpanB, Bool.and_eq_true, decide_eq_true_eq] at hwf
  obtain ⟨⟨⟨hn1, hn2⟩, hnone⟩, hrest⟩ := hwf
  cases hrv : readVarint sp.raw with
  | error e => simp [hrv] at hrest
  | ok p =>
    obtain ⟨tag, rtail⟩ := p
    simp only [hrv, Bool.and_eq_true, beq_iff_eq] at hrest
    obtain ⟨hdiv8, hskipb⟩ := hrest
    cases hsp : skipPayload (tag / 8) (tag % 8) rtail with
    | error e => simp [hsp] at hskipb
    | ok q =>
      obtain ⟨raw2, r2⟩ := q
      simp only [hsp] at hskipb
      have hr2 : r2 = [] := by
        cases r2 with
        | nil => rfl
        | cons x xs => simp [List.isEmpty] at hskipb
      subst hr2
      have hsplit1 := readVarint_split sp.raw tag rtail hrv
      have hsplit2 := skipPayload_split (tag / 8) (tag % 8) rtail raw2 [] hsp
      rw [List.append_nil] at hsplit2
      obtain ⟨b, rb, hb⟩ : ∃ b rb, sp.raw = b :: rb := by
        cases hsr : sp.raw with
        | nil => rw [hsr] at hrv; simp [readVarint, readVarintAux] at hrv
        | cons b rb => exact ⟨b, rb, rfl⟩
      obtain ⟨a, rfl⟩ : ∃ a, f = a + 1 := ⟨f - 1, by omega⟩
      rw [hb] at hf
      simp only [List.cons_append, List.length_cons, List.length_append] at hf
      rw [hb, List.cons_append]
      simp only [decodeFields]
      have hrv' : readVarint (b :: (rb ++ rest)) = .ok (tag, rtail ++ rest) := by
        rw [← List.cons_append, ← hb]
        exact readVarint_extend sp.raw rest tag rtail hrv
      simp only [hrv']
      rw [hdiv8]
      rw [if_neg (by omega : ¬ sp.fieldNumber = 0)]
      have hnone' : md.fields.find? (fun fd => fd.number == sp.fieldNumber) = none := by
        cases hre : md.fields.find? (fun fd => fd.number == sp.fieldNumber) <;> simp_all
      simp only [hnone']
      rw [hdiv8] at hsp
      have hsp' : skipPayload sp.fieldNumber (tag % 8) (rtail ++ rest)
          = .ok (raw2, [] ++ rest) :=
        skipPayload_extend sp.fieldNumber (tag % 8) rtail rest raw2 [] hsp
      simp only [List.nil_append] at hsp'
      simp only [hsp']
      have hcons : consumed (b :: (rb ++ rest)) (rtail ++ rest) = consumed sp.raw rtail := by
        rw [← List.cons_append, ← hb]
        exact consumed_append sp.raw rtail rest hsplit1
      rw [hcons]
      have hraw : consumed sp.raw rtail ++ raw2 = sp.raw := by
        rw [hsplit2]
        exact hsplit1
      rw [hraw]
      exact decodeFields_irrel reg rest.length md rest fs (unk ++ [sp]) a g le_rfl
        (by omega) hg

/-- Decoding a run of preserved unknown spans appends them in order. -/
theorem decode_spans (reg : Registry) (md : MessageDescriptor) :
    ∀ (spans : List UnknownSpan) (fs : FieldMap) (unk : List UnknownSpan)
      (rest : List Nat) (f g : Nat),
      (∀ sp ∈ spans, wfSpanB md sp = true) →
      (spansJoin spans ++ rest).length < f → rest.length < g →
      decodeFields reg f md (spansJoin spans ++ rest) fs unk
        = decodeFields reg g md rest fs (unk ++ spans) := by
  intro spans
  induction spans with
  | nil =>
    intro fs unk rest f g _ hf hg
    simp only [spansJoin, List.nil_append] at hf ⊢
    rw [List.append_nil]
    exact decodeFields_irrel reg rest.length md rest fs unk f g le_rfl hf hg
  | cons sp t ih =>
    intro fs unk rest f g hws hf hg
    simp only [spansJoin] at hf ⊢
    rw [List.append_assoc] at hf ⊢
    rw [decode_step_unknown reg md sp fs unk (spansJoin t ++ rest) (hws sp (by simp)) f
      ((spansJoin t ++ rest).length + 1) hf (by omega)]
    rw [ih fs (unk ++ [sp]) rest ((spansJoin t ++ rest).length + 1) g
      (fun s hs => hws s (by simp [hs])) (by omega) hg]
    simp

/-- The record spans of a wire stream: one `(fieldNumber, raw bytes)` pair per
tagged record, as the spec's reordering property speaks of them. -/
def wireRecords : Nat → List Nat → Option (List (Nat × List Nat))
  | _, [] => some []
  | 0, _ => none
  | fuel + 1, bs =>
      match readVarint bs with
      | .error _ => none
      | .ok (tag, rest) =>
          match skipPayload (tag / 8) (tag % 8) rest with
          | .error _ => none
          | .ok (raw, rest') =>
              match wireRecords fuel rest' with
              | some rs => some ((tag / 8, consumed bs rest ++ raw) :: rs)
              | none => none

/-! ## JSON codec (spec:\ §4.3): textual building blocks -/

set_option maxRecDepth 2048

theorem char_toNat_ofNat : ∀ m, m < 256 → (Char.ofNat m).toNat = m := by decide

/-- Bytes of a string field rendered as text, one character per byte. -/
def bytesToStr (bs : List Nat) : String := String.mk (bs.map (fun b => Char.ofNat (b % 256)))

/-- Characters of a JSON string read back as bytes. -/
def strToBytes (s : String) : List Nat := s.data.map Char.toNat

theorem strToBytes_bytesToStr (bs : List Nat) (h : ∀ b ∈ bs, b < 256) :
    strToBytes (bytesToStr bs) = bs := by
  show List.map Char.toNat (List.map (fun b => Char.ofNat (b % 256)) bs) = bs
  induction bs with
  | nil => rfl
  | cons b t ih =>
    have hb : b < 256 := h b (by simp)
    simp only [List.map_cons]
    rw [show b % 256 = b by omega, char_toNat_ofNat b hb]
    rw [ih (fun x hx => h x (by simp [hx]))]

/-- Decimal digit character. -/
def digitChar (d : Nat) : Char := Char.ofNat (48 + d)

/-- Decimal digit value of a character, if it is a digit. -/
def digitVal (c : Char) : Option Nat :=
  if 48 ≤ c.toNat ∧ c.toNat ≤ 57 then some (c.toNat - 48) else none

theorem digitVal_digitChar : ∀ d, d < 10 → digitVal (digitChar d) = some d := by decide

theorem digitChar_ne_minus : ∀ d, d < 10 → digitChar d ≠ '-' := by decide

/-- Decimal rendering of a natural number, most significant digit first. -/
def natDecAux : Nat → Nat → List Char
  | 0, _ => []
  | fuel + 1, n =>
      if n < 10 then [digitChar n] else natDecAux fuel (n / 10) ++ [digitChar (n % 10)]

/-- Decimal rendering of a natural number. -/
def natDec (n : Nat) : List Char := natDecAux (n + 1) n

/-- Left-fold decimal parser. -/
def parseNatAux : Nat → List Char → Option Nat
  | acc, [] => some acc
  | acc, c :: t =>
      match digitVal c with
      | some d => parseNatAux (10 * acc + d) t
      | none => none

theorem parseNatAux_append (xs : List Char) :
    ∀ (ys : List Char) (acc : Nat),
      parseNatAux acc (xs ++ ys)
        = match parseNatAux acc xs with
          | some a => parseNatAux a ys
          | none => none := by
  induction xs with
  | nil => intro ys acc; rfl
  | cons c t ih =>
    intro ys acc
    simp only [List.cons_append, parseNatAux]
    cases hd : digitVal c with
    | some d =>
      simp only [hd]
      exact ih ys (10 * acc + d)
    | none => simp only [hd]

theorem natDecAux_ne_nil (fuel n : Nat) (h : n < fuel) : natDecAux fuel n ≠ [] := by
  cases fuel with
  | zero => omega
  | succ j =>
    simp only [natDecAux]
    by_cases hn : n < 10
    · rw [if_pos hn]
      simp
    · rw [if_neg hn]
      simp

theorem natDecAux_digits (fuel : Nat) :
    ∀ n c, c ∈ natDecAux fuel n → ∃ d, d < 10 ∧ c = digitChar d := by
  induction fuel with
  | zero => intro n c hc; simp [natDecAux] at hc
  | succ j ih =>
    intro n c hc
    simp only [natDecAux] at hc
    by_cases hn : n < 10
    · rw [if_pos hn] at hc
      simp only [List.mem_singleton] at hc
      exact ⟨n, hn, hc⟩
    · rw [if_neg hn] at hc
      simp only [List.mem_append, List.mem_singleton] at hc
      cases hc with
      | inl h => exact ih (n / 10) c h
      | inr h => exact ⟨n % 10, by omega, h⟩

theorem parseNatAux_natDecAux (fuel : Nat) :
    ∀ n acc, n < fuel →
      parseNatAux acc (natDecAux fuel n)
        = some (acc * 10 ^ (natDecAux fuel n).length + n) := by
  induction fuel with
  | zero => intro n acc h; omega
  | succ j ih =>
    intro n acc h
    simp only [natDecAux]
    by_cases hn : n < 10
    · rw [if_pos hn]
      simp only [parseNatAux, digitVal_digitChar n hn, List.length_singleton, pow_one]
      congr 1
      omega
    · rw [if_neg hn]
      have hdiv : n / 10 < j := by
        have h1 : n / 10 < n := Nat.div_lt_self (by omega) (by omega)
        omega
      rw [parseNatAux_append]
      rw [ih (n / 10) acc hdiv]
      simp only [parseNatAux, digitVal_digitChar (n % 10) (by omega)]
      simp only [List.length_append, List.length_singleton]
      rw [pow_succ, ← mul_assoc]
      have : 10 * (acc * 10 ^ (natDecAux j (n / 10)).length + n / 10) + n % 10
          = acc * 10 ^ (natDecAux j (n / 10)).length * 10 + n := by omega
      rw [this]

theorem parseNat_natDec (n : Nat) : parseNatAux 0 (natDec n) = some n := by
  have := parseNatAux_natDecAux (n + 1) n 0 (by omega)
  simpa using this

/-- Decimal rendering of an integer. -/
def intDec (i : Int) : List Char :=
  if i < 0 then '-' :: natDec i.natAbs else natDec i.toNat

/-- Decimal integer parser. -/
def parseInt : List Char → Option Int
  | [] => none
  | c :: t =>
      if c = '-' then
        (match parseNatAux 0 t with
         | some n => some (-(n : Int))
         | none => none)
      else
        (match parseNatAux 0 (c :: t) with
         | some n => some ((n : Int))
         | none => none)

theorem parseInt_intDec (i : Int) : parseInt (intDec i) = some i := by
  by_cases hi : i < 0
  · simp only [intDec, if_pos hi, parseInt, if_pos rfl, parseNat_natDec]
    have : -(↑i.natAbs : Int) = i := by omega
    rw [this]
    simp
  · simp only [intDec, if_neg hi]
    obtain ⟨c, t, hct⟩ : ∃ c t, natDec i.toNat = c :: t := by
      cases hnd : natDec i.toNat with
      | nil => exact absurd hnd (natDecAux_ne_nil (i.toNat + 1) i.toNat (by omega))
      | cons c t => exact ⟨c, t, rfl⟩
    rw [hct]
    have hcmem : c ∈ natDec i.toNat := by rw [hct]; simp
    obtain ⟨d, hd, rfl⟩ := natDecAux_digits (i.toNat + 1) i.toNat c hcmem
    simp only [parseInt, if_neg (digitChar_ne_minus d hd)]
    rw [← hct]
    simp only [parseNat_natDec]
    have : ((i.toNat : Int)) = i := by omega
    rw [this]

/-- The base64 alphabet. -/
def b64chars : List Char :=
  "ABCDEFGHIJKLMNOPQRSTUVWXYZabcdefghijklmnopqrstuvwxyz0123456789+/".data

/-- Character of a sextet. -/
def b64char (n : Nat) : Char := b64chars.getD n 'A'

def b64valAux (c : Char) : Nat → List Char → Option Nat
  | _, [] => none
  | i, d :: t => if d = c then some i else b64valAux c (i + 1) t

/-- Sextet of an alphabet character. -/
def b64val (c : Char) : Option Nat := b64valAux c 0 b64chars

theorem b64val_b64char : ∀ n, n < 64 → b64val (b64char n) = some n := by decide

theorem b64char_ne_pad : ∀ n, n < 64 → b64char n ≠ '=' := by decide

/-- Standard padded base64 rendering of a byte string. -/
def b64encode : List Nat → List Char
  | [] => []
  | [a] => [b64char (a / 4), b64char ((a % 4) * 16), '=', '=']
  | [a, b] => [b64char (a / 4), b64char ((a % 4) * 16 + b / 16), b64char ((b % 16) * 4), '=']
  | a :: b :: c :: t =>
      b64char (a / 4) :: b64char ((a % 4) * 16 + b / 16)
        :: b64char ((b % 16) * 4 + c / 64) :: b64char (c % 64) :: b64encode t

/-- Standard padded base64 decoding of a character string. -/
def b64decode : List Char → Option (List Nat)
  | [] => some []
  | [c1, c2, c3, c4] =>
      (match b64val c1, b64val c2 with
       | some v1, some v2 =>
           if c3 = '=' then
             if c4 = '=' then
               (if v2 % 16 = 0 then some [v1 * 4 + v2 / 16] else none)
             else none
           else
             (match b64val c3 with
              | some v3 =>
                  if c4 = '=' then
                    (if v3 % 4 = 0 then
                       some [v1 * 4 + v2 / 16, (v2 % 16) * 16 + v3 / 4]
                     else none)
                  else
                    (match b64val c4 with
                     | some v4 =>
                         some [v1 * 4 + v2 / 16, (v2 % 16) * 16 + v3 / 4,
                           (v3 % 4) * 64 + v4]
                     | none => none)
              | none => none)
       | _, _ => none)
  | c1 :: c2 :: c3 :: c4 :: c5 :: t =>
      (match b64val c1, b64val c2, b64val c3, b64val c4 with
       | some v1, some v2, some v3, some v4 =>
           (match b64decode (c5 :: t) with
            | some bs =>
                some ((v1 * 4 + v2 / 16) :: ((v2 % 16) * 16 + v3 / 4)
                  :: ((v3 % 4) * 64 + v4) :: bs)
            | none => none)
       | _, _, _, _ => none)
  | _ => none

theorem b64encode_ne_nil (a : Nat) (t : List Nat) : b64encode (a :: t) ≠ [] := by
  cases t with
  | nil => simp [b64encode]
  | cons b t2 =>
    cases t2 with
    | nil => simp [b64encode]
    | cons c t3 => simp [b64encode]

theorem b64decode_b64encode : ∀ (L : Nat) (bs : List Nat), bs.length ≤ L →
    (∀ b ∈ bs, b < 256) → b64decode (b64encode bs) = some bs := by
  intro L
  induction L with
  | zero =>
    intro bs hL _
    have : bs = [] := List.eq_nil_of_length_eq_zero (by omega)
    subst this
    rfl
  | succ M ih =>
    intro bs hL hb
    match bs with
    | [] => rfl
    | [a] =>
      have ha : a < 256 := hb a (by simp)
      have hz : a % 4 * 16 % 16 = 0 := by omega
      have hv : a / 4 * 4 + a % 4 * 16 / 16 = a := by omega
      simp only [b64encode]
      simp [b64decode, b64val_b64char (a / 4) (by omega : a / 4 < 64),
        b64val_b64char (a % 4 * 16) (by omega : a % 4 * 16 < 64), hz]
      omega
    | [a, b] =>
      have ha : a < 256 := hb a (by simp)
      have hbb : b < 256 := hb b (by simp)
      have hz : b % 16 * 4 % 4 = 0 := by omega
      have hv1 : a / 4 * 4 + (a % 4 * 16 + b / 16) / 16 = a := by omega
      have hv2 : (a % 4 * 16 + b / 16) % 16 * 16 + b % 16 * 4 / 4 = b := by omega
      simp only [b64encode]
      simp [b64decode, b64val_b64char (a / 4) (by omega : a / 4 < 64),
        b64val_b64char (a % 4 * 16 + b / 16) (by omega : a % 4 * 16 + b / 16 < 64),
        b64val_b64char (b % 16 * 4) (by omega : b % 16 * 4 < 64),
        b64char_ne_pad (b % 16 * 4) (by omega : b % 16 * 4 < 64), hz]
      omega
    | a :: b :: c :: t =>
      have ha : a < 256 := hb a (by simp)
      have hbb : b < 256 := hb b (by simp)
      have hc : c < 256 := hb c (by simp)
      have hv1 : a / 4 * 4 + (a % 4 * 16 + b / 16) / 16 = a := by omega
      have hv2 : (a % 4 * 16 + b / 16) % 16 * 16 + (b % 16 * 4 + c / 64) / 4 = b := by
        omega
      have hv3 : (b % 16 * 4 + c / 64) % 4 * 64 + c % 64 = c := by omega
      cases t with
      | nil =>
        simp only [b64encode]
        simp [b64decode, b64val_b64char (a / 4) (by omega : a / 4 < 64),
          b64val_b64char (a % 4 * 16 + b / 16) (by omega : a % 4 * 16 + b / 16 < 64),
          b64val_b64char (b % 16 * 4 + c / 64) (by omega : b % 16 * 4 + c / 64 < 64),
          b64val_b64char (c % 64) (by omega : c % 64 < 64),
          b64char_ne_pad (b % 16 * 4 + c / 64) (by omega : b % 16 * 4 + c / 64 < 64),
          b64char_ne_pad (c % 64) (by omega : c % 64 < 64)]
        omega
      | cons x t2 =>
        have hrec := ih (x :: t2) (by simp at hL ⊢; omega)
          (fun y hy => hb y (by simp at hy ⊢; tauto))
        obtain ⟨y, ys, hy⟩ : ∃ y ys, b64encode (x :: t2) = y :: ys := by
          cases he : b64encode (x :: t2) with
          | nil => exact absurd he (b64encode_ne_nil x t2)
          | cons y ys => exact ⟨y, ys, rfl⟩
        show b64decode (b64char (a / 4) :: b64char (a % 4 * 16 + b / 16)
            :: b64char (b % 16 * 4 + c / 64) :: b64char (c % 64)
            :: b64encode (x :: t2)) = some (a :: b :: c :: x :: t2)
        rw [hy, show b64decode (b64char (a / 4) :: b64char (a % 4 * 16 + b / 16)
            :: b64char (b % 16 * 4 + c / 64) :: b64char (c % 64) :: y :: ys)
          = (match b64val (b64char (a / 4)), b64val (b64char (a % 4 * 16 + b / 16)),
               b64val (b64char (b % 16 * 4 + c / 64)), b64val (b64char (c % 64)) with
             | some v1, some v2, some v3, some v4 =>
                 (match b64decode (y :: ys) with
                  | some bs =>
                      some ((v1 * 4 + v2 / 16) :: ((v2 % 16) * 16 + v3 / 4)
                        :: ((v3 % 4) * 64 + v4) :: bs)
                  | none => none)
             | _, _, _, _ => none) from rfl]
        rw [← hy, hrec]
        simp [b64val_b64char (a / 4) (by omega : a / 4 < 64),
          b64val_b64char (a % 4 * 16 + b / 16) (by omega : a % 4 * 16 + b / 16 < 64),
          b64val_b64char (b % 16 * 4 + c / 64) (by omega : b % 16 * 4 + c / 64 < 64),
          b64val_b64char (c % 64) (by omega : c % 64 < 64)]
        omega

/-! ## JSON documents and the JSONCodec (spec §4.3) -/

mutual
/-- Modelled from the spec: a JSON document — null, boolean, number, string,
ordered array, or object with ordered string keys. -/
inductive Json where
  | jNull : Json
  | jBool : Bool → Json
  | jNum : Int → Json
  | jStr : String → Json
  | jArr : JsonArr → Json
  | jObj : JsonObj → Json
deriving DecidableEq

/-- An ordered JSON array. -/
inductive JsonArr where
  | nil : JsonArr
  | cons : Json → JsonArr → JsonArr
deriving DecidableEq

/-- An ordered JSON object. -/
inductive JsonObj where
  | nil : JsonObj
  | cons : String → Json → JsonObj → JsonObj
deriving DecidableEq
end

/-- The keys of a JSON object, in order. -/
def objKeys : JsonObj → List String
  | .nil => []
  | .cons k _ t => k :: objKeys t

/-- Emptiness test for a JSON array. -/
def jarrIsNil : JsonArr → Bool
  | .nil => true
  | .cons _ _ => false

/-- Emptiness test for a JSON object. -/
def jobjIsNil : JsonObj → Bool
  | .nil => true
  | .cons _ _ _ => false

/-- Modelled from the spec: symbolic name of an enum value — the
first-declared name wins on reverse lookup. -/
def enumNameOf (ed : EnumDescriptor) (i : Int) : Option String :=
  (ed.values.find? (fun ev => ev.number == i)).map (·.name)

/-- Value of an enum symbol. -/
def enumValOf (ed : EnumDescriptor) (nm : String) : Option Int :=
  (ed.values.find? (fun ev => ev.name == nm)).map (·.number)

/-- Modelled from the spec: the stringified form of a map key. -/
def keyStr : Value → String
  | .vInt i => String.mk (intDec i)
  | .vBool b => if b then "true" else "false"
  | .vBytes bs => bytesToStr bs
  | _ => ""

/-- Parse a stringified map key back at its scalar type. -/
def parseKey (kt : ScalarType) (s : String) : Except Err Value :=
  match kt with
  | .sBool =>
      if s = "true" then .ok (.vBool true)
      else if s = "false" then .ok (.vBool false)
      else .error (.SchemaError s)
  | .sString => .ok (.vBytes (strToBytes s))
  | .sBytes => .error (.SchemaError s)
  | _ =>
      (match parseInt s.data with
       | some i => .ok (.vInt i)
       | none => .error (.SchemaError s))

/-- Modelled from the spec: the first oneof group with more than one member
present among the document keys, with the first two offending keys. -/
def oneofConflict (md : MessageDescriptor) (keys : List String) :
    Option (String × String × String) :=
  md.oneofs.findSome? (fun g =>
    match keys.filter (fun nm => g.memberNames.contains nm) with
    | f1 :: f2 :: _ => some (g.name, f1, f2)
    | _ => none)

mutual
/-- Modelled from the spec: `toJSON` over the populated fields — one key per
populated field using its declared name, in storage order; fields whose
number has no descriptor emit nothing. -/
def toJsonFields (reg : Registry) (md : MessageDescriptor) : FieldMap → JsonObj
  | .nil => .nil
  | .cons n v t =>
      (match md.fields.find? (fun fd => fd.number == n) with
       | none => toJsonFields reg md t
       | some fd => .cons fd.name (jsonHead reg fd.typ fd.label v) (toJsonFields reg md t))

/-- The JSON rendering of one populated field slot: singular scalars as
numbers, booleans, strings (64-bit integers as decimal strings, bytes as
base64, enums as their symbol with numeric fallback), nested messages as
objects, repeated fields as arrays, maps as objects keyed by stringified
keys. -/
def jsonHead (reg : Registry) (ft : FieldType) (lab : Repetition) : Value → Json
  | .vInt i =>
      (match lab with
       | .singular =>
           (match ft with
            | .scalar .sInt32 => .jNum i
            | .scalar .sUint32 => .jNum i
            | .scalar .sFixed32 => .jNum i
            | .scalar .sInt64 => .jStr (String.mk (intDec i))
            | .scalar .sUint64 => .jStr (String.mk (intDec i))
            | .scalar .sFixed64 => .jStr (String.mk (intDec i))
            | .enumTy tn =>
                (match findEnum reg tn with
                 | some ed =>
                     (match enumNameOf ed i with
                      | some nm => .jStr nm
                      | none => .jNum i)
                 | none => .jNum i)
            | _ => .jNull)
       | _ => .jNull)
  | .vBool b =>
      (match lab with
       | .singular =>
           (match ft with
            | .scalar .sBool => .jBool b
            | _ => .jNull)
       | _ => .jNull)
  | .vBytes bs =>
      (match lab with
       | .singular =>
           (match ft with
            | .scalar .sString => .jStr (bytesToStr bs)
            | .scalar .sBytes => .jStr (String.mk (b64encode bs))
            | _ => .jNull)
       | _ => .jNull)
  | .vMsg fs _ =>
      (match lab with
       | .singular =>
           (match ft with
            | .messageTy tn =>
                (match findMessage reg tn with
                 | some md' => .jObj (toJsonFields reg md' fs)
                 | none => .jNull)
            | _ => .jNull)
       | _ => .jNull)
  | .vList vs =>
      (match lab with
       | .repeated => .jArr (jsonElems reg ft vs)
       | _ => .jNull)
  | .vMap es =>
      (match lab with
       | .mapKind =>
           (match ft with
            | .messageTy tn =>
                (match findMessage reg tn with
                 | some ed =>
                     (match mapEntryInfo ed with
                      | some (kt, vt) => .jObj (jsonEntries reg kt vt es)
                      | none => .jNull)
                 | none => .jNull)
            | _ => .jNull)
       | _ => .jNull)

/-- The JSON rendering of one singular value at a field type. -/
def jsonScalar (reg : Registry) (ft : FieldType) (v : Value) : Json :=
  match ft, v with
  | .messageTy tn, .vMsg fs _ =>
      (match findMessage reg tn with
       | some md' => .jObj (toJsonFields reg md' fs)
       | none => .jNull)
  | .scalar .sString, .vBytes bs => .jStr (bytesToStr bs)
  | .scalar .sBytes, .vBytes bs => .jStr (String.mk (b64encode bs))
  | .scalar .sInt64, .vInt i => .jStr (String.mk (intDec i))
  | .scalar .sUint64, .vInt i => .jStr (String.mk (intDec i))
  | .scalar .sFixed64, .vInt i => .jStr (String.mk (intDec i))
  | .scalar .sInt32, .vInt i => .jNum i
  | .scalar .sUint32, .vInt i => .jNum i
  | .scalar .sFixed32, .vInt i => .jNum i
  | .scalar .sBool, .vBool b => .jBool b
  | .enumTy tn, .vInt i =>
      (match findEnum reg tn with
       | some ed =>
           (match enumNameOf ed i with
            | some nm => .jStr nm
            | none => .jNum i)
       | none => .jNum i)
  | _, _ => .jNull

/-- The JSON array of a repeated field's elements, in order. -/
def jsonElems (reg : Registry) (ft : FieldType) : ValueList → JsonArr
  | .nil => .nil
  | .cons v t => .cons (jsonScalar reg ft v) (jsonElems reg ft t)

/-- The JSON object of a map field's entries, in order, keyed by the
stringified keys. -/
def jsonEntries (reg : Registry) (kt : ScalarType) (vt : FieldType) : EntryList → JsonObj
  | .nil => .nil
  | .cons k v t => .cons (keyStr k) (jsonScalar reg vt v) (jsonEntries reg kt vt t)
end

/-- Modelled from the spec: `toJSON(message)` — one key per populated field;
unknown-field spans are never surfaced. -/
def toJSON (reg : Registry) (md : MessageDescriptor) (m : DynamicMessage) : Json :=
  .jObj (toJsonFields reg md m.fields)

mutual
/-- Modelled from the spec: the strict key walk of `fromJSON` — each document
key must name a field (else `SchemaError` naming the key) and its value
converts per the field's type; empty arrays and empty objects populate
nothing (absence is the canonical empty form). -/
def fromJsonObj (reg : Registry) (md : MessageDescriptor) (acc : FieldMap) :
    JsonObj → Except Err FieldMap
  | .nil => .ok acc
  | .cons key j t =>
      (match fjStep reg md key j with
       | .error e => .error e
       | .ok none => fromJsonObj reg md acc t
       | .ok (some (n, v)) => fromJsonObj reg md (setField acc n v) t)

/-- One key/value step of the strict walk: resolve the key to a field and
convert the value per the field's type and repetition; `none` means the
value was an empty array or object and populates nothing. -/
def fjStep (reg : Registry) (md : MessageDescriptor) (key : String) :
    Json → Except Err (Option (Nat × Value))
  | .jNull =>
      (match md.fields.find? (fun fd => fd.name == key) with
       | none => .error (.SchemaError key)
       | some _ => .error (.SchemaError key))
  | .jBool b =>
      (match md.fields.find? (fun fd => fd.name == key) with
       | none => .error (.SchemaError key)
       | some fd =>
         match fd.label with
         | .singular =>
             (match fd.typ with
              | .scalar .sBool => .ok (some (fd.number, .vBool b))
              | _ => .error (.SchemaError key))
         | _ => .error (.SchemaError key))
  | .jNum i =>
      (match md.fields.find? (fun fd => fd.name == key) with
       | none => .error (.SchemaError key)
       | some fd =>
         match fd.label with
         | .singular =>
             (match fd.typ with
              | .scalar .sInt32 => .ok (some (fd.number, .vInt i))
              | .scalar .sUint32 => .ok (some (fd.number, .vInt i))
              | .scalar .sFixed32 => .ok (some (fd.number, .vInt i))
              | .enumTy _ => .ok (some (fd.number, .vInt i))
              | _ => .error (.SchemaError key))
         | _ => .error (.SchemaError key))
  | .jStr s =>
      (match md.fields.find? (fun fd => fd.name == key) with
       | none => .error (.SchemaError key)
       | some fd =>
         match fd.label with
         | .singular =>
             (match fd.typ with
              | .scalar .sString => .ok (some (fd.number, .vBytes (strToBytes s)))
              | .scalar .sBytes =>
                  (match b64decode s.data with
                   | some bs => .ok (some (fd.number, .vBytes bs))
                   | none => .error (.SchemaError s))
              | .scalar .sInt64 =>
                  (match parseInt s.data with
                   | some i => .ok (some (fd.number, .vInt i))
                   | none => .error (.SchemaError s))
              | .scalar .sUint64 =>
                  (match parseInt s.data with
                   | some i => .ok (some (fd.number, .vInt i))
                   | none => .error (.SchemaError s))
              | .scalar .sFixed64 =>
                  (match parseInt s.data with
                   | some i => .ok (some (fd.number, .vInt i))
                   | none => .error (.SchemaError s))
              | .enumTy tn =>
                  (match findEnum reg tn with
                   | some ed =>
                       (match enumValOf ed s with
                        | some i => .ok (some (fd.number, .vInt i))
                        | none => .error (.SchemaError s))
                   | none => .error (.NotFoundError tn))
              | _ => .error (.SchemaError key))
         | _ => .error (.SchemaError key))
  | .jArr a =>
      (match md.fields.find? (fun fd => fd.name == key) with
       | none => .error (.SchemaError key)
       | some fd =>
         match fd.label with
         | .repeated =>
             if jarrIsNil a then .ok none
             else
               (match jsonArrToList reg fd.typ a with
                | .ok vs => .ok (some (fd.number, .vList vs))
                | .error e => .error e)
         | _ => .error (.SchemaError key))
  | .jObj o =>
      (match md.fields.find? (fun fd => fd.name == key) with
       | none => .error (.SchemaError key)
       | some fd =>
         match fd.label with
         | .singular =>
             (match fd.typ with
              | .messageTy tn =>
                  (match findMessage reg tn with
                   | some md' =>
                       (match fromJsonObj reg md' .nil o with
                        | .ok fs =>
                            (match oneofConflict md' (objKeys o) with
                             | some (g, f1, f2) => .error (.OneofConflictError g f1 f2)
                             | none => .ok (some (fd.number, .vMsg fs [])))
                        | .error e => .error e)
                   | none => .error (.NotFoundError tn))
              | _ => .error (.SchemaError key))
         | .mapKind =>
             (match fd.typ with
              | .messageTy tn =>
                  (match findMessage reg tn with
                   | some ed =>
                       (match mapEntryInfo ed with
                        | some (kt, vt) =>
                            if jobjIsNil o then .ok none
                            else
                              (match jsonObjToEntries reg kt vt o with
                               | .ok es => .ok (some (fd.number, .vMap es))
                               | .error e => .error e)
                        | none => .error (.SchemaError tn))
                   | none => .error (.NotFoundError tn))
              | _ => .error (.SchemaError key))
         | .repeated => .error (.SchemaError key))

/-- Convert one JSON value at a singular field type. -/
def jsonToSingular (reg : Registry) (ft : FieldType) (j : Json) : Except Err Value :=
  match ft, j with
  | .messageTy tn, .jObj o =>
      (match findMessage reg tn with
       | some md' =>
           (match fromJsonObj reg md' .nil o with
            | .ok fs =>
                (match oneofConflict md' (objKeys o) with
                 | some (g, f1, f2) => .error (.OneofConflictError g f1 f2)
                 | none => .ok (.vMsg fs []))
            | .error e => .error e)
       | none => .error (.NotFoundError tn))
  | .scalar .sString, .jStr s => .ok (.vBytes (strToBytes s))
  | .scalar .sBytes, .jStr s =>
      (match b64decode s.data with
       | some bs => .ok (.vBytes bs)
       | none => .error (.SchemaError s))
  | .scalar .sInt64, .jStr s =>
      (match parseInt s.data with
       | some i => .ok (.vInt i)
       | none => .error (.SchemaError s))
  | .scalar .sUint64, .jStr s =>
      (match parseInt s.data with
       | some i => .ok (.vInt i)
       | none => .error (.SchemaError s))
  | .scalar .sFixed64, .jStr s =>
      (match parseInt s.data with
       | some i => .ok (.vInt i)
       | none => .error (.SchemaError s))
  | .scalar .sInt32, .jNum i => .ok (.vInt i)
  | .scalar .sUint32, .jNum i => .ok (.vInt i)
  | .scalar .sFixed32, .jNum i => .ok (.vInt i)
  | .scalar .sBool, .jBool b => .ok (.vBool b)
  | .enumTy tn, .jStr nm =>
      (match findEnum reg tn with
       | some ed =>
           (match enumValOf ed nm with
            | some i => .ok (.vInt i)
            | none => .error (.SchemaError nm))
       | none => .error (.NotFoundError tn))
  | .enumTy _, .jNum i => .ok (.vInt i)
  | _, _ => .error (.SchemaError "value")

/-- Convert a JSON array's elements at a field type. -/
def jsonArrToList (reg : Registry) (ft : FieldType) : JsonArr → Except Err ValueList
  | .nil => .ok .nil
  | .cons j t =>
      (match jsonToSingular reg ft j with
       | .ok v =>
           (match jsonArrToList reg ft t with
            | .ok vs => .ok (.cons v vs)
            | .error e => .error e)
       | .error e => .error e)

/-- Convert a JSON object's entries at a map's key and value types. -/
def jsonObjToEntries (reg : Registry) (kt : ScalarType) (vt : FieldType) :
    JsonObj → Except Err EntryList
  | .nil => .ok .nil
  | .cons k j t =>
      (match parseKey kt k with
       | .ok kv =>
           (match jsonToSingular reg vt j with
            | .ok v =>
                (match jsonObjToEntries reg kt vt t with
                 | .ok es => .ok (.cons kv v es)
                 | .error e => .error e)
            | .error e => .error e)
       | .error e => .error e)
end

/-- Modelled from the spec: `fromJSON(document, descriptor, registry)` — the
strict key walk followed by the oneof-conflict check; a non-object document
is rejected. -/
def fromJSON (reg : Registry) (md : MessageDescriptor) (j : Json) :
    Except Err DynamicMessage :=
  match j with
  | .jObj o =>
      (match fromJsonObj reg md .nil o with
       | .ok fs =>
           (match oneofConflict md (objKeys o) with
            | some (g, f1, f2) => .error (.OneofConflictError g f1 f2)
            | none => .ok ⟨fs, []⟩)
       | .error e => .error e)
  | _ => .error (.SchemaError md.name)

/-! ## JSON round-trip support lemmas -/

theorem find?_name_nodup (l : List FieldDescriptor) (fd : FieldDescriptor)
    (hmem : fd ∈ l) (hnd : (l.map (·.name)).Nodup) :
    l.find? (fun fd' => fd'.name == fd.name) = some fd := by
  induction l with
  | nil => simp at hmem
  | cons x t ih =>
    simp only [List.map_cons, List.nodup_cons] at hnd
    cases hbeq : (x.name == fd.name) with
    | true =>
      have hxn : x.name = fd.name := by simpa using hbeq
      have hfd : fd = x := by
        rcases List.mem_cons.mp hmem with h | h
        · exact h
        · exfalso
          exact hnd.1 (hxn ▸ List.mem_map_of_mem (·.name) h)
      rw [List.find?_cons_of_pos _ (by simp [hxn])]
      rw [hfd]
    | false =>
      have hxn : x.name ≠ fd.name := by simpa using hbeq
      have hmem' : fd ∈ t := by
        rcases List.mem_cons.mp hmem with h | h
        · exact absurd (h ▸ rfl) hxn
        · exact h
      rw [List.find?_cons_of_neg _ (by simp [hxn])]
      exact ih hmem' hnd.2

/-- From a by-number lookup, in a well-formed descriptor the by-name lookup
returns the same field. -/
theorem find_by_name (md : MessageDescriptor) (fd : FieldDescriptor)
    (hmd : wfMessageDescriptor md = true) (hmem : fd ∈ md.fields) :
    md.fields.find? (fun fd' => fd'.name == fd.name) = some fd := by
  simp only [wfMessageDescriptor, Bool.and_eq_true, decide_eq_true_eq] at hmd
  exact find?_name_nodup md.fields fd hmem hmd.2

theorem findEnum_wf (reg : Registry) (tn : String) (ed : EnumDescriptor)
    (hreg : wfRegistry reg = true) (hfe : findEnum reg tn = some ed) :
    wfEnumDescriptor ed = true := by
  simp only [wfRegistry, Bool.and_eq_true, List.all_eq_true] at hreg
  exact hreg.2 ed (List.mem_of_find?_eq_some hfe)

theorem find?_evname_nodup (l : List EnumValue) (ev : EnumValue)
    (hmem : ev ∈ l) (hnd : (l.map (·.name)).Nodup) :
    l.find? (fun ev' => ev'.name == ev.name) = some ev := by
  induction l with
  | nil => simp at hmem
  | cons x t ih =>
    simp only [List.map_cons, List.nodup_cons] at hnd
    cases hbeq : (x.name == ev.name) with
    | true =>
      have hxn : x.name = ev.name := by simpa using hbeq
      have hx : ev = x := by
        rcases List.mem_cons.mp hmem with h | h
        · exact h
        · exact absurd (hxn ▸ List.mem_map_of_mem (·.name) h) hnd.1
      rw [List.find?_cons_of_pos _ (by simp [hxn])]
      rw [hx]
    | false =>
      have hxn : x.name ≠ ev.name := by simpa using hbeq
      have hmem' : ev ∈ t := by
        rcases List.mem_cons.mp hmem with h | h
        · exact absurd (h ▸ rfl) hxn
        · exact h
      rw [List.find?_cons_of_neg _ (by simp [hxn])]
      exact ih hmem' hnd.2

theorem enumValOf_enumNameOf (ed : EnumDescriptor) (i : Int) (nm : String)
    (hwf : wfEnumDescriptor ed = true) (h : enumNameOf ed i = some nm) :
    enumValOf ed nm = some i := by
  simp only [enumNameOf, Option.map_eq_some'] at h
  obtain ⟨ev, hfind, hname⟩ := h
  have hmem := List.mem_of_find?_eq_some hfind
  have hnum : ev.number = i := by
    have := List.find?_some hfind
    simpa using this
  simp only [wfEnumDescriptor, decide_eq_true_eq] at hwf
  have hgen := find?_evname_nodup ed.values ev hmem hwf
  rw [hname] at hgen
  simp only [enumValOf, hgen, Option.map_some']
  rw [hnum]

theorem mapEntryInfo_kt_ne_bytes (ed : MessageDescriptor) (kt : ScalarType) (vt : FieldType)
    (h : mapEntryInfo ed = some (kt, vt)) : kt ≠ .sBytes := by
  simp only [mapEntryInfo] at h
  split at h
  · split at h
    · split at h
      · rename_i st hst
        split at h
        · simp at h
        · rename_i hne
          simp only [Option.some.injEq, Prod.mk.injEq] at h
          intro hk
          rw [← h.1] at hk
          subst hk
          simp at hne
      · simp at h
    · simp at h
  · simp at h

/-- The JSON object keys emitted for a field map are exactly the populated
field names. -/
theorem objKeys_toJsonFields (reg : Registry) (md : MessageDescriptor) (fs : FieldMap) :
    objKeys (toJsonFields reg md fs) = presentNames md fs := by
  induction fs using fmInd with
  | hnil => rfl
  | hcons n v t ih =>
    simp only [toJsonFields, presentNames, fieldNumbers, List.filterMap_cons]
    cases hfind : md.fields.find? (fun fd => fd.number == n) with
    | none =>
      simp only [Option.map_none']
      rw [ih]
      rfl
    | some fd =>
      simp only [Option.map_some', objKeys]
      rw [ih]
      rfl

/-- A field map satisfying the oneof constraint raises no conflict over its
own emitted keys. -/
theorem oneofConflict_none_of_ok (md : MessageDescriptor) (fs : FieldMap)
    (h : oneofOk md fs = true) :
    oneofConflict md (presentNames md fs) = none := by
  simp only [oneofOk, List.all_eq_true, decide_eq_true_eq] at h
  rw [oneofConflict, List.findSome?_eq_none_iff]
  intro g hg
  have hlen := h g hg
  cases hf : (presentNames md fs).filter (fun nm => g.memberNames.contains nm) with
  | nil => rfl
  | cons f1 rest =>
    cases rest with
    | nil => rfl
    | cons f2 rest2 =>
      rw [hf] at hlen
      simp at hlen

theorem parseKey_keyStr (reg : Registry) (kt : ScalarType) (k : Value)
    (hkt : kt ≠ .sBytes) (hwf : wfSingular reg (.scalar kt) k = true) :
    parseKey kt (keyStr k) = .ok k := by
  cases kt with
  | sBool =>
    cases k <;> simp [wfSingular] at hwf
    case vBool b =>
      cases b <;> simp [keyStr, parseKey]
  | sString =>
    cases k <;> simp [wfSingular] at hwf
    case vBytes bs =>
      simp only [keyStr, parseKey, Except.ok.injEq, Value.vBytes.injEq]
      exact strToBytes_bytesToStr bs (by simpa [List.all_eq_true] using hwf)
  | sBytes => exact absurd rfl hkt
  | sInt32 | sInt64 | sUint32 | sUint64 | sFixed32 | sFixed64 =>
    cases k <;> simp [wfSingular] at hwf
    case vInt i =>
      simp only [keyStr, parseKey]
      simp only [parseInt_intDec]

/-- For a singular field the per-slot JSON rendering coincides with the
singular rendering at the field's type. -/
theorem jsonHead_singular (reg : Registry) (ft : FieldType) (v : Value) :
    jsonHead reg ft .singular v = jsonScalar reg ft v := by
  cases v with
  | vInt i =>
    simp only [jsonHead]
    cases ft with
    | scalar s => cases s <;> rfl
    | enumTy tn => cases hfe : findEnum reg tn <;> simp only [jsonScalar, hfe]
    | messageTy tn => rfl
  | vBool b =>
    simp only [jsonHead]
    cases ft with
    | scalar s => cases s <;> rfl
    | enumTy tn => rfl
    | messageTy tn => rfl
  | vBytes bs =>
    simp only [jsonHead]
    cases ft with
    | scalar s => cases s <;> rfl
    | enumTy tn => rfl
    | messageTy tn => rfl
  | vMsg fs unk =>
    simp only [jsonHead]
    cases ft with
    | scalar s => cases s <;> rfl
    | enumTy tn => rfl
    | messageTy tn => cases hfm : findMessage reg tn <;> simp only [jsonScalar, hfm]
  | vList vs =>
    simp only [jsonHead]
    cases ft with
    | scalar s => cases s <;> rfl
    | enumTy tn => rfl
    | messageTy tn => rfl
  | vMap es =>
    simp only [jsonHead]
    cases ft with
    | scalar s => cases s <;> rfl
    | enumTy tn => rfl
    | messageTy tn => rfl

/-- When the singular conversion of a value succeeds, the strict walk's step
resolves the same field and produces the same value. -/
theorem fjStep_of_singular (reg : Registry) (md : MessageDescriptor) (key : String)
    (fd : FieldDescriptor) (j : Json) (v : Value)
    (hfind : md.fields.find? (fun fd' => fd'.name == key) = some fd)
    (hlab : fd.label = .singular)
    (hconv : jsonToSingular reg fd.typ j = .ok v) :
    fjStep reg md key j = .ok (some (fd.number, v)) := by
  cases j with
  | jNull =>
    exfalso
    cases hty : fd.typ with
    | scalar st => rw [hty] at hconv; cases st <;> simp [jsonToSingular] at hconv
    | enumTy tn => rw [hty] at hconv; simp [jsonToSingular] at hconv
    | messageTy tn => rw [hty] at hconv; simp [jsonToSingular] at hconv
  | jArr a =>
    exfalso
    cases hty : fd.typ with
    | scalar st => rw [hty] at hconv; cases st <;> simp [jsonToSingular] at hconv
    | enumTy tn => rw [hty] at hconv; simp [jsonToSingular] at hconv
    | messageTy tn => rw [hty] at hconv; simp [jsonToSingular] at hconv
  | jBool b =>
    simp only [fjStep, hfind, hlab]
    cases hty : fd.typ with
    | scalar st =>
      rw [hty] at hconv
      cases st <;> simp [jsonToSingular] at hconv <;> rw [hconv]
    | enumTy tn => rw [hty] at hconv; simp [jsonToSingular] at hconv
    | messageTy tn => rw [hty] at hconv; simp [jsonToSingular] at hconv
  | jNum i =>
    simp only [fjStep, hfind, hlab]
    cases hty : fd.typ with
    | scalar st =>
      rw [hty] at hconv
      cases st <;> simp [jsonToSingular] at hconv <;> rw [hconv]
    | enumTy tn =>
      rw [hty] at hconv
      simp [jsonToSingular] at hconv
      rw [hconv]
    | messageTy tn => rw [hty] at hconv; simp [jsonToSingular] at hconv
  | jStr str =>
    simp only [fjStep, hfind, hlab]
    cases hty : fd.typ with
    | scalar st =>
      rw [hty] at hconv
      cases st with
      | sString =>
        simp only [jsonToSingular, Except.ok.injEq] at hconv
        rw [hconv]
      | sBytes =>
        simp only [jsonToSingular] at hconv ⊢
        cases hb : b64decode str.data with
        | some bs =>
          simp only [hb] at hconv ⊢
          simp only [Except.ok.injEq] at hconv
          rw [hconv]
        | none => simp [hb] at hconv
      | sInt64 =>
        simp only [jsonToSingular] at hconv ⊢
        cases hp : parseInt str.data with
        | some i =>
          simp only [hp] at hconv ⊢
          simp only [Except.ok.injEq] at hconv
          rw [hconv]
        | none => simp [hp] at hconv
      | sUint64 =>
        simp only [jsonToSingular] at hconv ⊢
        cases hp : parseInt str.data with
        | some i =>
          simp only [hp] at hconv ⊢
          simp only [Except.ok.injEq] at hconv
          rw [hconv]
        | none => simp [hp] at hconv
      | sFixed64 =>
        simp only [jsonToSingular] at hconv ⊢
        cases hp : parseInt str.data with
        | some i =>
          simp only [hp] at hconv ⊢
          simp only [Except.ok.injEq] at hconv
          rw [hconv]
        | none => simp [hp] at hconv
      | sInt32 => simp [jsonToSingular] at hconv
      | sUint32 => simp [jsonToSingular] at hconv
      | sFixed32 => simp [jsonToSingular] at hconv
      | sBool => simp [jsonToSingular] at hconv
    | enumTy tn =>
      rw [hty] at hconv
      simp only [jsonToSingular] at hconv ⊢
      cases hfe : findEnum reg tn with
      | some ed =>
        simp only [hfe] at hconv ⊢
        cases hv : enumValOf ed str with
        | some i =>
          simp only [hv] at hconv ⊢
          simp only [Except.ok.injEq] at hconv
          rw [hconv]
        | none => simp [hv] at hconv
      | none => simp [hfe] at hconv
    | messageTy tn => rw [hty] at hconv; simp [jsonToSingular] at hconv
  | jObj o =>
    simp only [fjStep, hfind, hlab]
    cases hty : fd.typ with
    | scalar st => rw [hty] at hconv; cases st <;> simp [jsonToSingular] at hconv
    | enumTy tn => rw [hty] at hconv; simp [jsonToSingular] at hconv
    | messageTy tn =>
      rw [hty] at hconv
      simp only [jsonToSingular] at hconv ⊢
      cases hfm : findMessage reg tn with
      | some md' =>
        simp only [hfm] at hconv ⊢
        cases hfj : fromJsonObj reg md' .nil o with
        | ok fs =>
          simp only [hfj] at hconv ⊢
          cases hoc : oneofConflict md' (objKeys o) with
          | some gff =>
            obtain ⟨g, f1, f2⟩ := gff
            simp [hoc] at hconv
          | none =>
            simp only [hoc] at hconv ⊢
            simp only [Except.ok.injEq] at hconv
            rw [hconv]
        | error e => simp [hfj] at hconv
      | none => simp [hfm] at hconv

/-! ## The fromJSON-of-toJSON round-trip (grand induction) -/

/-- Round-trip statement for a message's field map through JSON. -/
def JRfields (N : Nat) : Prop :=
  ∀ (reg : Registry) (md : MessageDescriptor) (fs acc : FieldMap),
    msF fs ≤ N →
    wfRegistry reg = true → wfMessageDescriptor md = true →
    wfFieldsAux reg md fs = true → noUnknownF fs = true → fmSorted fs = true →
    (∀ a ∈ fieldNumbers acc, ∀ b ∈ fieldNumbers fs, a < b) →
    fromJsonObj reg md acc (toJsonFields reg md fs) = .ok (fmConcat acc fs)

/-- Round-trip statement for one singular value through JSON. -/
def JRsing (N : Nat) : Prop :=
  ∀ (reg : Registry) (ft : FieldType) (v : Value),
    msV v ≤ N →
    wfRegistry reg = true → wfSingular reg ft v = true → noUnknownV v = true →
    jsonToSingular reg ft (jsonScalar reg ft v) = .ok v

/-- Round-trip statement for repeated elements through JSON. -/
def JRelems (N : Nat) : Prop :=
  ∀ (reg : Registry) (ft : FieldType) (vs : ValueList),
    msL vs ≤ N →
    wfRegistry reg = true → wfElems reg ft vs = true → noUnknownL vs = true →
    jsonArrToList reg ft (jsonElems reg ft vs) = .ok vs

/-- Round-trip statement for map entries through JSON. -/
def JRentries (N : Nat) : Prop :=
  ∀ (reg : Registry) (kt : ScalarType) (vt : FieldType) (es : EntryList),
    msE es ≤ N →
    wfRegistry reg = true → kt ≠ .sBytes →
    wfEntries reg kt vt es = true → noUnknownE es = true →
    jsonObjToEntries reg kt vt (jsonEntries reg kt vt es) = .ok es

/-- The strong-induction step for singular values through JSON. -/
theorem jrSingStep (N : Nat)
    (ih : ∀ m, m < N → JRfields m ∧ JRsing m ∧ JRelems m ∧ JRentries m) : JRsing N := by
  intro reg ft v hN hreg hwf hnuv
  cases hty : ft with
  | scalar st =>
    rw [hty] at hwf
    cases st with
    | sBool =>
      cases v <;> simp [wfSingular] at hwf
      case vBool b => rfl
    | sString =>
      cases v <;> simp [wfSingular] at hwf
      case vBytes bs =>
        simp only [jsonScalar, jsonToSingular, Except.ok.injEq, Value.vBytes.injEq]
        exact strToBytes_bytesToStr bs (by simpa [List.all_eq_true] using hwf)
    | sBytes =>
      cases v <;> simp [wfSingular] at hwf
      case vBytes bs =>
        simp only [jsonScalar, jsonToSingular]
        rw [b64decode_b64encode bs.length bs le_rfl
          (by simpa [List.all_eq_true] using hwf)]
    | sInt32 =>
      cases v <;> simp [wfSingular] at hwf
      case vInt i => rfl
    | sUint32 =>
      cases v <;> simp [wfSingular] at hwf
      case vInt i => rfl
    | sFixed32 =>
      cases v <;> simp [wfSingular] at hwf
      case vInt i => rfl
    | sInt64 =>
      cases v <;> simp [wfSingular] at hwf
      case vInt i =>
        simp only [jsonScalar, jsonToSingular]
        rw [parseInt_intDec]
    | sUint64 =>
      cases v <;> simp [wfSingular] at hwf
      case vInt i =>
        simp only [jsonScalar, jsonToSingular]
        rw [parseInt_intDec]
    | sFixed64 =>
      cases v <;> simp [wfSingular] at hwf
      case vInt i =>
        simp only [jsonScalar, jsonToSingular]
        rw [parseInt_intDec]
  | enumTy tn =>
    rw [hty] at hwf
    cases v <;> simp only [wfSingular, Bool.and_eq_true] at hwf
    case vInt i =>
      obtain ⟨⟨hsome, _⟩, _⟩ := hwf
      cases hfe : findEnum reg tn with
      | none => rw [hfe] at hsome; simp at hsome
      | some ed =>
        simp only [jsonScalar, hfe]
        cases hnm : enumNameOf ed i with
        | some nm =>
          simp only [jsonToSingular, hfe]
          rw [enumValOf_enumNameOf ed i nm (findEnum_wf reg tn ed hreg hfe) hnm]
        | none => rfl
    all_goals simp at hwf
  | messageTy tn =>
    rw [hty] at hwf
    cases v <;> simp only [wfSingular] at hwf
    case vMsg fs unk =>
      cases hfm : findMessage reg tn with
      | none => rw [hfm] at hwf; simp at hwf
      | some md' =>
        rw [hfm] at hwf
        simp only [Bool.and_eq_true] at hwf
        obtain ⟨⟨⟨hnme, hwfa⟩, hsort⟩, honeof⟩ := hwf
        simp only [noUnknownV, Bool.and_eq_true] at hnuv
        obtain ⟨hemp, hnuf⟩ := hnuv
        have hunk : unk = [] := by
          cases unk with
          | nil => rfl
          | cons sp u => simp [List.isEmpty] at hemp
        subst hunk
        have hN' : msF fs < N := by
          rw [msV_vMsg] at hN
          omega
        simp only [jsonScalar, hfm, jsonToSingular]
        rw [(ih (msF fs) hN').1 reg md' fs .nil le_rfl hreg
          (findMessage_wf reg tn md' hreg hfm) hwfa hnuf hsort
          (by intro a ha; simp [fieldNumbers] at ha)]
        rw [show fmConcat FieldMap.nil fs = fs from rfl]
        rw [objKeys_toJsonFields, oneofConflict_none_of_ok md' fs honeof]
    all_goals simp at hwf

/-- The strong-induction step for repeated elements through JSON. -/
theorem jrElemsStep (N : Nat)
    (ih : ∀ m, m < N → JRfields m ∧ JRsing m ∧ JRelems m ∧ JRentries m) : JRelems N := by
  intro reg ft vs hN hreg hwfe hnul
  cases vs with
  | nil => rfl
  | cons v tl =>
    simp only [wfElems, Bool.and_eq_true] at hwfe
    obtain ⟨hwfv, hwft⟩ := hwfe
    simp only [noUnknownL, Bool.and_eq_true] at hnul
    obtain ⟨hnuv, hnut⟩ := hnul
    rw [msL_cons] at hN
    have hconv := (ih (msV v) (by omega)).2.1 reg ft v le_rfl hreg hwfv hnuv
    have htail := (ih (msL tl) (by have := msV_pos v; omega)).2.2.1 reg ft tl le_rfl
      hreg hwft hnut
    simp only [jsonElems, jsonArrToList, hconv, htail]

/-- The strong-induction step for map entries through JSON. -/
theorem jrEntriesStep (N : Nat)
    (ih : ∀ m, m < N → JRfields m ∧ JRsing m ∧ JRelems m ∧ JRentries m) : JRentries N := by
  intro reg kt vt es hN hreg hkt hwfe hnue
  cases es with
  | nil => rfl
  | cons k v tl =>
    simp only [wfEntries, Bool.and_eq_true] at hwfe
    obtain ⟨⟨hwfk, hwfv⟩, hwft⟩ := hwfe
    simp only [noUnknownE, Bool.and_eq_true] at hnue
    obtain ⟨⟨hnuk, hnuv⟩, hnut⟩ := hnue
    rw [msE_cons] at hN
    have hkey := parseKey_keyStr reg kt k hkt hwfk
    have hconv := (ih (msV v) (by have := msV_pos k; omega)).2.1 reg vt v le_rfl
      hreg hwfv hnuv
    have htail := (ih (msE tl) (by have := msV_pos k; have := msV_pos v; omega)).2.2.2
      reg kt vt tl le_rfl hreg hkt hwft hnut
    simp only [jsonEntries, jsonObjToEntries, hkey, hconv, htail]

/-- The strong-induction step for a message's field map through JSON. -/
theorem jrFieldsStep (N : Nat)
    (ih : ∀ m, m < N → JRfields m ∧ JRsing m ∧ JRelems m ∧ JRentries m) : JRfields N := by
  intro reg md fs acc hN hreg hmd hwfa hnof hsorted hlt
  cases fs with
  | nil =>
    rw [fmConcat_nil_right]
    rfl
  | cons n v t =>
    rw [wfFieldsAux_cons, Bool.and_eq_true] at hwfa
    obtain ⟨hwfh, hwft⟩ := hwfa
    simp only [noUnknownF, Bool.and_eq_true] at hnof
    obtain ⟨hnuv, hnft⟩ := hnof
    simp only [fmSorted] at hsorted
    cases hfind0 : md.fields.find? (fun fd' => fd'.number == n) with
    | none =>
      exfalso
      cases v <;> simp [wfHead, hfind0] at hwfh
    | some fd =>
      have hnum : fd.number = n := find?_number_eq md n fd hfind0
      subst hnum
      have hmem := List.mem_of_find?_eq_some hfind0
      have hnamefind : md.fields.find? (fun fd' => fd'.name == fd.name) = some fd :=
        find_by_name md fd hmd hmem
      have habove : ∀ b ∈ fieldNumbers t, fd.number < b := fmSortedAbove_lt t fd.number hsorted
      have hsortt : fmSorted t = true := fmSorted_of_above t fd.number hsorted
      have haccn : ∀ a ∈ fieldNumbers acc, a < fd.number := by
        intro a ha
        exact hlt a ha fd.number (by simp [fieldNumbers])
      have hltt : ∀ a ∈ fieldNumbers acc, ∀ b ∈ fieldNumbers t, a < b := by
        intro a ha b hb
        exact hlt a ha b (by simp [fieldNumbers, hb])
      rw [msF_cons] at hN
      have hNv : msV v < N := by omega
      have hNt : msF t < N := by
        have := msV_pos v
        omega
      simp only [toJsonFields, hfind0]
      cases hlab : fd.label with
      | singular =>
        have hwfs : wfSingular reg fd.typ v = true := by
          rw [← wfHead_singular reg md fd.number fd v hfind0 hlab]
          exact hwfh
        rw [jsonHead_singular reg fd.typ v]
        have hconv := (ih (msV v) hNv).2.1 reg fd.typ v le_rfl hreg hwfs hnuv
        have hstep := fjStep_of_singular reg md fd.name fd (jsonScalar reg fd.typ v) v
          hnamefind hlab hconv
        simp only [fromJsonObj, hstep]
        rw [(ih (msF t) hNt).1 reg md t (setField acc fd.number v) le_rfl hreg hmd hwft
          hnft hsortt
          (by rw [setField_above acc fd.number v haccn]
              exact extend_below acc fd.number v (fieldNumbers t) haccn habove hltt)]
        rw [setField_above acc fd.number v haccn, ← fmConcat_cons_right]
      | repeated =>
        cases v with
        | vList vs =>
          simp only [wfHead, hfind0, hlab, Bool.and_eq_true] at hwfh
          obtain ⟨hnn, hwfel⟩ := hwfh
          simp only [noUnknownV] at hnuv
          cases vs with
          | nil =>
            exfalso
            simp [vlIsNil] at hnn
          | cons v0 vt =>
            have hNl : msL (.cons v0 vt) < N := by
              rw [msV_vList] at hNv
              omega
            have helems := (ih (msL (.cons v0 vt)) hNl).2.2.1 reg fd.typ (.cons v0 vt)
              le_rfl hreg hwfel hnuv
            have hstep : fjStep reg md fd.name
                (jsonHead reg fd.typ .repeated (.vList (.cons v0 vt)))
                = .ok (some (fd.number, .vList (.cons v0 vt))) := by
              simp only [jsonHead, fjStep, hnamefind, hlab]
              rw [if_neg (by simp [jsonElems, jarrIsNil])]
              simp only [helems]
            simp only [fromJsonObj, hstep]
            rw [(ih (msF t) hNt).1 reg md t
              (setField acc fd.number (.vList (.cons v0 vt))) le_rfl hreg hmd hwft
              hnft hsortt
              (by rw [setField_above acc fd.number _ haccn]
                  exact extend_below acc fd.number _ (fieldNumbers t) haccn habove hltt)]
            rw [setField_above acc fd.number _ haccn, ← fmConcat_cons_right]
        | vInt i =>
          exfalso
          simp [wfHead, hfind0, hlab] at hwfh
        | vBool b =>
          exfalso
          simp [wfHead, hfind0, hlab] at hwfh
        | vBytes bs =>
          exfalso
          simp [wfHead, hfind0, hlab] at hwfh
        | vMsg fs2 unk2 =>
          exfalso
          simp [wfHead, hfind0, hlab] at hwfh
        | vMap es =>
          exfalso
          simp [wfHead, hfind0, hlab] at hwfh
      | mapKind =>
        cases v with
        | vMap es =>
          cases hty : fd.typ with
          | scalar s =>
            exfalso
            simp [wfHead, hfind0, hlab, hty] at hwfh
          | enumTy tn =>
            exfalso
            simp [wfHead, hfind0, hlab, hty] at hwfh
          | messageTy tn =>
            cases hfm : findMessage reg tn with
            | none =>
              exfalso
              simp [wfHead, hfind0, hlab, hty, hfm] at hwfh
            | some ed =>
              cases hmei : mapEntryInfo ed with
              | none =>
                exfalso
                simp [wfHead, hfind0, hlab, hty, hfm, hmei] at hwfh
              | some ktvt =>
                obtain ⟨kt, vt⟩ := ktvt
                simp only [wfHead, hfind0, hlab, hty, hfm, hmei, Bool.and_eq_true,
                  decide_eq_true_eq] at hwfh
                obtain ⟨hime, ⟨hnn, hnodup⟩, hwfes⟩ := hwfh
                simp only [noUnknownV] at hnuv
                cases es with
                | nil =>
                  exfalso
                  simp [elIsNil] at hnn
                | cons k0 v0 et =>
                  have hNe : msE (.cons k0 v0 et) < N := by
                    rw [msV_vMap] at hNv
                    omega
                  have hentries := (ih (msE (.cons k0 v0 et)) hNe).2.2.2 reg kt vt
                    (.cons k0 v0 et) le_rfl hreg
                    (mapEntryInfo_kt_ne_bytes ed kt vt hmei) hwfes hnuv
                  have hstep : fjStep reg md fd.name
                      (jsonHead reg (.messageTy tn) .mapKind (.vMap (.cons k0 v0 et)))
                      = .ok (some (fd.number, .vMap (.cons k0 v0 et))) := by
                    simp only [jsonHead, fjStep, hnamefind, hlab, hty, hfm, hmei]
                    rw [if_neg (by simp [jsonEntries, jobjIsNil])]
                    simp only [hentries]
                  simp only [fromJsonObj, hstep]
                  rw [(ih (msF t) hNt).1 reg md t
                    (setField acc fd.number (.vMap (.cons k0 v0 et))) le_rfl hreg hmd
                    hwft hnft hsortt
                    (by rw [setField_above acc fd.number _ haccn]
                        exact extend_below acc fd.number _ (fieldNumbers t) haccn habove
                          hltt)]
                  rw [setField_above acc fd.number _ haccn, ← fmConcat_cons_right]
        | vInt i =>
          exfalso
          simp [wfHead, hfind0, hlab] at hwfh
        | vBool b =>
          exfalso
          simp [wfHead, hfind0, hlab] at hwfh
        | vBytes bs =>
          exfalso
          simp [wfHead, hfind0, hlab] at hwfh
        | vMsg fs2 unk2 =>
          exfalso
          simp [wfHead, hfind0, hlab] at hwfh
        | vList vs =>
          exfalso
          simp [wfHead, hfind0, hlab] at hwfh

/-- The grand JSON round-trip induction. -/
theorem jrAll (N : Nat) : JRfields N ∧ JRsing N ∧ JRelems N ∧ JRentries N := by
  induction N using Nat.strong_induction_on with
  | _ N ih =>
    exact ⟨jrFieldsStep N ih, jrSingStep N ih, jrElemsStep N ih, jrEntriesStep N ih⟩

/-- **C3.** Modelled from the spec: for every message whose fields are all known
to the descriptor and well-formed (in particular every enum value renders
unambiguously under the registry's well-formedness, which forbids duplicate
enum value names), converting to JSON and parsing back yields an equal
message: `fromJSON (toJSON m) = .ok m`. -/
theorem C3_fromJSON_toJSON_roundtrip (reg : Registry) (md : MessageDescriptor)
    (fs : FieldMap)
    (hreg : wfRegistry reg = true) (hmd : wfMessageDescriptor md = true)
    (hwf : wfFields reg md fs = true) (hnof : noUnknownF fs = true) :
    fromJSON reg md (toJSON reg md ⟨fs, []⟩) = .ok ⟨fs, []⟩ := by
  simp only [wfFields, Bool.and_eq_true] at hwf
  obtain ⟨⟨hwfa, hsort⟩, honeof⟩ := hwf
  have hwalk := (jrAll (msF fs)).1 reg md fs .nil le_rfl hreg hmd hwfa hnof hsort
    (by intro a ha; simp [fieldNumbers] at ha)
  simp only [toJSON, fromJSON, hwalk]
  rw [show fmConcat FieldMap.nil fs = fs from rfl]
  rw [objKeys_toJsonFields, oneofConflict_none_of_ok md fs honeof]

/-- Witness for C3 at the spec's `Point` example: the hypotheses hold for the
point registry and `{x = 5, y = -3}` and the round-trip returns the message. -/
theorem C3_fromJSON_toJSON_roundtrip_witness :
    (wfRegistry pointReg = true ∧ wfMessageDescriptor pointMD = true ∧
      wfFields pointReg pointMD ptFields = true ∧ noUnknownF ptFields = true) ∧
    fromJSON pointReg pointMD (toJSON pointReg pointMD ⟨ptFields, []⟩)
      = .ok ⟨ptFields, []⟩ :=
  ⟨⟨by decide, by decide, by decide, by decide⟩,
    C3_fromJSON_toJSON_roundtrip pointReg pointMD ptFields
      (by decide) (by decide) (by decide) (by decide)⟩

/-! ## Claim C2 (corrected): unknown spans round-trip, but the byte stream is
not merely a record reordering -/

/-- **C2.** (corrected) Modelled from the spec: unknown-field spans survive the
decode/re-encode cycle verbatim and in their original relative order, placed
after the known fields, and they never surface in the JSON output; but the
emitted bytes are not merely the input records reordered, because a repeated
scalar field decoded from unpacked records is re-emitted packed (see the
counterexample). The corrected re-encode guarantee: a message whose unknown
spans are well-formed wire records for numbers absent from the descriptor
decodes back from its own encoding exactly, with the unknown spans emitted
verbatim after the known fields. -/
theorem C2_unknown_span_roundtrip (reg : Registry) (md : MessageDescriptor)
    (fs : FieldMap) (spans : List UnknownSpan)
    (hreg : wfRegistry reg = true) (hmd : wfMessageDescriptor md = true)
    (hwf : wfFields reg md fs = true) (hnof : noUnknownF fs = true)
    (hspans : ∀ sp ∈ spans, wfSpanB md sp = true)
    (hlen : (encodeFields reg md fs).length < 2 ^ 64) :
    encode reg md ⟨fs, spans⟩
      = encodeFields reg md fs ++ listJoin (spans.map UnknownSpan.raw) ∧
    decode reg md (encode reg md ⟨fs, spans⟩) = .ok ⟨fs, spans⟩ ∧
    (∀ unk unk', toJSON reg md ⟨fs, unk⟩ = toJSON reg md ⟨fs, unk'⟩) := by
  simp only [wfFields, Bool.and_eq_true] at hwf
  obtain ⟨⟨hwfa, hsort⟩, honeof⟩ := hwf
  have henc : encode reg md ⟨fs, spans⟩ = encodeFields reg md fs ++ spansJoin spans := rfl
  refine ⟨by rw [henc, spansJoin_eq], ?_, fun unk unk' => rfl⟩
  have hrt := (roundtripAll (msF fs)).1 reg md fs .nil [] (spansJoin spans)
    ((encodeFields reg md fs ++ spansJoin spans).length + 1)
    ((spansJoin spans).length + 1) le_rfl hreg hmd hwfa hnof hsort
    (by intro a ha; simp [fieldNumbers] at ha) hlen (by omega) (by omega)
  have hsp := decode_spans reg md spans fs [] [] ((spansJoin spans).length + 1) 1
    hspans (by simp) (by simp)
  rw [List.append_nil] at hsp
  simp only [decode, henc]
  rw [hrt, show fmConcat FieldMap.nil fs = fs from rfl, hsp]
  simp [decodeFields]

/-- Witness for the corrected C2: the `Point` message carrying one well-formed
unknown span round-trips, with the span re-emitted verbatim after the fields. -/
theorem C2_unknown_span_roundtrip_witness :
    (wfRegistry pointReg = true ∧ wfMessageDescriptor pointMD = true ∧
      wfFields pointReg pointMD ptFields = true ∧ noUnknownF ptFields = true ∧
      (∀ sp ∈ [UnknownSpan.mk 3 [24, 7]], wfSpanB pointMD sp = true) ∧
      (encodeFields pointReg pointMD ptFields).length < 2 ^ 64) ∧
    decode pointReg pointMD (encode pointReg pointMD ⟨ptFields, [⟨3, [24, 7]⟩]⟩)
      = .ok ⟨ptFields, [⟨3, [24, 7]⟩]⟩ :=
  ⟨⟨by decide, by decide, by decide, by decide, by decide, by decide⟩,
    (C2_unknown_span_roundtrip pointReg pointMD ptFields [⟨3, [24, 7]⟩]
      (by decide) (by decide) (by decide) (by decide) (by decide) (by decide)).2.1⟩

/-- Counterexample to C2 as stated: the bytes `[8, 1, 16, 7]` hold an unpacked
record for the known repeated field 1 and an unknown record for field 2;
re-encoding emits field 1 packed, so the output records are not a permutation
of the input records — the stream is not byte-identical modulo reordering. -/
theorem C2_counterexample :
    decode repReg repMD [8, 1, 16, 7]
      = .ok ⟨.cons 1 (.vList (.cons (.vInt 1) .nil)) .nil, [⟨2, [16, 7]⟩]⟩ ∧
    encode repReg repMD ⟨.cons 1 (.vList (.cons (.vInt 1) .nil)) .nil, [⟨2, [16, 7]⟩]⟩
      = [10, 1, 1, 16, 7] ∧
    wireRecords 5 [8, 1, 16, 7] = some [(1, [8, 1]), (2, [16, 7])] ∧
    wireRecords 6 [10, 1, 1, 16, 7] = some [(1, [10, 1, 1]), (2, [16, 7])] ∧
    ¬ List.Perm [(1, [8, 1]), (2, [16, 7])] [((1 : Nat), [10, 1, 1]), (2, [16, 7])] :=
  ⟨by decide, by decide, by decide, by decide, by decide⟩

/-! ## Claim C8 (corrected): strict keys and oneof conflicts -/

/-- A message descriptor with a oneof group `g` over fields `a` and `b`. -/
def oneofMD : MessageDescriptor :=
  { name := "O",
    fields := [⟨1, "a", .scalar .sInt32, .singular⟩, ⟨2, "b", .scalar .sInt32, .singular⟩],
    oneofs := [⟨"g", ["a", "b"]⟩],
    isMapEntry := false }

/-- The registry holding `oneofMD`. -/
def oneofReg : Registry := { messages := [oneofMD], enums := [], services := [] }

/-- A document presenting both members of the oneof group and an unknown key. -/
def c8doc : JsonObj :=
  .cons "a" (.jNum 1) (.cons "b" (.jNum 2) (.cons "zz" (.jNum 3) .nil))

/-- A list holding two distinct members splits off two heads. -/
theorem two_mem_split {α : Type} (l : List α) (x y : α)
    (hx : x ∈ l) (hy : y ∈ l) (hne : x ≠ y) : ∃ a b t, l = a :: b :: t := by
  cases l with
  | nil => simp at hx
  | cons a tl =>
    cases tl with
    | nil =>
      simp at hx hy
      exact absurd (hx.trans hy.symm) hne
    | cons b t => exact ⟨a, b, t, rfl⟩

/-- The strict walk's helper: concatenation of two JSON documents. -/
def jobjAppend : JsonObj → JsonObj → JsonObj
  | .nil, o => o
  | .cons k j t, o => .cons k j (jobjAppend t o)

/-- A key resolving to no field fails its walk step with a `SchemaError`
naming exactly that key, whatever the attached value. -/
theorem fjStep_unknown (reg : Registry) (md : MessageDescriptor) (k : String) (j : Json)
    (hfind : md.fields.find? (fun fd => fd.name == k) = none) :
    fjStep reg md k j = .error (.SchemaError k) := by
  cases j <;> simp [fjStep, hfind]

/-- The strict walk of a concatenated document runs the first part and, if it
succeeds, continues into the second from the accumulated fields. -/
theorem fromJsonObj_append (reg : Registry) (md : MessageDescriptor) :
    ∀ (o₁ o₂ : JsonObj) (acc fs₁ : FieldMap),
      fromJsonObj reg md acc o₁ = .ok fs₁ →
      fromJsonObj reg md acc (jobjAppend o₁ o₂) = fromJsonObj reg md fs₁ o₂
  | .nil, o₂, acc, fs₁, h => by
      simp only [fromJsonObj, Except.ok.injEq] at h
      subst h
      rfl
  | .cons k j t, o₂, acc, fs₁, h => by
      simp only [jobjAppend, fromJsonObj] at h ⊢
      cases hstep : fjStep reg md k j with
      | error e =>
          simp only [hstep] at h
          exact Except.noConfusion h
      | ok r =>
          simp only [hstep] at h ⊢
          cases r with
          | none => exact fromJsonObj_append reg md t o₂ acc fs₁ h
          | some p =>
              obtain ⟨n, v⟩ := p
              exact fromJsonObj_append reg md t o₂ (setField acc n v) fs₁ h

/-- What a raised oneof conflict names: a group of the descriptor and two of
the document's keys, both members of that group. -/
theorem oneofConflict_some_spec (md : MessageDescriptor) (keys : List String)
    (gname f1 f2 : String)
    (h : oneofConflict md keys = some (gname, f1, f2)) :
    ∃ g ∈ md.oneofs, g.name = gname ∧ f1 ∈ keys ∧ f2 ∈ keys ∧
      f1 ∈ g.memberNames ∧ f2 ∈ g.memberNames := by
  rw [oneofConflict] at h
  obtain ⟨g, hg, hfg⟩ := List.exists_of_findSome?_eq_some h
  cases hfil : keys.filter (fun nm => g.memberNames.contains nm) with
  | nil => rw [hfil] at hfg; simp at hfg
  | cons a tl =>
    cases tl with
    | nil => rw [hfil] at hfg; simp at hfg
    | cons b tl2 =>
      rw [hfil] at hfg
      simp only [Option.some.injEq, Prod.mk.injEq] at hfg
      obtain ⟨hgn, hf1, hf2⟩ := hfg
      have ha : a ∈ keys.filter (fun nm => g.memberNames.contains nm) := by
        rw [hfil]; simp
      have hb : b ∈ keys.filter (fun nm => g.memberNames.contains nm) := by
        rw [hfil]; simp
      rw [List.mem_filter] at ha hb
      subst hf1
      subst hf2
      exact ⟨g, hg, hgn, ha.1, hb.1, by simpa using ha.2, by simpa using hb.2⟩

/-- **C8.** (corrected) Modelled from the spec: the strict walk processes keys
in order, so a key resolving to no field of the descriptor — at any position
reached after a successfully converted prefix — fails `fromJSON` with a
`SchemaError` naming exactly that key; and a document whose keys present two
distinct members of a oneof group fails with an `OneofConflictError` naming a
conflicting group of the descriptor and two presented members of that group —
but only once the strict key walk has succeeded: a document with both an
unknown key and a oneof conflict reports the `SchemaError` (see the
counterexample). -/
theorem C8_strict_keys_and_oneof :
    (∀ (reg : Registry) (md : MessageDescriptor) (o₁ : JsonObj) (k : String)
        (j : Json) (t : JsonObj) (fs₁ : FieldMap),
      fromJsonObj reg md .nil o₁ = .ok fs₁ →
      md.fields.find? (fun fd => fd.name == k) = none →
      fromJSON reg md (.jObj (jobjAppend o₁ (.cons k j t)))
        = .error (.SchemaError k)) ∧
    (∀ (reg : Registry) (md : MessageDescriptor) (o : JsonObj) (fs : FieldMap),
      fromJsonObj reg md .nil o = .ok fs →
      ∀ g ∈ md.oneofs, ∀ f1 f2 : String,
        f1 ∈ objKeys o → f2 ∈ objKeys o →
        f1 ∈ g.memberNames → f2 ∈ g.memberNames → f1 ≠ f2 →
        ∃ g' ∈ md.oneofs, ∃ f1' f2' : String,
          f1' ∈ objKeys o ∧ f2' ∈ objKeys o ∧
          f1' ∈ g'.memberNames ∧ f2' ∈ g'.memberNames ∧
          fromJSON reg md (.jObj o)
            = .error (.OneofConflictError g'.name f1' f2')) := by
  constructor
  · intro reg md o₁ k j t fs₁ hpre hfind
    have happ := fromJsonObj_append reg md o₁ (.cons k j t) .nil fs₁ hpre
    have hstep : fromJsonObj reg md fs₁ (.cons k j t) = .error (.SchemaError k) := by
      simp only [fromJsonObj, fjStep_unknown reg md k j hfind]
    simp only [fromJSON, happ, hstep]
  · intro reg md o fs hwalk g hg f1 f2 hk1 hk2 hm1 hm2 hne
    cases hconf : oneofConflict md (objKeys o) with
    | some trip =>
      obtain ⟨gname, f1', f2'⟩ := trip
      obtain ⟨g', hg', hgn, hk1', hk2', hm1', hm2'⟩ :=
        oneofConflict_some_spec md (objKeys o) gname f1' f2' hconf
      refine ⟨g', hg', f1', f2', hk1', hk2', hm1', hm2', ?_⟩
      rw [hgn]
      simp only [fromJSON, hwalk, hconf]
    | none =>
      exfalso
      rw [oneofConflict, List.findSome?_eq_none_iff] at hconf
      have hgnone := hconf g hg
      have hf1 : f1 ∈ (objKeys o).filter (fun nm => g.memberNames.contains nm) :=
        List.mem_filter.mpr ⟨hk1, by simpa using hm1⟩
      have hf2 : f2 ∈ (objKeys o).filter (fun nm => g.memberNames.contains nm) :=
        List.mem_filter.mpr ⟨hk2, by simpa using hm2⟩
      obtain ⟨a, b, tl, hsplit⟩ := two_mem_split _ f1 f2 hf1 hf2 hne
      rw [hsplit] at hgnone
      simp at hgnone

/-- Witness for the corrected C8: the `Point` descriptor rejects the unknown
key `zz` sitting after the successfully converted key `x`, and a clean
document presenting both members `a` and `b` of the oneof group `g` raises a
conflict naming that group and both presented members. -/
theorem C8_strict_keys_and_oneof_witness :
    (fromJsonObj pointReg pointMD .nil (.cons "x" (.jNum 1) .nil)
        = .ok (.cons 1 (.vInt 1) .nil) ∧
      pointMD.fields.find? (fun fd => fd.name == "zz") = none ∧
      fromJSON pointReg pointMD
          (.jObj (jobjAppend (.cons "x" (.jNum 1) .nil) (.cons "zz" .jNull .nil)))
        = .error (.SchemaError "zz")) ∧
    (fromJsonObj oneofReg oneofMD .nil (.cons "a" (.jNum 1) (.cons "b" (.jNum 2) .nil))
        = .ok (.cons 1 (.vInt 1) (.cons 2 (.vInt 2) .nil)) ∧
      ∃ g' ∈ oneofMD.oneofs, ∃ f1' f2' : String,
        f1' ∈ objKeys (.cons "a" (.jNum 1) (.cons "b" (.jNum 2) .nil)) ∧
        f2' ∈ objKeys (.cons "a" (.jNum 1) (.cons "b" (.jNum 2) .nil)) ∧
        f1' ∈ g'.memberNames ∧ f2' ∈ g'.memberNames ∧
        fromJSON oneofReg oneofMD
            (.jObj (.cons "a" (.jNum 1) (.cons "b" (.jNum 2) .nil)))
          = .error (.OneofConflictError g'.name f1' f2')) :=
  ⟨⟨by decide, by decide,
    C8_strict_keys_and_oneof.1 pointReg pointMD (.cons "x" (.jNum 1) .nil) "zz" .jNull
      .nil (.cons 1 (.vInt 1) .nil) (by decide) (by decide)⟩,
   ⟨by decide,
    C8_strict_keys_and_oneof.2 oneofReg oneofMD
      (.cons "a" (.jNum 1) (.cons "b" (.jNum 2) .nil))
      (.cons 1 (.vInt 1) (.cons 2 (.vInt 2) .nil)) (by decide)
      ⟨"g", ["a", "b"]⟩ (by decide) "a" "b" (by decide) (by decide) (by decide)
      (by decide) (by decide)⟩⟩

/-- Counterexample to C8 as stated: `c8doc` presents both members of the
oneof group `g` yet `fromJSON` reports the unknown key `zz`, not the oneof
conflict, because the strict key walk runs before the conflict check. -/
theorem C8_counterexample :
    oneofMD.oneofs = [⟨"g", ["a", "b"]⟩] ∧
    objKeys c8doc = ["a", "b", "zz"] ∧
    fromJSON oneofReg oneofMD (.jObj c8doc) = .error (.SchemaError "zz") ∧
    ∀ g f1 f2, Err.SchemaError "zz" ≠ Err.OneofConflictError g f1 f2 :=
  ⟨rfl, by decide, by decide, fun g f1 f2 h => Err.noConfusion h⟩

/-! ## Claim C9: atomic success or failure -/

/-- **C9.** Modelled from the spec: each conversion returns through `Except`,
so it either fully succeeds with one complete result or fails with one error,
never both and never a partial message: `decode` and `fromJSON` satisfy the
exclusive dichotomy, and `encode` and `toJSON` are total functions of the
input message alone. -/
theorem C9_atomic_operations (reg : Registry) (md : MessageDescriptor)
    (bs : List Nat) (j : Json) (m : DynamicMessage) :
    ((∃ m', decode reg md bs = .ok m') ∨ (∃ e, decode reg md bs = .error e)) ∧
    (¬ ((∃ m', decode reg md bs = .ok m') ∧ (∃ e, decode reg md bs = .error e))) ∧
    ((∃ m', fromJSON reg md j = .ok m') ∨ (∃ e, fromJSON reg md j = .error e)) ∧
    (¬ ((∃ m', fromJSON reg md j = .ok m') ∧ (∃ e, fromJSON reg md j = .error e))) ∧
    encode reg md m = encodeFields reg md m.fields ++ spansJoin m.unknown ∧
    toJSON reg md m = .jObj (toJsonFields reg md m.fields) := by
  refine ⟨?_, ?_, ?_, ?_, rfl, rfl⟩
  · cases h : decode reg md bs with
    | ok m' => exact .inl ⟨m', rfl⟩
    | error e => exact .inr ⟨e, rfl⟩
  · rintro ⟨⟨m', hm⟩, ⟨e, he⟩⟩
    rw [hm] at he
    exact Except.noConfusion he
  · cases h : fromJSON reg md j with
    | ok m' => exact .inl ⟨m', rfl⟩
    | error e => exact .inr ⟨e, rfl⟩
  · rintro ⟨⟨m', hm⟩, ⟨e, he⟩⟩
    rw [hm] at he
    exact Except.noConfusion he

/-- Witness for C9 at the `Point` example input. -/
theorem C9_atomic_operations_witness :
    ((∃ m', decode pointReg pointMD [8, 5] = .ok m') ∨
      (∃ e, decode pointReg pointMD [8, 5] = .error e)) ∧
    (¬ ((∃ m', decode pointReg pointMD [8, 5] = .ok m') ∧
      (∃ e, decode pointReg pointMD [8, 5] = .error e))) ∧
    ((∃ m', fromJSON pointReg pointMD .jNull = .ok m') ∨
      (∃ e, fromJSON pointReg pointMD .jNull = .error e)) ∧
    (¬ ((∃ m', fromJSON pointReg pointMD .jNull = .ok m') ∧
      (∃ e, fromJSON pointReg pointMD .jNull = .error e))) ∧
    encode pointReg pointMD ⟨ptFields, []⟩
      = encodeFields pointReg pointMD ptFields ++ spansJoin [] ∧
    toJSON pointReg pointMD ⟨ptFields, []⟩
      = .jObj (toJsonFields pointReg pointMD ptFields) :=
  C9_atomic_operations pointReg pointMD [8, 5] .jNull ⟨ptFields, []⟩

/-! ## ExitError (from `internal/exec/exec.go`) -/

/-- From `internal/exec/exec.go`: `ExitError` is an error that signals to
exit with a certain code; it carries `Code int` and `Message string`. -/
structure ExitError where
  Code : Int
  Message : String
deriving DecidableEq, Repr

/-- From `internal/exec/exec.go`: `func (e *ExitError) Error() string {
return e.Message }`. -/
def ExitError.Error (e : ExitError) : String := e.Message

/-- **C10.** From `internal/exec/exec.go` lines 33–41: `ExitError.Error`
returns exactly the `Message` field, and the `Code` field never influences
the rendered string — two values with equal messages render identically
whatever their codes. -/
theorem C10_exit_error_message (e e₁ e₂ : ExitError) :
    ExitError.Error e = e.Message ∧
    (e₁.Message = e₂.Message → ExitError.Error e₁ = ExitError.Error e₂) :=
  ⟨rfl, fun h => h⟩

/-- Witness for C10: codes 0 and 7 with the same message render identically. -/
theorem C10_exit_error_message_witness :
    ExitError.Error ⟨0, "boom"⟩ = "boom" ∧
    ExitError.Error ⟨0, "boom"⟩ = ExitError.Error ⟨7, "boom"⟩ :=
  ⟨(C10_exit_error_message ⟨0, "boom"⟩ ⟨0, "boom"⟩ ⟨7, "boom"⟩).1,
    (C10_exit_error_message ⟨0, "boom"⟩ ⟨0, "boom"⟩ ⟨7, "boom"⟩).2 rfl⟩

end Prototool
